import Mathlib

/-!
# The hashmap freelist of bbolt (`freelist_hmap.go`)

A shallow embedding of the hashmap version of the page freelist and a
verification of its span index, allocator, merger, initializer and exporter.

Conventions of the embedding.

* `common.Pgid`, `common.Txid` and `uint64` are natural numbers below `W = 2^64`;
  every addition and subtraction of the source is reduced modulo `W`.
* `int(x)` for a `uint64` value `x` is the signed reading `toInt x`.
* A Go map is an association list with distinct keys.  `range` visits the
  entries in list order.  Go leaves that order unspecified, so statements are
  proved for every ordering of the entries, and runs of several calls may
  reorder the entries of every map between two calls (`Reorder`).
* A Go set `map[Pgid]struct{}` is a list of its members.
* A panic is the `none` result of an `Option`.
* `common.Verify(fn)` runs `fn` only when verification is switched on; the
  switch is the parameter `verify`.
-/

namespace Bbolt

/-- Number of values of a 64-bit unsigned integer. -/
def W : Nat := 18446744073709551616

/-- The conversion `int(x)` of a `uint64` value: the two's complement reading. -/
def toInt (x : Nat) : Int :=
  if x % W < 9223372036854775808 then ((x % W : Nat) : Int) else ((x % W : Nat) : Int) - 18446744073709551616

/-- Number of iterations of `for i := 0; i < int(size); i++`. -/
def ilen (size : Nat) : Nat := (toInt size).toNat

/-! ## Go maps and sets -/

/-- Lookup `m[k]` with the comma-ok result. -/
def mget {β : Type} : List (Nat × β) → Nat → Option β
  | [], _ => none
  | (k', v) :: m, k => if k' = k then some v else mget m k

/-- Assignment `m[k] = v`. -/
def mset {β : Type} : List (Nat × β) → Nat → β → List (Nat × β)
  | [], k, v => [(k, v)]
  | (k', v') :: m, k, v => if k' = k then (k, v) :: m else (k', v') :: mset m k v

/-- Built-in `delete(m, k)`. -/
def mdel {β : Type} : List (Nat × β) → Nat → List (Nat × β)
  | [], _ => []
  | (k', v') :: m, k => if k' = k then mdel m k else (k', v') :: mdel m k

/-- Assignment `s[x] = struct{}{}` on a set. -/
def sadd (s : List Nat) (x : Nat) : List Nat :=
  if x ∈ s then s else s ++ [x]

/-- Built-in `delete(s, x)` on a set. -/
def sdel : List Nat → Nat → List Nat
  | [], _ => []
  | y :: s, x => if y = x then sdel s x else y :: sdel s x

/-- The keys of a map, in iteration order. -/
def mkeys {β : Type} (m : List (Nat × β)) : List Nat := m.map Prod.fst

/-! ## The freelist -/

/-- The fields of `freelist` that the hashmap version reads or writes. -/
structure freelist where
  /-- Key is the start pgid, value is the span size. -/
  forwardMap : List (Nat × Nat)
  /-- Key is the end pgid, value is the span size. -/
  backwardMap : List (Nat × Nat)
  /-- Key is the span size, value is the set of start pgids of that size. -/
  freemaps : List (Nat × List Nat)
  /-- Count of free pages. -/
  freePagesCount : Nat
  /-- Mapping of Txid that allocated a pgid. -/
  allocs : List (Nat × Nat)
  /-- Fast lookup of all free and pending page ids. -/
  cache : List Nat
  deriving DecidableEq, Repr

/-- A freelist whose maps have been made and are empty. -/
def freelist.fresh : freelist :=
  { forwardMap := [], backwardMap := [], freemaps := [], freePagesCount := 0,
    allocs := [], cache := [] }

/-- Source `addSpan`. -/
def addSpan (f : freelist) (start size : Nat) : freelist :=
  { f with
    backwardMap := mset f.backwardMap (((start + W - 1) % W + size) % W) size
    forwardMap := mset f.forwardMap start size
    freemaps :=
      match mget f.freemaps size with
      | none => mset f.freemaps size [start]
      | some bm => mset f.freemaps size (sadd bm start)
    freePagesCount := (f.freePagesCount + size) % W }

/-- Source `delSpan`. -/
def delSpan (f : freelist) (start size : Nat) : freelist :=
  { f with
    forwardMap := mdel f.forwardMap start
    backwardMap := mdel f.backwardMap ((start + (size + W - 1) % W) % W)
    freemaps :=
      match mget f.freemaps size with
      | none => f.freemaps
      | some bm =>
        if sdel bm start = [] then mdel f.freemaps size
        else mset f.freemaps size (sdel bm start)
    freePagesCount := (f.freePagesCount + W - size % W) % W }

/-- The loop `for i := Pgid(0); i < Pgid(n); i++ { delete(f.cache, pid+i) }`. -/
def evict (cache : List Nat) (pid n : Nat) : List Nat :=
  (List.range (n % W)).foldl (fun c i => sdel c ((pid + i) % W)) cache

/-- The scan `for size, bm := range f.freemaps` of `hashmapAllocate`: the first
bucket of a size that is not below `n` and that has a member, with the first
member visited. -/
def findLarger : List (Nat × List Nat) → Nat → Option (Nat × Nat)
  | [], _ => none
  | (size, bm) :: rest, n =>
    if size < n then findLarger rest n
    else
      match bm with
      | pid :: _ => some (size, pid)
      | [] => findLarger rest n

/-- The second half of `hashmapAllocate`: lookup the map to find a larger span. -/
def allocateLarger (f : freelist) (txid n : Nat) : freelist × Nat :=
  match findLarger f.freemaps (n % W) with
  | some (size, pid) =>
    let f1 := delSpan f pid size
    let f2 := { f1 with allocs := mset f1.allocs pid txid }
    let remain := (size + W - n % W) % W
    let f3 := addSpan f2 ((pid + n % W) % W) remain
    ({ f3 with cache := evict f3.cache pid n }, pid)
  | none => (f, 0)

/-- Source `hashmapAllocate`; `n` is a Go `int` that is not negative.  The result
is the state after the call and the returned pgid. -/
def hashmapAllocate (f : freelist) (txid n : Nat) : freelist × Nat :=
  if n = 0 then (f, 0)
  else
    match mget f.freemaps (n % W) with
    | some (pid :: _) =>
      let f1 := delSpan f pid (n % W)
      let f2 := { f1 with allocs := mset f1.allocs pid txid }
      ({ f2 with cache := evict f2.cache pid n }, pid)
    | _ => allocateLarger f txid n

/-- Source `mergeWithExistingSpan`. -/
def mergeWithExistingSpan (f : freelist) (pid : Nat) : freelist :=
  let prev := (pid + W - 1) % W
  let next := (pid + 1) % W
  let pre := mget f.backwardMap prev
  let nxt := mget f.forwardMap next
  let newStart := pid
  let newSize := 1
  let (f1, newStart, newSize) :=
    match pre with
    | some preSize =>
      let start := ((prev + 1) % W + W - preSize % W) % W
      (delSpan f start preSize, (newStart + W - preSize % W) % W, (newSize + preSize) % W)
    | none => (f, newStart, newSize)
  let (f2, newSize) :=
    match nxt with
    | some nextSize => (delSpan f1 next nextSize, (newSize + nextSize) % W)
    | none => (f1, newSize)
  addSpan f2 newStart newSize

/-- The expansion `start + Pgid(i)` for `i := 0; i < int(size); i++`. -/
def spanIds (start size : Nat) : List Nat :=
  (List.range (ilen size)).map (fun i => (start + i) % W)

/-- The expansion `end - Pgid(i)` for `i := 0; i < int(size); i++`. -/
def spanIdsBack (last size : Nat) : List Nat :=
  (List.range (ilen size)).map (fun i => (last + W - i % W) % W)

/-- Insertion of ids into the set under construction; `none` is the panic
"detected duplicated free page ID". -/
def addIds : List Nat → List Nat → Option (List Nat)
  | ids, [] => some ids
  | ids, id :: rest => if id ∈ ids then none else addIds (ids ++ [id]) rest

/-- Source `idsFromForwardMap`, from a given set `ids`. -/
def idsFromForwardLoop : List Nat → List (Nat × Nat) → Option (List Nat)
  | ids, [] => some ids
  | ids, (start, size) :: rest =>
    match addIds ids (spanIds start size) with
    | none => none
    | some ids1 => idsFromForwardLoop ids1 rest

/-- Source `idsFromForwardMap`. -/
def idsFromForwardMap (f : freelist) : Option (List Nat) :=
  idsFromForwardLoop [] f.forwardMap

/-- Source `idsFromBackwardMap`, from a given set `ids`. -/
def idsFromBackwardLoop : List Nat → List (Nat × Nat) → Option (List Nat)
  | ids, [] => some ids
  | ids, (last, size) :: rest =>
    match addIds ids (spanIdsBack last size) with
    | none => none
    | some ids1 => idsFromBackwardLoop ids1 rest

/-- Source `idsFromBackwardMap`. -/
def idsFromBackwardMap (f : freelist) : Option (List Nat) :=
  idsFromBackwardLoop [] f.backwardMap

/-- The loop `for start := range idSet` of `idsFromFreemaps`. -/
def idsFromBucket (size : Nat) : List Nat → List Nat → Option (List Nat)
  | ids, [] => some ids
  | ids, start :: rest =>
    match addIds ids (spanIds start size) with
    | none => none
    | some ids1 => idsFromBucket size ids1 rest

/-- Source `idsFromFreemaps`, from a given set `ids`. -/
def idsFromFreemapsLoop : List Nat → List (Nat × List Nat) → Option (List Nat)
  | ids, [] => some ids
  | ids, (size, idSet) :: rest =>
    match idsFromBucket size ids idSet with
    | none => none
    | some ids1 => idsFromFreemapsLoop ids1 rest

/-- Source `idsFromFreemaps`. -/
def idsFromFreemaps (f : freelist) : Option (List Nat) :=
  idsFromFreemapsLoop [] f.freemaps

/-- The comparison `reflect.DeepEqual` of two sets of page ids. -/
def setEq (a b : List Nat) : Bool :=
  a.all (fun x => decide (x ∈ b)) && b.all (fun x => decide (x ∈ a))

/-- The loop over the sorted ids in the verification block of
`hashmapMergeSpans`; `false` is one of its two panics. -/
def checkIds (ids1Freemap : List Nat) : Nat → List Nat → Bool
  | _, [] => true
  | prev, id :: rest =>
    if prev = id then false
    else if id ∈ ids1Freemap then false
    else checkIds ids1Freemap id rest

/-- The result of `sort.Sort` on page ids. -/
def sortPgids (ids : List Nat) : List Nat := ids.insertionSort (fun a b => a ≤ b)

/-- The loop `for _, id := range ids { f.mergeWithExistingSpan(id) }`. -/
def mergeAll (f : freelist) (ids : List Nat) : freelist :=
  ids.foldl mergeWithExistingSpan f

/-- Source `hashmapMergeSpans`.  With verification on, the block sorts `ids` in
place, so the merge loop then runs over the sorted ids. -/
def hashmapMergeSpans (verify : Bool) (f : freelist) (ids : List Nat) : Option freelist :=
  if verify then
    match idsFromFreemaps f, idsFromForwardMap f, idsFromBackwardMap f with
    | some ids1Freemap, some ids2Forward, some ids3Backward =>
      if !setEq ids1Freemap ids2Forward then none
      else if !setEq ids1Freemap ids3Backward then none
      else if !checkIds ids1Freemap 0 (sortPgids ids) then none
      else some (mergeAll f (sortPgids ids))
    | _, _, _ => none
  else some (mergeAll f ids)

/-- The sum `int(a) + int(b)` of two Go `int` values. -/
def wrapInt (z : Int) : Int :=
  (z + 9223372036854775808) % 18446744073709551616 - 9223372036854775808

/-- Source `hashmapFreeCountSlow`. -/
def hashmapFreeCountSlow (f : freelist) : Int :=
  f.forwardMap.foldl (fun count e => wrapInt (count + toInt e.2)) 0

/-- Source `hashmapFreeCount`; `none` is the failed assertion
"freePagesCount is out of sync with free pages map". -/
def hashmapFreeCount (verify : Bool) (f : freelist) : Option Int :=
  if verify && decide (toInt f.freePagesCount ≠ hashmapFreeCountSlow f) then none
  else some (toInt f.freePagesCount)

/-- Modelled from the spec: `free_count` is not in this file; the spec says it
returns `free_page_count`, debug builds asserting that it equals the sum of the
lengths in `forward`, which is what `hashmapFreeCount` does. -/
def free_count (verify : Bool) (f : freelist) : Option Int :=
  hashmapFreeCount verify f

/-- The loop `for _, start := range startPageIds` of `hashmapGetFreePageIDs`. -/
def expandStarts (fwd : List (Nat × Nat)) : List Nat → List Nat
  | [] => []
  | start :: rest =>
    match mget fwd start with
    | some size => spanIds start size ++ expandStarts fwd rest
    | none => expandStarts fwd rest

/-- The bound `maxAlloc` of the Go runtime on a 64-bit platform with 48-bit heap
addresses (linux/amd64): `make` panics when the slice would take more bytes. -/
def maxAlloc : Nat := 281474976710656

/-- Source `hashmapGetFreePageIDs`; the `nil` slice is the empty list, and `none`
is a panic: the failed assertion of `free_count`, or `make([]Pgid, 0, count)` with
a capacity that is negative or that takes more than `maxAlloc` bytes, at 8 bytes
for a `Pgid` ("makeslice: cap out of range").  The capacity `len(f.forwardMap)` of
the second `make` is the size of a map that is in memory, which takes more than 8
bytes for an entry, so that call returns.  A machine that runs out of memory
below `maxAlloc` is not modelled. -/
def hashmapGetFreePageIDs (verify : Bool) (f : freelist) : Option (List Nat) :=
  match free_count verify f with
  | none => none
  | some count =>
    if count = 0 then some []
    else if count < 0 ∨ 8 * count > (maxAlloc : Int) then none
    else some (expandStarts f.forwardMap (sortPgids (mkeys f.forwardMap)))

/-- The test `sort.SliceIsSorted(pgids, func(i, j) bool { return pgids[i] < pgids[j] })`:
no element is smaller than its predecessor. -/
def sliceIsSorted : List Nat → Bool
  | [] => true
  | [_] => true
  | a :: b :: rest => !(decide (b < a)) && sliceIsSorted (b :: rest)

/-- The loop `for i := 1; i < len(pgids); i++` of `init`: `prev` is `pgids[i-1]`,
the list is `pgids[i:]`, and the result carries the final `start` and `size`. -/
def initLoop : freelist → Nat → Nat → Nat → List Nat → freelist × Nat × Nat
  | f, start, size, _, [] => (f, start, size)
  | f, start, size, prev, p :: rest =>
    if p = (prev + 1) % W then initLoop f start ((size + 1) % W) p rest
    else initLoop (addSpan f start size) p 1 p rest

/-- The resets of `init`: `freePagesCount = 0` and three fresh maps. -/
def resetIndex (f : freelist) : freelist :=
  { f with freePagesCount := 0, freemaps := [], forwardMap := [], backwardMap := [] }

/-- Source `init`; `none` is the panic "pgids not sorted". -/
def init (f : freelist) (pgids : List Nat) : Option freelist :=
  match pgids with
  | [] => some f
  | p0 :: rest =>
    if !sliceIsSorted pgids then none
    else
      let r := initLoop (resetIndex f) p0 1 p0 rest
      if r.2.2 ≠ 0 ∧ r.2.1 ≠ 0 then some (addSpan r.1 r.2.1 r.2.2) else some r.1



/-! ## Specification vocabulary -/

/-- Distinct keys: what makes an association list a map. -/
def NodupKeys {β : Type} (m : List (Nat × β)) : Prop := (mkeys m).Nodup

instance instDecidableNodupKeys {β : Type} (m : List (Nat × β)) : Decidable (NodupKeys m) := by
  unfold NodupKeys; infer_instance

/-- Sum of the values of a map. -/
def sumVals (m : List (Nat × Nat)) : Nat := (m.map Prod.snd).sum

/-- Page `x` is one of the `size` pages `start, start+1, …` (page ids wrap at `W`,
as `start + Pgid(i)` does in the source). -/
def covers (start size x : Nat) : Prop := (x + W - start) % W < size

instance instDecidableCovers (start size x : Nat) : Decidable (covers start size x) := by
  unfold covers; infer_instance

/-- Page `x` is free: a span of `forwardMap` covers it. -/
def isFree (f : freelist) (x : Nat) : Prop := ∃ e ∈ f.forwardMap, covers e.1 e.2 x

instance instDecidableIsFree (f : freelist) (x : Nat) : Decidable (isFree f x) := by
  unfold isFree; infer_instance

/-- The start `start` is a member of the bucket `freemaps[size]`. -/
def inBucket (fm : List (Nat × List Nat)) (size start : Nat) : Prop :=
  match mget fm size with
  | some bm => start ∈ bm
  | none => False

instance instDecidableInBucket (fm : List (Nat × List Nat)) (size start : Nat) :
    Decidable (inBucket fm size start) := by
  unfold inBucket
  cases mget fm size <;> infer_instance

/-- The key of `backwardMap` that `addSpan` writes: `start - 1 + Pgid(size)`. -/
def endOf (start size : Nat) : Nat := ((start + W - 1) % W + size) % W

/-- The start of the span that ends at `last`: `last + 1 - Pgid(size)`. -/
def startOf (last size : Nat) : Nat := ((last + 1) % W + W - size % W) % W

/-- The state is well typed: the three maps have distinct keys, the buckets
distinct members, and every page id, size and counter is a 64-bit value. -/
def Typed (f : freelist) : Prop :=
  NodupKeys f.forwardMap ∧ NodupKeys f.backwardMap ∧ NodupKeys f.freemaps ∧
  (∀ e ∈ f.forwardMap, e.1 < W ∧ e.2 < W) ∧
  (∀ e ∈ f.backwardMap, e.1 < W ∧ e.2 < W) ∧
  (∀ b ∈ f.freemaps, b.1 < W ∧ b.2.Nodup ∧ ∀ s ∈ b.2, s < W) ∧
  f.freePagesCount < W

instance instDecidableTyped (f : freelist) : Decidable (Typed f) := by
  unfold Typed; infer_instance

/-- The three maps describe the same spans:
`forward[s] = n ⇔ backward[s+n-1] = n ⇔ s ∈ sized[n]`. -/
def MapsConsistent (f : freelist) : Prop :=
  (∀ e ∈ f.forwardMap, mget f.backwardMap (endOf e.1 e.2) = some e.2) ∧
  (∀ e ∈ f.backwardMap, mget f.forwardMap (startOf e.1 e.2) = some e.2) ∧
  (∀ e ∈ f.forwardMap, inBucket f.freemaps e.2 e.1) ∧
  (∀ b ∈ f.freemaps, ∀ s ∈ b.2, mget f.forwardMap s = some b.1)

instance instDecidableMapsConsistent (f : freelist) : Decidable (MapsConsistent f) := by
  unfold MapsConsistent; infer_instance

/-- The counter `freePagesCount` is the sum of the span lengths. -/
def CountConsistent (f : freelist) : Prop := f.freePagesCount = sumVals f.forwardMap

instance instDecidableCountConsistent (f : freelist) : Decidable (CountConsistent f) := by
  unfold CountConsistent; infer_instance

/-- Tri-map consistency: the three maps agree and the counter is in sync. -/
def TriMapConsistent (f : freelist) : Prop := MapsConsistent f ∧ CountConsistent f

instance instDecidableTriMapConsistent (f : freelist) : Decidable (TriMapConsistent f) := by
  unfold TriMapConsistent; infer_instance

/-- Every span has at least one page. -/
def PosLen (f : freelist) : Prop := ∀ e ∈ f.forwardMap, 1 ≤ e.2

instance instDecidablePosLen (f : freelist) : Decidable (PosLen f) := by
  unfold PosLen; infer_instance

/-- Two spans with at least one page each have no page in common: neither
start lies in the other span. -/
def apart (s n t m : Nat) : Prop :=
  n = 0 ∨ m = 0 ∨ (n ≤ (t + W - s) % W ∧ m ≤ (s + W - t) % W)

instance instDecidableApart (s n t m : Nat) : Decidable (apart s n t m) := by
  unfold apart; infer_instance

/-- The spans of `forwardMap` are pairwise disjoint. -/
def SpansDisjoint (f : freelist) : Prop :=
  ∀ e1 ∈ f.forwardMap, ∀ e2 ∈ f.forwardMap, e1.1 ≠ e2.1 → apart e1.1 e1.2 e2.1 e2.2

instance instDecidableSpansDisjoint (f : freelist) : Decidable (SpansDisjoint f) := by
  unfold SpansDisjoint; infer_instance

/-- No span starts right after another one ends: there are no starts `s`, `t`
with `t = s + forwardMap[s]`. -/
def NonAdjacent (f : freelist) : Prop :=
  ∀ e1 ∈ f.forwardMap, ∀ e2 ∈ f.forwardMap, e2.1 ≠ e1.1 + e1.2

instance instDecidableNonAdjacent (f : freelist) : Decidable (NonAdjacent f) := by
  unfold NonAdjacent; infer_instance

/-- No span overlaps another one: there are no starts `s < t < s + forwardMap[s]`. -/
def NonOverlapping (f : freelist) : Prop :=
  ∀ e1 ∈ f.forwardMap, ∀ e2 ∈ f.forwardMap, ¬ (e1.1 < e2.1 ∧ e2.1 < e1.1 + e1.2)

instance instDecidableNonOverlapping (f : freelist) : Decidable (NonOverlapping f) := by
  unfold NonOverlapping; infer_instance

/-- No span contains page id 0. -/
def NoZero (f : freelist) : Prop := ¬ isFree f 0

instance instDecidableNoZero (f : freelist) : Decidable (NoZero f) := by
  unfold NoZero; infer_instance

/-- No span starts at page id 0. -/
def NoSpanAtZero (f : freelist) : Prop := ∀ e ∈ f.forwardMap, e.1 ≠ 0

instance instDecidableNoSpanAtZero (f : freelist) : Decidable (NoSpanAtZero f) := by
  unfold NoSpanAtZero; infer_instance

/-- No span runs past the largest page id. -/
def NoWrap (f : freelist) : Prop := ∀ e ∈ f.forwardMap, e.1 + e.2 ≤ W

instance instDecidableNoWrap (f : freelist) : Decidable (NoWrap f) := by
  unfold NoWrap; infer_instance

/-- Every bucket of `freemaps` has a member. -/
def NoEmptyBucket (f : freelist) : Prop := ∀ b ∈ f.freemaps, b.2 ≠ []

instance instDecidableNoEmptyBucket (f : freelist) : Decidable (NoEmptyBucket f) := by
  unfold NoEmptyBucket; infer_instance

/-- The maps of a well-typed, consistent state, read through lookups. -/
structure Cons (f : freelist) : Prop where
  nd_f : NodupKeys f.forwardMap
  nd_b : NodupKeys f.backwardMap
  nd_m : NodupKeys f.freemaps
  nd_k : ∀ n bm, mget f.freemaps n = some bm → bm.Nodup
  lt_f : ∀ s n, mget f.forwardMap s = some n → s < W ∧ n < W
  lt_b : ∀ e n, mget f.backwardMap e = some n → e < W ∧ n < W
  lt_m : ∀ n s, inBucket f.freemaps n s → n < W ∧ s < W
  lt_k : ∀ n bm, mget f.freemaps n = some bm → n < W
  fb : ∀ s n, mget f.forwardMap s = some n → mget f.backwardMap (endOf s n) = some n
  bf : ∀ e n, mget f.backwardMap e = some n → mget f.forwardMap (startOf e n) = some n
  fm : ∀ s n, mget f.forwardMap s = some n ↔ inBucket f.freemaps n s

/-- The invariant of the span index: consistent maps whose spans have at least
one page and are pairwise separated by at least one page that is not free. -/
structure MInv (f : freelist) : Prop where
  cons : Cons f
  pos : ∀ s n, mget f.forwardMap s = some n → 1 ≤ n
  sep : ∀ s n t m, mget f.forwardMap s = some n → mget f.forwardMap t = some m → s ≠ t →
    n < (t + W - s) % W


/-- What one merge step achieves when it does not meet a span of `W - 1` pages. -/
def MergeOK (f : freelist) (pid : Nat) (f1 : freelist) : Prop :=
  MInv f1 ∧ (∀ x, x < W → (isFree f1 x ↔ isFree f x ∨ x = pid)) ∧
  sumVals f1.forwardMap = sumVals f.forwardMap + 1 ∧
  f1.freePagesCount = (f.freePagesCount + 1) % W

/-- Two states have the same span index and counter. -/
def IndexEq (f g : freelist) : Prop :=
  f.forwardMap = g.forwardMap ∧ f.backwardMap = g.backwardMap ∧
  f.freemaps = g.freemaps ∧ f.freePagesCount = g.freePagesCount

/-- The span index after `n` pages are taken from the head of the span
`(start, size)`: the span is deleted and, when pages remain, the remainder is
added. -/
def allocIndex (f : freelist) (start size n : Nat) : freelist :=
  if size = n then delSpan f start size
  else addSpan (delSpan f start size) ((start + n) % W) (size - n)

/-- The state of the concrete scenarios: the free set `{5,6,7,10,11,12,13,20}`. -/
def scenarioState : freelist :=
  { forwardMap := [(5, 3), (10, 4), (20, 1)], backwardMap := [(7, 3), (13, 4), (20, 1)],
    freemaps := [(3, [5]), (4, [10]), (1, [20])], freePagesCount := 8,
    allocs := [], cache := [] }

/-- The initial free set of the concrete scenarios. -/
def scenarioIds : List Nat := [5, 6, 7, 10, 11, 12, 13, 20]

/-- The page ids `start, start+1, …` of a run of `size` pages. -/
def fullIds (start size : Nat) : List Nat :=
  (List.range size).map (fun i => (start + i) % W)

/-- The page ids of all spans of a map, each span cut to `g size` pages. -/
def idsWith (g : Nat → Nat) : List (Nat × Nat) → List Nat
  | [] => []
  | e :: m => fullIds e.1 (g e.2) ++ idsWith g m

/-- A state with the single span `(W - 1, 2)`, which runs past the largest page
id: it is what `init([W - 1])` followed by `hashmapMergeSpans([0])` builds. -/
def wrapState : freelist :=
  { forwardMap := [(18446744073709551615, 2)], backwardMap := [(0, 2)],
    freemaps := [(2, [18446744073709551615])], freePagesCount := 2,
    allocs := [], cache := [] }

/-- The invariant of the loop of `init`: consistent maps whose spans lie, in
ascending order and with a gap after each, below the start of the current run. -/
structure InitInv (f : freelist) (start : Nat) : Prop where
  cons : Cons f
  below : ∀ s n, mget f.forwardMap s = some n → 1 ≤ n ∧ s + n < start
  gap : ∀ s n t m, mget f.forwardMap s = some n → mget f.forwardMap t = some m → s < t →
    s + n < t
  cnt : f.freePagesCount = sumVals f.forwardMap

/-- Page `x` lies in a span of `forwardMap`, read without wrap. -/
def inSpan (f : freelist) (x : Nat) : Prop :=
  ∃ s n, mget f.forwardMap s = some n ∧ s ≤ x ∧ x < s + n

/-- The page ids that `idsFromBackwardMap` visits, in order. -/
def idsBack (m : List (Nat × Nat)) : List Nat :=
  m.flatMap (fun e => spanIdsBack e.1 e.2)

/-- The page ids that `idsFromFreemaps` visits, in order. -/
def idsBuckets (fm : List (Nat × List Nat)) : List Nat :=
  fm.flatMap (fun b => b.2.flatMap (fun s => spanIds s b.1))

/-- Page `x` is in one of the sets that the verification block computes: a span
covers it within its first `int(size)` pages. -/
def FreeT (f : freelist) (x : Nat) : Prop :=
  ∃ s n, mget f.forwardMap s = some n ∧ x < W ∧ covers s (ilen n) x

/-- A well-formed state in which the merge loop breaks: the spans `(0,5)` and
`(6, 2^64 - 6)` are disjoint and not adjacent, and page 5 is the only page that
is not free. -/
def fullState : freelist :=
  { forwardMap := [(0, 5), (6, 18446744073709551610)],
    backwardMap := [(4, 5), (18446744073709551615, 18446744073709551610)],
    freemaps := [(5, [0]), (18446744073709551610, [6])],
    freePagesCount := 18446744073709551615,
    allocs := [], cache := [] }

/-- Two states hold the same span index as Go maps: the same keys with the same
values in `forwardMap` and `backwardMap`, the same buckets with the same members
in `freemaps`, and the same counter. -/
def SameIndex (f g : freelist) : Prop :=
  (∀ k, mget f.forwardMap k = mget g.forwardMap k) ∧
  (∀ k, mget f.backwardMap k = mget g.backwardMap k) ∧
  (∀ n, (mget f.freemaps n).isSome = (mget g.freemaps n).isSome) ∧
  (∀ n s, inBucket f.freemaps n s ↔ inBucket g.freemaps n s) ∧
  f.freePagesCount = g.freePagesCount

/-- A well-formed state with the spans `(2^64 - 2, 2)` and `(0, 5)`: disjoint, and
not adjacent as `2^64 - 2 + 2` is no page id. -/
def edgeState : freelist :=
  { forwardMap := [(18446744073709551614, 2), (0, 5)],
    backwardMap := [(18446744073709551615, 2), (4, 5)],
    freemaps := [(2, [18446744073709551614]), (5, [0])],
    freePagesCount := 7, allocs := [], cache := [] }

/-- The state `g` holds the same Go maps and sets as `f`, possibly with their
entries in another order: the order in which `range` visits a map is not fixed. -/
def Reorder (f g : freelist) : Prop :=
  SameIndex f g ∧
  NodupKeys g.forwardMap ∧ NodupKeys g.backwardMap ∧ NodupKeys g.freemaps ∧
  (∀ b ∈ g.freemaps, b.2.Nodup) ∧
  (∀ k, mget f.allocs k = mget g.allocs k) ∧ (∀ x, x ∈ f.cache ↔ x ∈ g.cache)

/-- A well-formed state for the allocator, read through lookups: consistent maps
whose spans have at least one page and are pairwise disjoint. -/
structure AInv (f : freelist) : Prop where
  cons : Cons f
  pos : ∀ s n, mget f.forwardMap s = some n → 1 ≤ n
  dis : ∀ s n t m, mget f.forwardMap s = some n → mget f.forwardMap t = some m → s ≠ t →
    apart s n t m

/-- A run of calls of `hashmapAllocate` with no release in between, from the
state `f` to the state `h`; before each call the maps may be visited in any order.
The list records, for each call, the returned page id and the requested `n`. -/
inductive AllocRun : freelist → List (Nat × Nat) → freelist → Prop
  | done (f : freelist) : AllocRun f [] f
  | call (f g h : freelist) (txid n : Nat) (calls : List (Nat × Nat)) :
      Reorder f g → n < 9223372036854775808 →
      AllocRun (hashmapAllocate g txid n).1 calls h →
      AllocRun f (((hashmapAllocate g txid n).2, n) :: calls) h

/-- The states reached from `init(L)` on a fresh freelist, for a strictly ascending
list `L` of page ids `≥ 2`, by calls of `hashmapAllocate` and calls of `hashmapMergeSpans` that
return, each given duplicate-free page ids that are not free; between two calls
the maps may be visited in any order.  Slices have fewer than `2^63` elements and
`n` is a Go `int` that is not negative. -/
inductive Reachable : freelist → Prop
  | init (f : freelist) (L : List Nat) :
      L.Sorted (fun a b => a < b) → (∀ x ∈ L, 2 ≤ x ∧ x < W) →
      L.length < 9223372036854775808 → init freelist.fresh L = some f → Reachable f
  | alloc (f : freelist) (txid n : Nat) :
      Reachable f → n < 9223372036854775808 → Reachable (hashmapAllocate f txid n).1
  | merge (verify : Bool) (f f1 : freelist) (ids : List Nat) :
      Reachable f → ids.Nodup → (∀ x ∈ ids, x < W ∧ ¬ isFree f x) →
      ids.length < 9223372036854775808 →
      hashmapMergeSpans verify f ids = some f1 → Reachable f1
  | reorder (f g : freelist) : Reachable f → Reorder f g → Reachable g

/-- The runs of pages of two calls that returned non-zero page ids have no page
in common, as page ids and as ranges `[s, s+n)`, and start at different pages. -/
def callsDisjoint (a b : Nat × Nat) : Prop :=
  a.1 ≠ 0 → b.1 ≠ 0 →
    (∀ x, x < W → ¬ (covers a.1 a.2 x ∧ covers b.1 b.2 x)) ∧
    (∀ x, ¬ (a.1 ≤ x ∧ x < a.1 + a.2 ∧ b.1 ≤ x ∧ x < b.1 + b.2)) ∧ a.1 ≠ b.1

/-- The scenario state after `hashmapAllocate(100, 3)`. -/
def scenarioAfter1 : freelist := (hashmapAllocate scenarioState 100 3).1

/-- The scenario state after `hashmapAllocate(100, 3)` and `hashmapAllocate(100, 2)`. -/
def scenarioAfter2 : freelist := (hashmapAllocate scenarioAfter1 100 2).1

/-- The results of the two calls of the scenario, with the requested sizes. -/
def scenarioCalls : List (Nat × Nat) :=
  [((hashmapAllocate scenarioState 100 3).2, 3), ((hashmapAllocate scenarioAfter1 100 2).2, 2)]

/-- The states of `Reachable` in whose history the number of free pages stays in
the range of a Go `int`, the type in which `hashmapFreeCount` reports it: each call
of `hashmapMergeSpans` leaves the counter plus the number of released ids below
`2^63`.  The pages of a database file are fewer than that. -/
inductive ReachableSmall : freelist → Prop
  | init (f : freelist) (L : List Nat) :
      L.Sorted (fun a b => a < b) → (∀ x ∈ L, 2 ≤ x ∧ x < W) →
      L.length < 9223372036854775808 → init freelist.fresh L = some f → ReachableSmall f
  | alloc (f : freelist) (txid n : Nat) :
      ReachableSmall f → n < 9223372036854775808 →
      ReachableSmall (hashmapAllocate f txid n).1
  | merge (verify : Bool) (f f1 : freelist) (ids : List Nat) :
      ReachableSmall f → ids.Nodup → (∀ x ∈ ids, x < W ∧ ¬ isFree f x) →
      f.freePagesCount + ids.length < 9223372036854775808 →
      hashmapMergeSpans verify f ids = some f1 → ReachableSmall f1
  | reorder (f g : freelist) : ReachableSmall f → Reorder f g → ReachableSmall g

/-- The scenario state after `hashmapMergeSpans([21, 19])` with verification on. -/
def scenarioMerged : freelist := mergeAll scenarioState (sortPgids [21, 19])


/-! ## States at a panic, and states at the edge of the page id range -/

/-- Source `init`, with the state in which the call stops: the second component
is `true` when it stops by the panic "pgids not sorted".  The counter is reset
before the test of `sort.SliceIsSorted`, the three maps after it. -/
def initStop (f : freelist) (pgids : List Nat) : freelist × Bool :=
  match pgids with
  | [] => (f, false)
  | p0 :: rest =>
    if !sliceIsSorted pgids then ({ f with freePagesCount := 0 }, true)
    else
      let r := initLoop (resetIndex f) p0 1 p0 rest
      if r.2.2 ≠ 0 ∧ r.2.1 ≠ 0 then (addSpan r.1 r.2.1 r.2.2, false) else (r.1, false)

/-- A well-formed state with the single span `(1, 2^64 - 1)`: every page but
page 0 is free, and the counter is the largest `uint64` value. -/
def nearFullState : freelist :=
  { forwardMap := [(1, 18446744073709551615)],
    backwardMap := [(18446744073709551615, 18446744073709551615)],
    freemaps := [(18446744073709551615, [1])],
    freePagesCount := 18446744073709551615,
    allocs := [], cache := [] }

/-- A well-formed state with the single span `(0, 2^64 - 2)`: the pages
`2^64 - 2` and `2^64 - 1` are the only ones that are not free. -/
def ringState : freelist :=
  { forwardMap := [(0, 18446744073709551614)],
    backwardMap := [(18446744073709551613, 18446744073709551614)],
    freemaps := [(18446744073709551614, [0])],
    freePagesCount := 18446744073709551614,
    allocs := [], cache := [] }

/-- The scenario state with the allocation bookkeeping of a running database:
page 5 was allocated before by transaction 7, and the cache holds the free pages. -/
def scenarioBooked : freelist :=
  { scenarioState with allocs := [(5, 7), (30, 9)], cache := [5, 6, 7, 10, 11, 12, 13, 20] }

/-- A well-formed state with the single span `(2, 2^50)`: its `2^50` free page ids
take `2^53` bytes, more than `make` allocates. -/
def largeState : freelist :=
  { forwardMap := [(2, 1125899906842624)],
    backwardMap := [(1125899906842625, 1125899906842624)],
    freemaps := [(1125899906842624, [2])],
    freePagesCount := 1125899906842624,
    allocs := [], cache := [] }


/-! ## Theorems -/


/-! ## Lemmas on maps and sets -/

theorem mget_mset {β : Type} (m : List (Nat × β)) (k : Nat) (v : β) (k' : Nat) :
    mget (mset m k v) k' = if k' = k then some v else mget m k' := by
  induction m with
  | nil =>
    by_cases h : k' = k
    · simp [mset, mget, h]
    · have h' : ¬ k = k' := fun e => h e.symm
      simp [mset, mget, h, h']
  | cons e m ih =>
    obtain ⟨a, b⟩ := e
    by_cases h1 : a = k
    · by_cases h2 : k' = k
      · simp [mset, mget, h1, h2]
      · have h' : ¬ k = k' := fun e => h2 e.symm
        simp [mset, mget, h1, h2, h']
    · by_cases h2 : k' = k
      · subst h2
        simp [mset, mget, h1, ih]
      · simp [mset, mget, h1, h2, ih]

theorem mget_mdel {β : Type} (m : List (Nat × β)) (k k' : Nat) :
    mget (mdel m k) k' = if k' = k then none else mget m k' := by
  induction m with
  | nil => simp [mdel, mget]
  | cons e m ih =>
    obtain ⟨a, b⟩ := e
    by_cases h1 : a = k
    · by_cases h2 : k' = k
      · subst h2
        subst h1
        simp only [if_true] at ih
        simp [mdel, ih]
      · have h' : ¬ k = k' := fun e => h2 e.symm
        simp [mdel, mget, h1, h2, h', ih]
    · by_cases h2 : k' = k
      · subst h2
        simp [mdel, mget, h1, ih]
      · simp [mdel, mget, h1, h2, ih]

theorem mem_mkeys_iff {β : Type} (m : List (Nat × β)) (k : Nat) :
    k ∈ mkeys m ↔ ∃ v, mget m k = some v := by
  induction m with
  | nil => simp [mkeys, mget]
  | cons e m ih =>
    obtain ⟨a, b⟩ := e
    by_cases h : a = k
    · simp [mkeys, mget, h]
    · have h' : ¬ k = a := fun e => h e.symm
      simp only [mkeys, List.map_cons, List.mem_cons, h', false_or, mget, h, if_false]
      exact ih

theorem mget_none_iff {β : Type} (m : List (Nat × β)) (k : Nat) :
    mget m k = none ↔ k ∉ mkeys m := by
  rw [mem_mkeys_iff]
  cases h : mget m k <;> simp


theorem mkeys_mdel {β : Type} (m : List (Nat × β)) (k : Nat) :
    mkeys (mdel m k) = (mkeys m).filter (fun x => decide (x ≠ k)) := by
  induction m with
  | nil => rfl
  | cons e m ih =>
    obtain ⟨a, b⟩ := e
    by_cases h : a = k
    · simp [mdel, mkeys, h] at ih ⊢
      exact ih
    · simp [mdel, mkeys, h] at ih ⊢
      exact ih

theorem nodupKeys_mdel {β : Type} {m : List (Nat × β)} (h : NodupKeys m) (k : Nat) :
    NodupKeys (mdel m k) := by
  unfold NodupKeys at *
  rw [mkeys_mdel]
  exact h.filter _

theorem mem_mkeys_mset {β : Type} (m : List (Nat × β)) (k : Nat) (v : β) (k' : Nat) :
    k' ∈ mkeys (mset m k v) ↔ k' = k ∨ k' ∈ mkeys m := by
  rw [mem_mkeys_iff, mem_mkeys_iff, mget_mset]
  by_cases h : k' = k <;> simp [h]

theorem nodupKeys_mset {β : Type} {m : List (Nat × β)} (h : NodupKeys m) (k : Nat) (v : β) :
    NodupKeys (mset m k v) := by
  induction m with
  | nil => simp [mset, NodupKeys, mkeys]
  | cons e m ih =>
    obtain ⟨a, b⟩ := e
    have h1 : a ∉ mkeys m ∧ NodupKeys m := by
      simpa [NodupKeys, mkeys] using h
    by_cases ha : a = k
    · subst ha
      simp only [mset, if_true]
      simpa [NodupKeys, mkeys] using h
    · simp only [mset, ha, if_false]
      have h2 := ih h1.2
      have h3 : a ∉ mkeys (mset m k v) := by
        rw [mem_mkeys_mset]
        rintro (e | e)
        · exact ha e
        · exact h1.1 e
      show (mkeys ((a, b) :: mset m k v)).Nodup
      simp only [mkeys, List.map_cons, List.nodup_cons]
      exact ⟨h3, h2⟩

theorem mdel_of_not_mem {β : Type} (m : List (Nat × β)) (k : Nat) (h : mget m k = none) :
    mdel m k = m := by
  induction m with
  | nil => rfl
  | cons e m ih =>
    obtain ⟨a, b⟩ := e
    by_cases ha : a = k
    · simp [mget, ha] at h
    · simp only [mget, ha, if_false] at h
      simp [mdel, ha, ih h]

/-- An entry belongs to a map with distinct keys exactly when the lookup finds it. -/
theorem mem_iff_mget {β : Type} {m : List (Nat × β)} (h : NodupKeys m) (k : Nat) (v : β) :
    (k, v) ∈ m ↔ mget m k = some v := by
  induction m with
  | nil => simp [mget]
  | cons e m ih =>
    obtain ⟨a, b⟩ := e
    have h1 : a ∉ mkeys m ∧ NodupKeys m := by
      simpa [NodupKeys, mkeys] using h
    by_cases ha : a = k
    · subst ha
      simp only [List.mem_cons, Prod.mk.injEq, true_and, mget, if_true, Option.some.injEq]
      constructor
      · rintro (e | e)
        · exact e.symm
        · exact absurd (List.mem_map_of_mem Prod.fst e) h1.1
      · intro e
        exact Or.inl e.symm
    · have ha' : ¬ k = a := fun e => ha e.symm
      simp only [List.mem_cons, Prod.mk.injEq, ha', false_and, false_or, mget, ha, if_false]
      exact ih h1.2

theorem mget_of_mem {β : Type} {m : List (Nat × β)} (h : NodupKeys m) {e : Nat × β}
    (he : e ∈ m) : mget m e.1 = some e.2 :=
  (mem_iff_mget h e.1 e.2).1 he

theorem mem_of_mget {β : Type} {m : List (Nat × β)} {k : Nat} {v : β}
    (h : mget m k = some v) : (k, v) ∈ m := by
  induction m with
  | nil => simp [mget] at h
  | cons e m ih =>
    obtain ⟨a, b⟩ := e
    by_cases ha : a = k
    · simp only [mget, ha, if_true, Option.some.injEq] at h
      simp [ha, h]
    · simp only [mget, ha, if_false] at h
      exact List.mem_cons_of_mem _ (ih h)

theorem mem_sadd (s : List Nat) (x y : Nat) : y ∈ sadd s x ↔ y = x ∨ y ∈ s := by
  unfold sadd
  by_cases h : x ∈ s
  · simp only [h, if_true]
    constructor
    · exact Or.inr
    · rintro (e | e)
      · exact e ▸ h
      · exact e
  · simp only [h, if_false, List.mem_append, List.mem_singleton]
    tauto

theorem mem_sdel (s : List Nat) (x y : Nat) : y ∈ sdel s x ↔ y ≠ x ∧ y ∈ s := by
  induction s with
  | nil => simp [sdel]
  | cons a s ih =>
    by_cases h : a = x
    · subst h
      simp only [sdel, if_true, ih, List.mem_cons]
      tauto
    · simp only [sdel, h, if_false, List.mem_cons, ih]
      constructor
      · rintro (e | e)
        · exact ⟨e ▸ h, Or.inl e⟩
        · exact ⟨e.1, Or.inr e.2⟩
      · rintro ⟨e1, e2 | e2⟩
        · exact Or.inl e2
        · exact Or.inr ⟨e1, e2⟩

theorem nodup_sadd {s : List Nat} (h : s.Nodup) (x : Nat) : (sadd s x).Nodup := by
  unfold sadd
  by_cases hx : x ∈ s
  · simpa [hx] using h
  · simp only [hx, if_false]
    rw [List.nodup_append]
    refine ⟨h, List.nodup_singleton x, ?_⟩
    intro a ha hb
    simp only [List.mem_singleton] at hb
    exact hx (hb ▸ ha)

theorem sdel_eq_filter (s : List Nat) (x : Nat) :
    sdel s x = s.filter (fun y => decide (y ≠ x)) := by
  induction s with
  | nil => rfl
  | cons a s ih =>
    by_cases h : a = x
    · simp [sdel, h, ih]
    · simp [sdel, h, ih]

theorem nodup_sdel {s : List Nat} (h : s.Nodup) (x : Nat) : (sdel s x).Nodup := by
  rw [sdel_eq_filter]
  exact h.filter _


theorem sumVals_mdel {m : List (Nat × Nat)} (h : NodupKeys m) {k v : Nat}
    (hk : mget m k = some v) : sumVals (mdel m k) + v = sumVals m := by
  induction m with
  | nil => simp [mget] at hk
  | cons e m ih =>
    obtain ⟨a, b⟩ := e
    have h1 : a ∉ mkeys m ∧ NodupKeys m := by
      simpa [NodupKeys, mkeys] using h
    by_cases ha : a = k
    · subst ha
      simp only [mget, if_true, Option.some.injEq] at hk
      have h2 : mget m a = none := (mget_none_iff m a).2 h1.1
      simp only [mdel, if_true, mdel_of_not_mem m a h2]
      simp [sumVals, hk]
      omega
    · simp only [mget, ha, if_false] at hk
      have := ih h1.2 hk
      simp only [mdel, ha, if_false]
      simp only [sumVals, List.map_cons, List.sum_cons] at this ⊢
      omega

theorem sumVals_mset {m : List (Nat × Nat)} {k : Nat} (v : Nat)
    (hk : mget m k = none) : sumVals (mset m k v) = sumVals m + v := by
  induction m with
  | nil => simp [mset, sumVals]
  | cons e m ih =>
    obtain ⟨a, b⟩ := e
    by_cases ha : a = k
    · simp [mget, ha] at hk
    · simp only [mget, ha, if_false] at hk
      have := ih hk
      simp only [mset, ha, if_false]
      simp only [sumVals, List.map_cons, List.sum_cons] at this ⊢
      omega



/-- The concrete scenarios start from `init` with `{5,6,7,10,11,12,13,20}`. -/
theorem init_scenario : init freelist.fresh scenarioIds = some scenarioState := by
  decide


/-! ## Arithmetic of page ids -/

theorem delKey_eq (s n : Nat) : (s + (n + W - 1) % W) % W = endOf s n := by
  unfold endOf W; omega

theorem endOf_lt (s n : Nat) : endOf s n < W := by
  unfold endOf W; omega

theorem startOf_lt (e n : Nat) : startOf e n < W := by
  unfold startOf W; omega

theorem endOf_inj {s t n : Nat} (hs : s < W) (ht : t < W) (h : endOf s n = endOf t n) :
    s = t := by
  unfold endOf W at *; omega

theorem startOf_inj {e e' n : Nat} (he : e < W) (he' : e' < W)
    (h : startOf e n = startOf e' n) : e = e' := by
  unfold startOf W at *; omega

theorem startOf_endOf {s n : Nat} (hs : s < W) : startOf (endOf s n) n = s := by
  unfold startOf endOf W at *; omega

theorem endOf_startOf {e n : Nat} (he : e < W) : endOf (startOf e n) n = e := by
  unfold startOf endOf W at *; omega

/-! ## Buckets -/

theorem inBucket_iff (fm : List (Nat × List Nat)) (n s : Nat) :
    inBucket fm n s ↔ ∃ bm, mget fm n = some bm ∧ s ∈ bm := by
  unfold inBucket
  cases mget fm n <;> simp

theorem inBucket_mset (fm : List (Nat × List Nat)) (n : Nat) (bm : List Nat) (n' s : Nat) :
    inBucket (mset fm n bm) n' s ↔ if n' = n then s ∈ bm else inBucket fm n' s := by
  unfold inBucket
  rw [mget_mset]
  by_cases h : n' = n <;> simp [h]

theorem inBucket_mdel (fm : List (Nat × List Nat)) (n n' s : Nat) :
    inBucket (mdel fm n) n' s ↔ n' ≠ n ∧ inBucket fm n' s := by
  unfold inBucket
  rw [mget_mdel]
  by_cases h : n' = n <;> simp [h]

theorem inBucket_addSpan (f : freelist) (s n n' s' : Nat) :
    inBucket (addSpan f s n).freemaps n' s' ↔ (n' = n ∧ s' = s) ∨ inBucket f.freemaps n' s' := by
  unfold addSpan
  simp only
  cases h : mget f.freemaps n with
  | none =>
    simp only [inBucket_mset]
    by_cases hn : n' = n
    · subst hn
      simp [inBucket, h]
    · simp [hn]
  | some bm =>
    simp only [inBucket_mset]
    by_cases hn : n' = n
    · subst hn
      simp [inBucket, h, mem_sadd]
    · simp [hn]

theorem inBucket_delSpan (f : freelist) (s n n' s' : Nat) :
    inBucket (delSpan f s n).freemaps n' s' ↔
      inBucket f.freemaps n' s' ∧ ¬ (n' = n ∧ s' = s) := by
  unfold delSpan
  simp only
  cases h : mget f.freemaps n with
  | none =>
    simp only
    by_cases hn : n' = n
    · subst hn
      simp [inBucket, h]
    · simp [hn]
  | some bm =>
    simp only
    by_cases he : sdel bm s = []
    · simp only [he, if_true, inBucket_mdel]
      by_cases hn : n' = n
      · subst hn
        simp only [ne_eq, not_true_eq_false, false_and, true_and, false_iff, not_and, not_not]
        intro hb
        simp only [inBucket, h] at hb
        by_contra hne
        have : s' ∈ sdel bm s := (mem_sdel bm s s').2 ⟨hne, hb⟩
        rw [he] at this
        simp at this
      · simp [hn]
    · simp only [he, if_false, inBucket_mset]
      by_cases hn : n' = n
      · subst hn
        simp only [if_true, mem_sdel, inBucket, h, true_and]
        tauto
      · simp [hn]

theorem nodupKeys_freemaps_addSpan {f : freelist} (h : NodupKeys f.freemaps) (s n : Nat) :
    NodupKeys (addSpan f s n).freemaps := by
  unfold addSpan
  simp only
  cases mget f.freemaps n <;> exact nodupKeys_mset h _ _

theorem nodupKeys_freemaps_delSpan {f : freelist} (h : NodupKeys f.freemaps) (s n : Nat) :
    NodupKeys (delSpan f s n).freemaps := by
  unfold delSpan
  simp only
  cases mget f.freemaps n with
  | none => exact h
  | some bm =>
    simp only
    by_cases he : sdel bm s = []
    · simp only [he, if_true]; exact nodupKeys_mdel h _
    · simp only [he, if_false]; exact nodupKeys_mset h _ _

theorem bucket_nodup_addSpan {f : freelist}
    (h : ∀ n bm, mget f.freemaps n = some bm → bm.Nodup) (s n : Nat) :
    ∀ n' bm, mget (addSpan f s n).freemaps n' = some bm → bm.Nodup := by
  intro n' bm
  unfold addSpan
  simp only
  cases hm : mget f.freemaps n with
  | none =>
    simp only [mget_mset]
    by_cases hn : n' = n
    · simp only [hn, if_true, Option.some.injEq]
      rintro rfl
      exact List.nodup_singleton s
    · simp only [hn, if_false]
      exact h n' bm
  | some b =>
    simp only [mget_mset]
    by_cases hn : n' = n
    · simp only [hn, if_true, Option.some.injEq]
      rintro rfl
      exact nodup_sadd (h n b hm) s
    · simp only [hn, if_false]
      exact h n' bm

theorem bucket_nodup_delSpan {f : freelist}
    (h : ∀ n bm, mget f.freemaps n = some bm → bm.Nodup) (s n : Nat) :
    ∀ n' bm, mget (delSpan f s n).freemaps n' = some bm → bm.Nodup := by
  intro n' bm
  unfold delSpan
  simp only
  cases hm : mget f.freemaps n with
  | none => exact h n' bm
  | some b =>
    simp only
    by_cases he : sdel b s = []
    · simp only [he, if_true, mget_mdel]
      by_cases hn : n' = n
      · simp [hn]
      · simp only [hn, if_false]
        exact h n' bm
    · simp only [he, if_false, mget_mset]
      by_cases hn : n' = n
      · simp only [hn, if_true, Option.some.injEq]
        rintro rfl
        exact nodup_sdel (h n b hm) s
      · simp only [hn, if_false]
        exact h n' bm

theorem key_lt_addSpan {f : freelist} (h : ∀ n bm, mget f.freemaps n = some bm → n < W)
    (s : Nat) {n : Nat} (hn : n < W) :
    ∀ n' bm, mget (addSpan f s n).freemaps n' = some bm → n' < W := by
  intro n' bm
  unfold addSpan
  simp only
  cases mget f.freemaps n with
  | none =>
    simp only [mget_mset]
    by_cases hn' : n' = n
    · intro _
      rw [hn']
      exact hn
    · simp only [hn', if_false]
      exact h n' bm
  | some b =>
    simp only [mget_mset]
    by_cases hn' : n' = n
    · intro _
      rw [hn']
      exact hn
    · simp only [hn', if_false]
      exact h n' bm

theorem key_lt_delSpan {f : freelist} (h : ∀ n bm, mget f.freemaps n = some bm → n < W)
    (s n : Nat) :
    ∀ n' bm, mget (delSpan f s n).freemaps n' = some bm → n' < W := by
  intro n' bm hm
  have hk : n' ∈ mkeys (delSpan f s n).freemaps := (mem_mkeys_iff _ _).2 ⟨bm, hm⟩
  have hk2 : n' ∈ mkeys f.freemaps := by
    revert hk
    unfold delSpan
    simp only
    cases hm2 : mget f.freemaps n with
    | none => exact fun h => h
    | some b =>
      simp only
      by_cases he : sdel b s = []
      · simp only [he, if_true, mkeys_mdel, List.mem_filter]
        exact fun h => h.1
      · simp only [he, if_false, mem_mkeys_mset]
        rintro (h | h)
        · rw [h]
          exact (mem_mkeys_iff _ _).2 ⟨b, hm2⟩
        · exact h
  obtain ⟨b, hb⟩ := (mem_mkeys_iff _ _).1 hk2
  exact h n' b hb

/-! ## The two primitives keep the maps consistent -/

theorem forwardMap_addSpan (f : freelist) (s n : Nat) :
    (addSpan f s n).forwardMap = mset f.forwardMap s n := rfl

theorem backwardMap_addSpan (f : freelist) (s n : Nat) :
    (addSpan f s n).backwardMap = mset f.backwardMap (endOf s n) n := rfl

theorem count_addSpan (f : freelist) (s n : Nat) :
    (addSpan f s n).freePagesCount = (f.freePagesCount + n) % W := rfl

theorem forwardMap_delSpan (f : freelist) (s n : Nat) :
    (delSpan f s n).forwardMap = mdel f.forwardMap s := rfl

theorem backwardMap_delSpan (f : freelist) (s n : Nat) :
    (delSpan f s n).backwardMap = mdel f.backwardMap (endOf s n) := by
  rw [← delKey_eq]; rfl

theorem count_delSpan (f : freelist) (s n : Nat) :
    (delSpan f s n).freePagesCount = (f.freePagesCount + W - n % W) % W := rfl

theorem Cons.consDel {f : freelist} (h : Cons f) {s n : Nat}
    (hs : mget f.forwardMap s = some n) : Cons (delSpan f s n) := by
  have hsn := h.lt_f s n hs
  refine ⟨?_, ?_, ?_, ?_, ?_, ?_, ?_, key_lt_delSpan h.lt_k _ _, ?_, ?_, ?_⟩
  · rw [forwardMap_delSpan]; exact nodupKeys_mdel h.nd_f _
  · rw [backwardMap_delSpan]; exact nodupKeys_mdel h.nd_b _
  · exact nodupKeys_freemaps_delSpan h.nd_m _ _
  · exact bucket_nodup_delSpan h.nd_k _ _
  · intro t m
    rw [forwardMap_delSpan, mget_mdel]
    by_cases ht : t = s
    · simp [ht]
    · simp only [ht, if_false]; exact h.lt_f t m
  · intro e m
    rw [backwardMap_delSpan, mget_mdel]
    by_cases he : e = endOf s n
    · simp [he]
    · simp only [he, if_false]; exact h.lt_b e m
  · intro m t
    rw [inBucket_delSpan]
    intro hb
    exact h.lt_m m t hb.1
  · intro t m
    rw [forwardMap_delSpan, backwardMap_delSpan, mget_mdel, mget_mdel]
    by_cases ht : t = s
    · simp [ht]
    · simp only [ht, if_false]
      intro htm
      have hb := h.fb t m htm
      have hlt := h.lt_f t m htm
      by_cases he : endOf t m = endOf s n
      · exfalso
        rw [he, h.fb s n hs] at hb
        cases hb
        exact ht (endOf_inj hlt.1 hsn.1 he)
      · simp only [he, if_false]; exact hb
  · intro e m
    rw [forwardMap_delSpan, backwardMap_delSpan, mget_mdel, mget_mdel]
    by_cases he : e = endOf s n
    · simp [he]
    · simp only [he, if_false]
      intro hem
      have hf := h.bf e m hem
      have hlt := h.lt_b e m hem
      by_cases hst : startOf e m = s
      · exfalso
        rw [hst, hs] at hf
        cases hf
        apply he
        rw [← hst, endOf_startOf hlt.1]
      · simp only [hst, if_false]; exact hf
  · intro t m
    rw [forwardMap_delSpan, mget_mdel, inBucket_delSpan, ← h.fm]
    by_cases ht : t = s
    · subst ht
      simp only [if_true]
      constructor
      · intro e
        cases e
      · rintro ⟨htm, hne⟩
        rw [hs] at htm
        cases htm
        exact absurd (by simp) hne
    · simp [ht]

theorem Cons.consAdd {f : freelist} (h : Cons f) {s n : Nat} (hs : s < W) (hn : n < W)
    (h1 : mget f.forwardMap s = none) (h2 : mget f.backwardMap (endOf s n) = none) :
    Cons (addSpan f s n) := by
  refine ⟨?_, ?_, ?_, ?_, ?_, ?_, ?_, key_lt_addSpan h.lt_k _ hn, ?_, ?_, ?_⟩
  · rw [forwardMap_addSpan]; exact nodupKeys_mset h.nd_f _ _
  · rw [backwardMap_addSpan]; exact nodupKeys_mset h.nd_b _ _
  · exact nodupKeys_freemaps_addSpan h.nd_m _ _
  · exact bucket_nodup_addSpan h.nd_k _ _
  · intro t m
    rw [forwardMap_addSpan, mget_mset]
    by_cases ht : t = s
    · simp only [ht, if_true, Option.some.injEq]
      rintro rfl
      exact ⟨hs, hn⟩
    · simp only [ht, if_false]; exact h.lt_f t m
  · intro e m
    rw [backwardMap_addSpan, mget_mset]
    by_cases he : e = endOf s n
    · simp only [he, if_true, Option.some.injEq]
      rintro rfl
      exact ⟨endOf_lt s n, hn⟩
    · simp only [he, if_false]; exact h.lt_b e m
  · intro m t
    rw [inBucket_addSpan]
    rintro (⟨rfl, rfl⟩ | hb)
    · exact ⟨hn, hs⟩
    · exact h.lt_m m t hb
  · intro t m
    rw [forwardMap_addSpan, backwardMap_addSpan, mget_mset, mget_mset]
    by_cases ht : t = s
    · simp only [ht, if_true, Option.some.injEq]
      rintro rfl
      simp
    · simp only [ht, if_false]
      intro htm
      have hb := h.fb t m htm
      by_cases he : endOf t m = endOf s n
      · rw [he, h2] at hb
        cases hb
      · simp only [he, if_false]; exact hb
  · intro e m
    rw [forwardMap_addSpan, backwardMap_addSpan, mget_mset, mget_mset]
    by_cases he : e = endOf s n
    · simp only [he, if_true, Option.some.injEq]
      rintro rfl
      simp [startOf_endOf hs]
    · simp only [he, if_false]
      intro hem
      have hf := h.bf e m hem
      by_cases hst : startOf e m = s
      · rw [hst, h1] at hf
        cases hf
      · simp only [hst, if_false]; exact hf
  · intro t m
    rw [forwardMap_addSpan, mget_mset, inBucket_addSpan, ← h.fm]
    by_cases ht : t = s
    · subst ht
      simp only [if_true, Option.some.injEq, and_true, h1]
      constructor
      · rintro rfl
        exact Or.inl rfl
      · rintro (e | e)
        · exact e.symm
        · cases e
    · simp [ht]


/-! ## Free pages and the invariant under the two primitives -/

theorem isFree_iff {f : freelist} (h : NodupKeys f.forwardMap) (x : Nat) :
    isFree f x ↔ ∃ s n, mget f.forwardMap s = some n ∧ covers s n x := by
  unfold isFree
  constructor
  · rintro ⟨e, he, hc⟩
    exact ⟨e.1, e.2, mget_of_mem h he, hc⟩
  · rintro ⟨s, n, hs, hc⟩
    exact ⟨(s, n), mem_of_mget hs, hc⟩

theorem isFree_delSpan {f : freelist} (h : Cons f) (s n x : Nat) :
    isFree (delSpan f s n) x ↔
      ∃ t m, t ≠ s ∧ mget f.forwardMap t = some m ∧ covers t m x := by
  rw [isFree_iff (by rw [forwardMap_delSpan]; exact nodupKeys_mdel h.nd_f _)]
  simp only [forwardMap_delSpan, mget_mdel]
  constructor
  · rintro ⟨t, m, ht, hc⟩
    by_cases hts : t = s
    · simp [hts] at ht
    · simp only [hts, if_false] at ht
      exact ⟨t, m, hts, ht, hc⟩
  · rintro ⟨t, m, hts, ht, hc⟩
    exact ⟨t, m, by simp [hts, ht], hc⟩

theorem isFree_addSpan {f : freelist} (h : Cons f) {s : Nat} (n x : Nat)
    (h1 : mget f.forwardMap s = none) :
    isFree (addSpan f s n) x ↔ isFree f x ∨ covers s n x := by
  rw [isFree_iff (by rw [forwardMap_addSpan]; exact nodupKeys_mset h.nd_f _ _),
    isFree_iff h.nd_f]
  simp only [forwardMap_addSpan, mget_mset]
  constructor
  · rintro ⟨t, m, ht, hc⟩
    by_cases hts : t = s
    · simp only [hts, if_true, Option.some.injEq] at ht
      subst ht
      subst hts
      exact Or.inr hc
    · simp only [hts, if_false] at ht
      exact Or.inl ⟨t, m, ht, hc⟩
  · rintro (⟨t, m, ht, hc⟩ | hc)
    · have hts : t ≠ s := by
        rintro rfl
        rw [h1] at ht
        cases ht
      exact ⟨t, m, by simp [hts, ht], hc⟩
    · exact ⟨s, n, by simp, hc⟩

theorem sumVals_delSpan {f : freelist} (h : Cons f) {s n : Nat}
    (hs : mget f.forwardMap s = some n) :
    sumVals (delSpan f s n).forwardMap + n = sumVals f.forwardMap := by
  rw [forwardMap_delSpan]
  exact sumVals_mdel h.nd_f hs

theorem sumVals_addSpan {f : freelist} {s : Nat} (n : Nat)
    (h1 : mget f.forwardMap s = none) :
    sumVals (addSpan f s n).forwardMap = sumVals f.forwardMap + n := by
  rw [forwardMap_addSpan]
  exact sumVals_mset n h1

theorem MInv.invDel {f : freelist} (h : MInv f) {s n : Nat}
    (hs : mget f.forwardMap s = some n) : MInv (delSpan f s n) := by
  refine ⟨h.cons.consDel hs, ?_, ?_⟩
  · intro t m
    rw [forwardMap_delSpan, mget_mdel]
    by_cases ht : t = s
    · simp [ht]
    · simp only [ht, if_false]; exact h.pos t m
  · intro t m u k
    rw [forwardMap_delSpan, mget_mdel, mget_mdel]
    by_cases ht : t = s
    · simp [ht]
    · by_cases hu : u = s
      · simp [hu]
      · simp only [ht, hu, if_false]; exact h.sep t m u k

theorem MInv.invAdd {f : freelist} (h : MInv f) {s n : Nat} (hs : s < W) (hn : n < W)
    (hpos : 1 ≤ n)
    (h1 : mget f.forwardMap s = none) (h2 : mget f.backwardMap (endOf s n) = none)
    (hsep : ∀ t m, mget f.forwardMap t = some m →
      n < (t + W - s) % W ∧ m < (s + W - t) % W) :
    MInv (addSpan f s n) := by
  refine ⟨h.cons.consAdd hs hn h1 h2, ?_, ?_⟩
  · intro t m
    rw [forwardMap_addSpan, mget_mset]
    by_cases ht : t = s
    · simp only [ht, if_true, Option.some.injEq]
      rintro rfl
      exact hpos
    · simp only [ht, if_false]; exact h.pos t m
  · intro t m u k
    rw [forwardMap_addSpan, mget_mset, mget_mset]
    by_cases ht : t = s
    · by_cases hu : u = s
      · intro _ _ hne
        exact absurd (ht.trans hu.symm) hne
      · simp only [ht, hu, if_true, if_false, Option.some.injEq]
        rintro rfl hk _
        exact (hsep u k hk).1
    · by_cases hu : u = s
      · simp only [ht, hu, if_true, if_false, Option.some.injEq]
        rintro hm rfl _
        exact (hsep t m hm).2
      · simp only [ht, hu, if_false]; exact h.sep t m u k


/-! ## Arithmetic of one merge step -/

theorem ar_cov_self {s n : Nat} (hpos : 1 ≤ n) : covers s n s := by
  unfold covers W at *; omega

theorem ar_cov_last {e n : Nat} (he : e < W) (hn : n < W) (hpos : 1 ≤ n) :
    covers (startOf e n) n e := by
  unfold covers startOf W at *; omega

theorem ar_cov_one {pid x : Nat} (hp : pid < W) (hx : x < W) : covers pid 1 x ↔ x = pid := by
  unfold covers W at *; omega

theorem ar_end_one {pid : Nat} (hp : pid < W) : endOf pid 1 = pid := by
  unfold endOf W at *; omega

theorem ar_succ_ne {pid : Nat} (hp : pid < W) : pid ≠ (pid + 1) % W := by
  unfold W at *; omega

theorem ar_nn_sep {pid t m : Nat} (hp : pid < W) (ht : t < W) (hm : m < W) (hpos : 1 ≤ m)
    (hnc : ¬ covers t m pid) (hne : t ≠ (pid + 1) % W)
    (hne2 : endOf t m ≠ (pid + W - 1) % W) :
    1 < (t + W - pid) % W ∧ m < (pid + W - t) % W := by
  unfold covers endOf W at *; omega

theorem ar_sn_size {p : Nat} (hplt : p < W) (hfull : p ≠ W - 1) : (1 + p) % W = 1 + p := by
  unfold W at *; omega

theorem ar_sn_end {pid p : Nat} (hp : pid < W) (hplt : p < W) (hfull : p ≠ W - 1) :
    endOf (startOf ((pid + W - 1) % W) p) (1 + p) = pid := by
  unfold startOf endOf W at *; omega

theorem ar_sn_sep {pid p t : Nat} (hp : pid < W) (hplt : p < W) (ht : t < W)
    (hs1 : p < (t + W - startOf ((pid + W - 1) % W) p) % W) (hne : t ≠ (pid + 1) % W) :
    1 + p < (t + W - startOf ((pid + W - 1) % W) p) % W := by
  unfold startOf W at *; omega

theorem ar_sn_cov {pid p x : Nat} (hp : pid < W) (hx : x < W) (hplt : p < W)
    (hfull : p ≠ W - 1) :
    covers (startOf ((pid + W - 1) % W) p) (1 + p) x ↔
      covers (startOf ((pid + W - 1) % W) p) p x ∨ x = pid := by
  unfold covers startOf W at *; omega

theorem ar_sn_count (c : Nat) {p : Nat} (hplt : p < W) (hfull : p ≠ W - 1) :
    ((c + W - p % W) % W + (1 + p)) % W = (c + 1) % W := by
  unfold W at *; omega

theorem ar_ns_full {pid : Nat} (hp : pid < W) :
    endOf ((pid + 1) % W) (W - 1) = (pid + W - 1) % W := by
  unfold endOf W at *; omega

theorem ar_ns_end {pid q : Nat} (hp : pid < W) (hq : 1 + q < W) :
    endOf pid (1 + q) = endOf ((pid + 1) % W) q := by
  unfold endOf W at *; omega

theorem ar_ns_sep {pid q t m : Nat} (hp : pid < W) (ht : t < W) (hm : m < W)
    (hq : 1 + q < W)
    (hs1 : q < (t + W - (pid + 1) % W) % W)
    (hnc : ¬ covers t m pid) (hne2 : endOf t m ≠ (pid + W - 1) % W) :
    1 + q < (t + W - pid) % W ∧ m < (pid + W - t) % W := by
  unfold covers endOf W at *; omega

theorem ar_ns_cov {pid q x : Nat} (hp : pid < W) (hx : x < W) (hq : 1 + q < W) :
    covers pid (1 + q) x ↔ covers ((pid + 1) % W) q x ∨ x = pid := by
  unfold covers W at *; omega

theorem ar_ss_ab {pid p : Nat} (hp : pid < W) (hplt : p < W) (hfull : p ≠ W - 1) :
    startOf ((pid + W - 1) % W) p ≠ (pid + 1) % W := by
  unfold startOf W at *; omega

theorem ar_ss_sz {pid p q : Nat} (hp : pid < W) (hplt : p < W) (hqlt : q < W)
    (hfull : p ≠ W - 1)
    (h : q < (startOf ((pid + W - 1) % W) p + W - (pid + 1) % W) % W) : 1 + p + q < W := by
  unfold startOf W at *; omega

theorem ar_ss_start {pid p : Nat} (hp : pid < W) (hplt : p < W) :
    (pid + W - p % W) % W = startOf ((pid + W - 1) % W) p := by
  unfold startOf W at *; omega

theorem ar_ss_size {p q : Nat} (hsz : 1 + p + q < W) : ((1 + p) % W + q) % W = 1 + p + q := by
  unfold W at *; omega

theorem ar_ss_end {pid p q : Nat} (hp : pid < W) (hplt : p < W) (hsz : 1 + p + q < W) :
    endOf (startOf ((pid + W - 1) % W) p) (1 + p + q) = endOf ((pid + 1) % W) q := by
  unfold startOf endOf W at *; omega

theorem ar_ss_sep {pid p q t : Nat} (hp : pid < W) (hplt : p < W) (hsz : 1 + p + q < W)
    (ht : t < W)
    (hs1 : p < (t + W - startOf ((pid + W - 1) % W) p) % W)
    (hs3 : q < (t + W - (pid + 1) % W) % W)
    (htp : t ≠ pid) :
    1 + p + q < (t + W - startOf ((pid + W - 1) % W) p) % W := by
  unfold startOf W at *; omega

theorem ar_ss_cov {pid p q x : Nat} (hp : pid < W) (hx : x < W) (hplt : p < W)
    (hsz : 1 + p + q < W) :
    covers (startOf ((pid + W - 1) % W) p) (1 + p + q) x ↔
      covers (startOf ((pid + W - 1) % W) p) p x ∨ x = pid ∨ covers ((pid + 1) % W) q x := by
  unfold covers startOf W at *; omega

theorem ar_ss_count (c : Nat) {p q : Nat} (hplt : p < W) (hqlt : q < W)
    (hsz : 1 + p + q < W) :
    (((c + W - p % W) % W + W - q % W) % W + (1 + p + q)) % W = (c + 1) % W := by
  unfold W at *; omega

theorem ar_ns_count (c : Nat) {q : Nat} (hq : 1 + q < W) :
    ((c + W - q % W) % W + (1 + q)) % W = (c + 1) % W := by
  unfold W at *; omega


/-! ## One merge step -/

theorem not_covers_of_not_free {f : freelist} {pid : Nat} (hnf : ¬ isFree f pid)
    {t m : Nat} (ht : mget f.forwardMap t = some m) : ¬ covers t m pid :=
  fun hc => hnf ⟨(t, m), mem_of_mget ht, hc⟩

theorem fwd_none_of_not_free {f : freelist} (h : MInv f) {pid : Nat}
    (hnf : ¬ isFree f pid) : mget f.forwardMap pid = none := by
  cases hm : mget f.forwardMap pid with
  | none => rfl
  | some m =>
    exact absurd (ar_cov_self (h.pos pid m hm)) (not_covers_of_not_free hnf hm)

theorem bwd_none_of_not_free {f : freelist} (h : MInv f) {pid : Nat} (hp : pid < W)
    (hnf : ¬ isFree f pid) : mget f.backwardMap pid = none := by
  cases hm : mget f.backwardMap pid with
  | none => rfl
  | some m =>
    have h0 := h.cons.bf pid m hm
    exact absurd (ar_cov_last hp (h.cons.lt_f _ m h0).2 (h.pos _ m h0))
      (not_covers_of_not_free hnf h0)

theorem end_ne_of_bwd_none {f : freelist} (h : MInv f) {e : Nat}
    (hpre : mget f.backwardMap e = none) {t m : Nat}
    (htm : mget f.forwardMap t = some m) : endOf t m ≠ e := by
  intro he
  have := h.cons.fb t m htm
  rw [he, hpre] at this
  cases this

theorem ne_of_fwd_none {f : freelist} {b : Nat}
    (hnxt : mget f.forwardMap b = none) {t m : Nat}
    (htm : mget f.forwardMap t = some m) : t ≠ b := by
  rintro rfl
  rw [hnxt] at htm
  cases htm


theorem merge_none_none {f : freelist} (h : MInv f) {pid : Nat} (hp : pid < W)
    (hnf : ¬ isFree f pid)
    (hpre : mget f.backwardMap ((pid + W - 1) % W) = none)
    (hnxt : mget f.forwardMap ((pid + 1) % W) = none) :
    MergeOK f pid (mergeWithExistingSpan f pid) := by
  have e : mergeWithExistingSpan f pid = addSpan f pid 1 := by
    unfold mergeWithExistingSpan
    simp only [hpre, hnxt]
  rw [e]
  have h1 := fwd_none_of_not_free h hnf
  have h2 := bwd_none_of_not_free h hp hnf
  refine ⟨?_, ?_, sumVals_addSpan 1 h1, count_addSpan f pid 1⟩
  · refine h.invAdd hp (by unfold W; omega) (le_refl 1) h1
      (by rw [ar_end_one hp]; exact h2) ?_
    intro t m htm
    have hlt := h.cons.lt_f t m htm
    exact ar_nn_sep hp hlt.1 hlt.2 (h.pos t m htm) (not_covers_of_not_free hnf htm)
      (ne_of_fwd_none hnxt htm) (end_ne_of_bwd_none h hpre htm)
  · intro x hx
    rw [isFree_addSpan h.cons 1 x h1, ar_cov_one hp hx]

theorem merge_some_none {f : freelist} (h : MInv f) {pid : Nat} (hp : pid < W)
    (hnf : ¬ isFree f pid) {p : Nat}
    (hpre : mget f.backwardMap ((pid + W - 1) % W) = some p) (hfull : p ≠ W - 1)
    (hnxt : mget f.forwardMap ((pid + 1) % W) = none) :
    MergeOK f pid (mergeWithExistingSpan f pid) := by
  have ha := h.cons.bf _ p hpre
  have hplt := (h.cons.lt_f _ p ha).2
  have e : mergeWithExistingSpan f pid =
      addSpan (delSpan f (startOf ((pid + W - 1) % W) p) p)
        (startOf ((pid + W - 1) % W) p) (1 + p) := by
    unfold mergeWithExistingSpan
    simp only [hpre, hnxt]
    rw [ar_ss_start hp hplt, ar_sn_size hplt hfull]
    rfl
  rw [e]
  have halt := (h.cons.lt_f _ p ha).1
  have h1 : mget (delSpan f (startOf ((pid + W - 1) % W) p) p).forwardMap
      (startOf ((pid + W - 1) % W) p) = none := by
    rw [forwardMap_delSpan, mget_mdel]; simp
  have h2 : mget (delSpan f (startOf ((pid + W - 1) % W) p) p).backwardMap
      (endOf (startOf ((pid + W - 1) % W) p) (1 + p)) = none := by
    rw [backwardMap_delSpan, mget_mdel, ar_sn_end hp hplt hfull,
      bwd_none_of_not_free h hp hnf]
    simp
  have hI := h.invDel ha
  have hsz : 1 + p < W := by
    have := ar_sn_size hplt hfull
    unfold W at *; omega
  refine ⟨?_, ?_, ?_, ?_⟩
  · refine hI.invAdd halt hsz (by omega) h1 h2 ?_
    intro t m
    rw [forwardMap_delSpan, mget_mdel]
    by_cases hta : t = startOf ((pid + W - 1) % W) p
    · simp [hta]
    · simp only [hta, if_false]
      intro htm
      have hlt := h.cons.lt_f t m htm
      exact ⟨ar_sn_sep hp hplt hlt.1 (h.sep _ p t m ha htm (fun e => hta e.symm))
        (ne_of_fwd_none hnxt htm), h.sep t m _ p htm ha hta⟩
  · intro x hx
    rw [isFree_addSpan hI.cons _ x h1, isFree_delSpan h.cons, isFree_iff h.cons.nd_f,
      ar_sn_cov hp hx hplt hfull]
    constructor
    · rintro (⟨t, m, _, htm, hcv⟩ | hcv | rfl)
      · exact Or.inl ⟨t, m, htm, hcv⟩
      · exact Or.inl ⟨_, p, ha, hcv⟩
      · exact Or.inr rfl
    · rintro (⟨t, m, htm, hcv⟩ | rfl)
      · by_cases hta : t = startOf ((pid + W - 1) % W) p
        · subst hta
          rw [ha] at htm
          cases htm
          exact Or.inr (Or.inl hcv)
        · exact Or.inl ⟨t, m, hta, htm, hcv⟩
      · exact Or.inr (Or.inr rfl)
  · rw [sumVals_addSpan _ h1]
    have := sumVals_delSpan h.cons ha
    omega
  · rw [count_addSpan, count_delSpan]
    exact ar_sn_count _ hplt hfull

theorem merge_none_some {f : freelist} (h : MInv f) {pid : Nat} (hp : pid < W)
    (hnf : ¬ isFree f pid) {q : Nat}
    (hpre : mget f.backwardMap ((pid + W - 1) % W) = none)
    (hnxt : mget f.forwardMap ((pid + 1) % W) = some q) :
    MergeOK f pid (mergeWithExistingSpan f pid) := by
  have hqlt := (h.cons.lt_f _ q hnxt).2
  have hqb := h.cons.fb _ q hnxt
  have hq1 : q ≠ W - 1 := by
    rintro rfl
    rw [ar_ns_full hp, hpre] at hqb
    cases hqb
  have hsz : 1 + q < W := by
    unfold W at *; omega
  have e : mergeWithExistingSpan f pid =
      addSpan (delSpan f ((pid + 1) % W) q) pid (1 + q) := by
    unfold mergeWithExistingSpan
    simp only [hpre, hnxt]
    rw [ar_sn_size hqlt hq1]
  rw [e]
  have h1 : mget (delSpan f ((pid + 1) % W) q).forwardMap pid = none := by
    rw [forwardMap_delSpan, mget_mdel, fwd_none_of_not_free h hnf]
    simp
  have h2 : mget (delSpan f ((pid + 1) % W) q).backwardMap (endOf pid (1 + q)) = none := by
    rw [backwardMap_delSpan, mget_mdel, ar_ns_end hp hsz]
    simp
  have hI := h.invDel hnxt
  refine ⟨?_, ?_, ?_, ?_⟩
  · refine hI.invAdd hp hsz (by omega) h1 h2 ?_
    intro t m
    rw [forwardMap_delSpan, mget_mdel]
    by_cases htb : t = (pid + 1) % W
    · simp [htb]
    · simp only [htb, if_false]
      intro htm
      have hlt := h.cons.lt_f t m htm
      exact ar_ns_sep hp hlt.1 hlt.2 hsz (h.sep _ q t m hnxt htm (fun e => htb e.symm))
        (not_covers_of_not_free hnf htm) (end_ne_of_bwd_none h hpre htm)
  · intro x hx
    rw [isFree_addSpan hI.cons _ x h1, isFree_delSpan h.cons, isFree_iff h.cons.nd_f,
      ar_ns_cov hp hx hsz]
    constructor
    · rintro (⟨t, m, _, htm, hcv⟩ | hcv | rfl)
      · exact Or.inl ⟨t, m, htm, hcv⟩
      · exact Or.inl ⟨_, q, hnxt, hcv⟩
      · exact Or.inr rfl
    · rintro (⟨t, m, htm, hcv⟩ | rfl)
      · by_cases htb : t = (pid + 1) % W
        · subst htb
          rw [hnxt] at htm
          cases htm
          exact Or.inr (Or.inl hcv)
        · exact Or.inl ⟨t, m, htb, htm, hcv⟩
      · exact Or.inr (Or.inr rfl)
  · rw [sumVals_addSpan _ h1]
    have := sumVals_delSpan h.cons hnxt
    omega
  · rw [count_addSpan, count_delSpan]
    exact ar_ns_count _ hsz

theorem merge_some_some {f : freelist} (h : MInv f) {pid : Nat} (hp : pid < W)
    (hnf : ¬ isFree f pid) {p q : Nat}
    (hpre : mget f.backwardMap ((pid + W - 1) % W) = some p) (hfull : p ≠ W - 1)
    (hnxt : mget f.forwardMap ((pid + 1) % W) = some q) :
    MergeOK f pid (mergeWithExistingSpan f pid) := by
  have ha := h.cons.bf _ p hpre
  have hplt := (h.cons.lt_f _ p ha).2
  have hqlt := (h.cons.lt_f _ q hnxt).2
  have hab := ar_ss_ab hp hplt hfull
  have hsz : 1 + p + q < W :=
    ar_ss_sz hp hplt hqlt hfull (h.sep _ q _ p hnxt ha (fun e => hab e.symm))
  have e : mergeWithExistingSpan f pid =
      addSpan (delSpan (delSpan f (startOf ((pid + W - 1) % W) p) p) ((pid + 1) % W) q)
        (startOf ((pid + W - 1) % W) p) (1 + p + q) := by
    unfold mergeWithExistingSpan
    simp only [hpre, hnxt]
    rw [ar_ss_start hp hplt, ar_ss_size hsz]
    rfl
  rw [e]
  have hnp := fwd_none_of_not_free h hnf
  have halt := (h.cons.lt_f _ p ha).1
  have hI1 := h.invDel ha
  have hb1 : mget (delSpan f (startOf ((pid + W - 1) % W) p) p).forwardMap
      ((pid + 1) % W) = some q := by
    rw [forwardMap_delSpan, mget_mdel, if_neg (fun e => hab (Eq.symm e)), hnxt]
  have hI2 := hI1.invDel hb1
  have h1 : mget (delSpan (delSpan f (startOf ((pid + W - 1) % W) p) p)
      ((pid + 1) % W) q).forwardMap (startOf ((pid + W - 1) % W) p) = none := by
    rw [forwardMap_delSpan, mget_mdel, forwardMap_delSpan, mget_mdel]
    simp
  have h2 : mget (delSpan (delSpan f (startOf ((pid + W - 1) % W) p) p)
      ((pid + 1) % W) q).backwardMap
      (endOf (startOf ((pid + W - 1) % W) p) (1 + p + q)) = none := by
    rw [backwardMap_delSpan, mget_mdel, ar_ss_end hp hplt hsz]
    simp
  refine ⟨?_, ?_, ?_, ?_⟩
  · refine hI2.invAdd halt hsz (by omega) h1 h2 ?_
    intro t m
    rw [forwardMap_delSpan, mget_mdel, forwardMap_delSpan, mget_mdel]
    by_cases htb : t = (pid + 1) % W
    · simp [htb]
    · by_cases hta : t = startOf ((pid + W - 1) % W) p
      · simp [hta]
      · simp only [hta, htb, if_false]
        intro htm
        have hlt := h.cons.lt_f t m htm
        exact ⟨ar_ss_sep hp hplt hsz hlt.1 (h.sep _ p t m ha htm (fun e => hta e.symm))
          (h.sep _ q t m hnxt htm (fun e => htb e.symm)) (ne_of_fwd_none hnp htm),
          h.sep t m _ p htm ha hta⟩
  · intro x hx
    rw [isFree_addSpan hI2.cons _ x h1, isFree_delSpan hI1.cons]
    simp only [forwardMap_delSpan, mget_mdel]
    rw [isFree_iff h.cons.nd_f, ar_ss_cov hp hx hplt hsz]
    constructor
    · rintro (⟨t, m, _, htm, hcv⟩ | hcv | rfl | hcv)
      · by_cases hta : t = startOf ((pid + W - 1) % W) p
        · simp [hta] at htm
        · simp only [hta, if_false] at htm
          exact Or.inl ⟨t, m, htm, hcv⟩
      · exact Or.inl ⟨_, p, ha, hcv⟩
      · exact Or.inr rfl
      · exact Or.inl ⟨_, q, hnxt, hcv⟩
    · rintro (⟨t, m, htm, hcv⟩ | rfl)
      · by_cases hta : t = startOf ((pid + W - 1) % W) p
        · subst hta
          rw [ha] at htm
          cases htm
          exact Or.inr (Or.inl hcv)
        · by_cases htb : t = (pid + 1) % W
          · subst htb
            rw [hnxt] at htm
            cases htm
            exact Or.inr (Or.inr (Or.inr hcv))
          · exact Or.inl ⟨t, m, htb, by simp [hta, htm], hcv⟩
      · exact Or.inr (Or.inr (Or.inl rfl))
  · rw [sumVals_addSpan _ h1]
    have := sumVals_delSpan h.cons ha
    have := sumVals_delSpan hI1.cons hb1
    omega
  · rw [count_addSpan, count_delSpan, count_delSpan]
    exact ar_ss_count _ hplt hqlt hsz

/-- One merge step of a page that is not free keeps the invariant and frees
exactly that page, unless a single span already holds every other page. -/
theorem merge_step {f : freelist} (h : MInv f) {pid : Nat} (hp : pid < W)
    (hnf : ¬ isFree f pid)
    (hfull : mget f.backwardMap ((pid + W - 1) % W) ≠ some (W - 1)) :
    MergeOK f pid (mergeWithExistingSpan f pid) := by
  cases hpre : mget f.backwardMap ((pid + W - 1) % W) with
  | none =>
    cases hnxt : mget f.forwardMap ((pid + 1) % W) with
    | none => exact merge_none_none h hp hnf hpre hnxt
    | some q => exact merge_none_some h hp hnf hpre hnxt
  | some p =>
    have hp1 : p ≠ W - 1 := by
      rintro rfl
      exact hfull hpre
    cases hnxt : mget f.forwardMap ((pid + 1) % W) with
    | none => exact merge_some_none h hp hnf hpre hp1 hnxt
    | some q => exact merge_some_some h hp hnf hpre hp1 hnxt


/-! ## The allocator -/

theorem findLarger_some {fm : List (Nat × List Nat)} {k size pid : Nat}
    (h : findLarger fm k = some (size, pid)) :
    k ≤ size ∧ ∃ bm, (size, pid :: bm) ∈ fm := by
  induction fm with
  | nil => simp [findLarger] at h
  | cons e fm ih =>
    obtain ⟨sz, bm⟩ := e
    unfold findLarger at h
    by_cases hlt : sz < k
    · simp only [hlt, if_true] at h
      obtain ⟨h1, b, hb⟩ := ih h
      exact ⟨h1, b, List.mem_cons_of_mem _ hb⟩
    · simp only [hlt, if_false] at h
      cases bm with
      | nil =>
        simp only at h
        obtain ⟨h1, b, hb⟩ := ih h
        exact ⟨h1, b, List.mem_cons_of_mem _ hb⟩
      | cons p bm =>
        simp only [Option.some.injEq, Prod.mk.injEq] at h
        obtain ⟨rfl, rfl⟩ := h
        exact ⟨by omega, bm, List.mem_cons_self _ _⟩

theorem findLarger_none {fm : List (Nat × List Nat)} {k : Nat}
    (h : findLarger fm k = none) : ∀ e ∈ fm, k ≤ e.1 → e.2 = [] := by
  induction fm with
  | nil => simp
  | cons e fm ih =>
    obtain ⟨sz, bm⟩ := e
    unfold findLarger at h
    by_cases hlt : sz < k
    · simp only [hlt, if_true] at h
      intro e he hk
      rcases List.mem_cons.1 he with rfl | he
      · simp only at hk; omega
      · exact ih h e he hk
    · simp only [hlt, if_false] at h
      cases bm with
      | nil =>
        simp only at h
        intro e he hk
        rcases List.mem_cons.1 he with rfl | he
        · rfl
        · exact ih h e he hk
      | cons p bm => simp at h

/-- The outcomes of `hashmapAllocate` for `n ≠ 0`: an exact fit, a larger span
that is split, or no span at all. -/
theorem alloc_cases (f : freelist) (txid : Nat) {n : Nat} (hn : n ≠ 0) :
    (∃ pid bm, mget f.freemaps (n % W) = some (pid :: bm) ∧
      hashmapAllocate f txid n =
        ({ delSpan f pid (n % W) with
            allocs := mset f.allocs pid txid, cache := evict f.cache pid n }, pid)) ∨
    ((∀ pid bm, mget f.freemaps (n % W) ≠ some (pid :: bm)) ∧
      ∃ size pid, findLarger f.freemaps (n % W) = some (size, pid) ∧
        hashmapAllocate f txid n =
          ({ addSpan (delSpan f pid size) ((pid + n % W) % W) ((size + W - n % W) % W) with
              allocs := mset f.allocs pid txid, cache := evict f.cache pid n }, pid)) ∨
    ((∀ pid bm, mget f.freemaps (n % W) ≠ some (pid :: bm)) ∧
      findLarger f.freemaps (n % W) = none ∧ hashmapAllocate f txid n = (f, 0)) := by
  unfold hashmapAllocate
  simp only [hn, if_false]
  cases hm : mget f.freemaps (n % W) with
  | none =>
    right
    simp only [allocateLarger]
    cases hl : findLarger f.freemaps (n % W) with
    | none => exact Or.inr ⟨by simp, rfl, rfl⟩
    | some r =>
      obtain ⟨size, pid⟩ := r
      exact Or.inl ⟨by simp, size, pid, rfl, rfl⟩
  | some b =>
    cases b with
    | nil =>
      right
      simp only [allocateLarger]
      cases hl : findLarger f.freemaps (n % W) with
      | none => exact Or.inr ⟨by simp, rfl, rfl⟩
      | some r =>
        obtain ⟨size, pid⟩ := r
        exact Or.inl ⟨by simp, size, pid, rfl, rfl⟩
    | cons pid bm =>
      left
      exact ⟨pid, bm, rfl, rfl⟩

theorem ar_al_rem {n size : Nat} (h : n ≤ size) (hs : size < W) :
    (size + W - n % W) % W = size - n := by
  unfold W at *; omega

theorem ar_al_split {s n size x : Nat} (hs : s < W) (hx : x < W) (h : n ≤ size)
    (hsz : size < W) :
    covers s size x ↔ covers s n x ∨ covers ((s + n) % W) (size - n) x := by
  unfold covers W at *; omega

theorem ar_al_excl {s n size x : Nat} (hs : s < W) (hx : x < W) (hsz : size < W) :
    ¬ (covers s n x ∧ covers ((s + n) % W) (size - n) x) := by
  unfold covers W at *; omega

theorem ar_apart {s n t m x : Nat} (h : apart s n t m) (hs : s < W) (ht : t < W)
    (hx : x < W) : ¬ (covers s n x ∧ covers t m x) := by
  unfold apart covers W at *; omega

theorem ar_al_key {s n size m : Nat} (h : apart s size ((s + n) % W) m) (hs : s < W)
    (hn : 1 ≤ n) (hlt : n < size) (hsz : size < W) : m = 0 := by
  unfold apart W at *; omega

theorem ar_al_end {s n size : Nat} (hs : s < W) (hlt : n < size) (hsz : size < W) :
    endOf ((s + n) % W) (size - n) = endOf s size := by
  unfold endOf W at *; omega

theorem ar_al_sep {s n size t m : Nat} (hs : s < W) (ht : t < W) (hlt : n < size)
    (hsz : size < W) (h1 : size < (t + W - s) % W) (h2 : m < (s + W - t) % W) :
    size - n < (t + W - (s + n) % W) % W ∧ m < ((s + n) % W + W - t) % W := by
  unfold W at *; omega

theorem ar_al_count (c : Nat) {n size : Nat} (hlt : n < size) (hsz : size < W) :
    ((c + W - size % W) % W + (size - n)) % W = (c + W - n % W) % W := by
  unfold W at *; omega

theorem ar_mod_lt {n : Nat} (h : n < W) : n % W = n := Nat.mod_eq_of_lt h

theorem isFree_congr {f g : freelist} (h : f.forwardMap = g.forwardMap) (x : Nat) :
    isFree f x ↔ isFree g x := by
  unfold isFree
  rw [h]

theorem Cons.consCongr {f g : freelist} (h : Cons f) (e : IndexEq g f) : Cons g := by
  obtain ⟨e1, e2, e3, -⟩ := e
  refine ⟨?_, ?_, ?_, ?_, ?_, ?_, ?_, ?_, ?_, ?_, ?_⟩
  · rw [e1]; exact h.nd_f
  · rw [e2]; exact h.nd_b
  · rw [e3]; exact h.nd_m
  · rw [e3]; exact h.nd_k
  · rw [e1]; exact h.lt_f
  · rw [e2]; exact h.lt_b
  · rw [e3]; exact h.lt_m
  · rw [e3]; exact h.lt_k
  · rw [e1, e2]; exact h.fb
  · rw [e1, e2]; exact h.bf
  · rw [e1, e3]; exact h.fm

theorem MInv.invCongr {f g : freelist} (h : MInv f) (e : IndexEq g f) : MInv g := by
  refine ⟨h.cons.consCongr e, ?_, ?_⟩
  · rw [e.1]; exact h.pos
  · rw [e.1]; exact h.sep

/-- Spans pairwise disjoint, read through lookups. -/
theorem disjoint_mget {f : freelist} (hnd : NodupKeys f.forwardMap) (hd : SpansDisjoint f)
    {s n t m : Nat} (hs : mget f.forwardMap s = some n) (ht : mget f.forwardMap t = some m)
    (hne : s ≠ t) : apart s n t m :=
  hd (s, n) (mem_of_mget hs) (t, m) (mem_of_mget ht) hne

/-- The free pages after an allocation of `n` pages at the head of a span. -/
theorem isFree_allocIndex {f : freelist} (h : Cons f)
    (hd : ∀ s n t m, mget f.forwardMap s = some n → mget f.forwardMap t = some m →
      s ≠ t → apart s n t m)
    {s size n : Nat} (hs : mget f.forwardMap s = some size) (hn1 : 1 ≤ n) (hn : n ≤ size)
    {x : Nat} (hx : x < W) :
    isFree (allocIndex f s size n) x ↔ isFree f x ∧ ¬ covers s n x := by
  have hlt := h.lt_f s size hs
  have hIdel := h.consDel hs
  rw [isFree_iff h.nd_f]
  unfold allocIndex
  by_cases he : size = n
  · subst he
    simp only [if_true]
    rw [isFree_delSpan h]
    constructor
    · rintro ⟨t, m, hts, htm, hc⟩
      refine ⟨⟨t, m, htm, hc⟩, fun hc2 => ?_⟩
      exact ar_apart (hd t m s size htm hs hts) (h.lt_f t m htm).1 hlt.1 hx ⟨hc, hc2⟩
    · rintro ⟨⟨t, m, htm, hc⟩, hnc⟩
      by_cases hts : t = s
      · subst hts
        rw [hs] at htm
        cases htm
        exact absurd hc hnc
      · exact ⟨t, m, hts, htm, hc⟩
  · have hlt2 : n < size := by omega
    simp only [he, if_false]
    have h1 : mget (delSpan f s size).forwardMap ((s + n) % W) = none ∨
        mget (delSpan f s size).forwardMap ((s + n) % W) = some 0 := by
      rw [forwardMap_delSpan, mget_mdel]
      by_cases hk : (s + n) % W = s
      · simp [hk]
      · simp only [hk, if_false]
        cases hm : mget f.forwardMap ((s + n) % W) with
        | none => exact Or.inl rfl
        | some m =>
          have := ar_al_key (hd s size _ m hs hm (fun e => hk e.symm)) hlt.1 hn1 hlt2 hlt.2
          subst this
          exact Or.inr rfl
    rw [isFree_iff (by
      rw [forwardMap_addSpan]; exact nodupKeys_mset hIdel.nd_f _ _)]
    simp only [forwardMap_addSpan, mget_mset, forwardMap_delSpan, mget_mdel]
    have hsplit := ar_al_split (n := n) hlt.1 hx hn hlt.2
    have hexcl := ar_al_excl (n := n) hlt.1 hx hlt.2
    constructor
    · rintro ⟨t, m, htm, hc⟩
      by_cases htb : t = (s + n) % W
      · simp only [htb, if_true, Option.some.injEq] at htm
        subst htm
        subst htb
        refine ⟨⟨s, size, hs, hsplit.2 (Or.inr hc)⟩, fun hc2 => hexcl ⟨hc2, hc⟩⟩
      · simp only [htb, if_false] at htm
        by_cases hts : t = s
        · simp [hts] at htm
        · simp only [hts, if_false] at htm
          refine ⟨⟨t, m, htm, hc⟩, fun hc2 => ?_⟩
          exact ar_apart (hd t m s size htm hs hts) (h.lt_f t m htm).1 hlt.1 hx
            ⟨hc, hsplit.2 (Or.inl hc2)⟩
    · rintro ⟨⟨t, m, htm, hc⟩, hnc⟩
      by_cases hts : t = s
      · subst hts
        rw [hs] at htm
        cases htm
        rcases hsplit.1 hc with hc1 | hc2
        · exact absurd hc1 hnc
        · exact ⟨(t + n) % W, size - n, by simp, hc2⟩
      · by_cases htb : t = (s + n) % W
        · exfalso
          subst htb
          simp only [forwardMap_delSpan, mget_mdel, hts, if_false, htm] at h1
          rcases h1 with h1 | h1
          · cases h1
          · simp only [Option.some.injEq] at h1
            subst h1
            unfold covers at hc
            omega
        · exact ⟨t, m, by simp [htb, hts, htm], hc⟩


theorem sumVals_mset_some {m : List (Nat × Nat)} {k v : Nat} (v' : Nat)
    (hk : mget m k = some v) : sumVals (mset m k v') + v = sumVals m + v' := by
  induction m with
  | nil => simp [mget] at hk
  | cons e m ih =>
    obtain ⟨a, b⟩ := e
    by_cases ha : a = k
    · simp only [mget, ha, if_true, Option.some.injEq] at hk
      simp only [mset, ha, if_true, sumVals, List.map_cons, List.sum_cons]
      omega
    · simp only [mget, ha, if_false] at hk
      have := ih hk
      simp only [mset, ha, if_false]
      simp only [sumVals, List.map_cons, List.sum_cons] at this ⊢
      omega

theorem MInv.invAlloc {f : freelist} (h : MInv f) {s size n : Nat}
    (hs : mget f.forwardMap s = some size) (hn1 : 1 ≤ n) (hn : n ≤ size) :
    MInv (allocIndex f s size n) := by
  have hlt := h.cons.lt_f s size hs
  unfold allocIndex
  by_cases he : size = n
  · simp only [he, if_true]
    rw [← he]
    exact h.invDel hs
  · have hlt2 : n < size := by omega
    simp only [he, if_false]
    have hI := h.invDel hs
    have hkey : (s + n) % W ≠ s := by
      clear hI hs h
      unfold W at *; omega
    have h1 : mget (delSpan f s size).forwardMap ((s + n) % W) = none := by
      rw [forwardMap_delSpan, mget_mdel, if_neg hkey]
      cases hm : mget f.forwardMap ((s + n) % W) with
      | none => rfl
      | some m =>
        exfalso
        have := h.sep s size _ m hs hm (fun e => hkey e.symm)
        clear hI hs h hm
        unfold W at *; omega
    have h2 : mget (delSpan f s size).backwardMap (endOf ((s + n) % W) (size - n)) = none := by
      rw [backwardMap_delSpan, mget_mdel, ar_al_end hlt.1 hlt2 hlt.2]
      simp
    refine hI.invAdd (Nat.mod_lt _ (by unfold W; omega)) (by omega) (by omega) h1 h2 ?_
    intro t m
    rw [forwardMap_delSpan, mget_mdel]
    by_cases hts : t = s
    · simp [hts]
    · simp only [hts, if_false]
      intro htm
      exact ar_al_sep hlt.1 (h.cons.lt_f t m htm).1 hlt2 hlt.2
        (h.sep s size t m hs htm (fun e => hts e.symm)) (h.sep t m s size htm hs hts)

theorem sumVals_allocIndex {f : freelist} (h : Cons f)
    (hd : ∀ s n t m, mget f.forwardMap s = some n → mget f.forwardMap t = some m →
      s ≠ t → apart s n t m)
    {s size n : Nat} (hs : mget f.forwardMap s = some size) (hn1 : 1 ≤ n) (hn : n ≤ size) :
    sumVals (allocIndex f s size n).forwardMap + n = sumVals f.forwardMap := by
  have hlt := h.lt_f s size hs
  have hdel := sumVals_delSpan h hs
  unfold allocIndex
  by_cases he : size = n
  · simp only [he, if_true]
    rw [← he]
    exact hdel
  · have hlt2 : n < size := by omega
    simp only [he, if_false]
    rw [forwardMap_addSpan]
    have hkey : (s + n) % W ≠ s := by
      clear hdel hs h hd
      unfold W at *; omega
    cases hm : mget f.forwardMap ((s + n) % W) with
    | none =>
      have h1 : mget (delSpan f s size).forwardMap ((s + n) % W) = none := by
        rw [forwardMap_delSpan, mget_mdel, if_neg hkey, hm]
      rw [sumVals_mset _ h1]
      omega
    | some m =>
      have hm0 := ar_al_key (hd s size _ m hs hm (fun e => hkey e.symm)) hlt.1 hn1 hlt2 hlt.2
      subst hm0
      have h1 : mget (delSpan f s size).forwardMap ((s + n) % W) = some 0 := by
        rw [forwardMap_delSpan, mget_mdel, if_neg hkey, hm]
      have e1 := sumVals_mset_some (size - n) h1
      omega

theorem count_allocIndex (f : freelist) {s size n : Nat} (hn : n ≤ size) (hsz : size < W) :
    (allocIndex f s size n).freePagesCount = (f.freePagesCount + W - n % W) % W := by
  unfold allocIndex
  by_cases he : size = n
  · simp only [he, if_true]
    rw [count_delSpan]
  · simp only [he, if_false]
    rw [count_addSpan, count_delSpan]
    exact ar_al_count _ (by omega) hsz


/-- What `hashmapAllocate` does on consistent maps, for `n ≠ 0`: either it returns
the start of a span of at least `n` pages and takes the first `n` pages of it, or
no span has `n` pages and it returns 0 and leaves the state alone. -/
theorem alloc_spec {f : freelist} (h : Cons f) (txid : Nat) {n : Nat} (hn0 : n ≠ 0)
    (hn : n < W) :
    (∃ size, mget f.forwardMap (hashmapAllocate f txid n).2 = some size ∧ n ≤ size ∧
      IndexEq (hashmapAllocate f txid n).1
        (allocIndex f (hashmapAllocate f txid n).2 size n)) ∨
    (hashmapAllocate f txid n = (f, 0) ∧ ∀ t m, mget f.forwardMap t = some m → m < n) := by
  have hmod := ar_mod_lt hn
  rcases alloc_cases f txid hn0 with ⟨pid, bm, hm, he⟩ | ⟨hex, size, pid, hl, he⟩ |
    ⟨hex, hl, he⟩
  · left
    rw [hmod] at hm he
    have hf : mget f.forwardMap pid = some n := by
      rw [h.fm, inBucket_iff]
      exact ⟨_, hm, List.mem_cons_self _ _⟩
    rw [he]
    refine ⟨n, hf, le_refl n, ?_⟩
    unfold allocIndex
    simp only [if_true]
    exact ⟨rfl, rfl, rfl, rfl⟩
  · left
    rw [hmod] at hl he hex
    obtain ⟨hle, bm, hmem⟩ := findLarger_some hl
    have hm : mget f.freemaps size = some (pid :: bm) := mget_of_mem h.nd_m hmem
    have hf : mget f.forwardMap pid = some size := by
      rw [h.fm, inBucket_iff]
      exact ⟨_, hm, List.mem_cons_self _ _⟩
    have hne : size ≠ n := by
      rintro rfl
      exact hex pid bm hm
    rw [he]
    refine ⟨size, hf, hle, ?_⟩
    unfold allocIndex
    simp only [hne, if_false]
    have hr := ar_al_rem hle (h.lt_f pid size hf).2
    rw [hmod] at hr
    rw [hr]
    exact ⟨rfl, rfl, rfl, rfl⟩
  · right
    rw [hmod] at hl
    refine ⟨he, ?_⟩
    intro t m htm
    by_contra hge
    have hb := (h.fm t m).1 htm
    rw [inBucket_iff] at hb
    obtain ⟨bm, hbm, htb⟩ := hb
    have := findLarger_none hl (m, bm) (mem_of_mget hbm) (by simp only; omega)
    simp only at this
    rw [this] at htb
    simp at htb


/-! ## Claims on `hashmapAllocate` -/

theorem cons_of_typed {f : freelist} (ht : Typed f) (hc : MapsConsistent f) : Cons f := by
  obtain ⟨t1, t2, t3, t4, t5, t6, -⟩ := ht
  obtain ⟨c1, c2, c3, c4⟩ := hc
  refine ⟨t1, t2, t3, ?_, ?_, ?_, ?_, ?_, ?_, ?_, ?_⟩
  · intro n bm h
    exact (t6 (n, bm) (mem_of_mget h)).2.1
  · intro s n h
    exact t4 (s, n) (mem_of_mget h)
  · intro e n h
    exact t5 (e, n) (mem_of_mget h)
  · intro n s h
    rw [inBucket_iff] at h
    obtain ⟨bm, h1, h2⟩ := h
    obtain ⟨a1, -, a3⟩ := t6 (n, bm) (mem_of_mget h1)
    exact ⟨a1, a3 s h2⟩
  · intro n bm h
    exact (t6 (n, bm) (mem_of_mget h)).1
  · intro s n h
    exact c1 (s, n) (mem_of_mget h)
  · intro e n h
    exact c2 (e, n) (mem_of_mget h)
  · intro s n
    constructor
    · intro h
      exact c3 (s, n) (mem_of_mget h)
    · intro h
      rw [inBucket_iff] at h
      obtain ⟨bm, h1, h2⟩ := h
      exact c4 (n, bm) (mem_of_mget h1) s h2

theorem ar_nozero {s size : Nat} (hs : s < W) (h : ¬ covers s size 0) (h0 : s ≠ 0) :
    s + size ≤ W := by
  unfold covers W at *; omega

theorem ar_in_run {s n size x : Nat} (hw : s + size ≤ W) (hn : n ≤ size) (h1 : s ≤ x)
    (h2 : x < s + n) : covers s n x ∧ covers s size x := by
  unfold covers W at *; omega

theorem ar_out_run {s n x : Nat} (hw : s + n ≤ W) (hx : x < W)
    (h : ¬ (s ≤ x ∧ x < s + n)) : ¬ covers s n x := by
  unfold covers W at *; omega

theorem ar_count_sub {c n : Nat} (hc : c < W) (hn : n ≤ c) :
    (c + W - n % W) % W + n = c := by
  unfold W at *; omega

/-- C4: on a well-formed state (well typed, tri-map consistent, spans disjoint, no
span containing page 0) a call `hashmapAllocate(txid, n)` with `n ≥ 1` that returns
`s ≠ 0` took the pages `s, …, s+n-1`: they are page ids, each was free before the
call and none is free after it, the free status of every other page id is
unchanged, and `freePagesCount` went down by exactly `n`.  The state `f` is
arbitrary, so this holds for every order in which the maps may be visited. -/
theorem hashmapAllocate_takes_free_run (f : freelist) (txid n : Nat) (f1 : freelist) (s : Nat)
    (ht : Typed f) (hc : TriMapConsistent f) (hd : SpansDisjoint f) (hz : NoZero f)
    (hn1 : 1 ≤ n) (hn : n < 9223372036854775808)
    (hr : hashmapAllocate f txid n = (f1, s)) (hs : s ≠ 0) :
    s + n ≤ W ∧
    (∀ x, s ≤ x → x < s + n → isFree f x ∧ ¬ isFree f1 x) ∧
    (∀ x, x < W → ¬ (s ≤ x ∧ x < s + n) → (isFree f1 x ↔ isFree f x)) ∧
    f1.freePagesCount + n = f.freePagesCount := by
  have hcons := cons_of_typed ht hc.1
  have hnW : n < W := by unfold W; omega
  have hdm : ∀ s n t m, mget f.forwardMap s = some n → mget f.forwardMap t = some m →
      s ≠ t → apart s n t m := fun s n t m h1 h2 h3 => disjoint_mget hcons.nd_f hd h1 h2 h3
  rcases alloc_spec hcons txid (by omega : n ≠ 0) hnW with ⟨size, hsz, hle, hidx⟩ | ⟨he, -⟩
  · rw [hr] at hsz hidx
    simp only at hsz hidx
    have hlt := hcons.lt_f s size hsz
    have hw : s + size ≤ W :=
      ar_nozero hlt.1 (fun hcv => hz ⟨(s, size), mem_of_mget hsz, hcv⟩) hs
    have hfree : ∀ x, x < W → (isFree f1 x ↔ isFree f x ∧ ¬ covers s n x) := by
      intro x hx
      rw [isFree_congr hidx.1 x]
      exact isFree_allocIndex hcons hdm hsz hn1 hle hx
    refine ⟨by omega, ?_, ?_, ?_⟩
    · intro x h1 h2
      have hcv := ar_in_run hw hle h1 h2
      refine ⟨⟨(s, size), mem_of_mget hsz, hcv.2⟩, ?_⟩
      rw [hfree x (by omega)]
      exact fun h => h.2 hcv.1
    · intro x hx hout
      rw [hfree x hx]
      have := ar_out_run (by omega : s + n ≤ W) hx hout
      tauto
    · rw [hidx.2.2.2, count_allocIndex f hle hlt.2]
      have hsum := sumVals_delSpan hcons hsz
      have hcount : f.freePagesCount = sumVals f.forwardMap := hc.2
      exact ar_count_sub ht.2.2.2.2.2.2 (by omega)
  · rw [hr] at he
    simp only [Prod.mk.injEq] at he
    exact absurd he.2 hs

theorem hashmapAllocate_takes_free_run_witness :
    (Typed scenarioState ∧ TriMapConsistent scenarioState ∧ SpansDisjoint scenarioState ∧
      NoZero scenarioState) ∧
    (5 + 2 ≤ W ∧
      (∀ x, 5 ≤ x → x < 5 + 2 →
        isFree scenarioState x ∧ ¬ isFree (hashmapAllocate scenarioState 100 2).1 x) ∧
      (∀ x, x < W → ¬ (5 ≤ x ∧ x < 5 + 2) →
        (isFree (hashmapAllocate scenarioState 100 2).1 x ↔ isFree scenarioState x)) ∧
      (hashmapAllocate scenarioState 100 2).1.freePagesCount + 2 =
        scenarioState.freePagesCount) :=
  ⟨by decide,
    hashmapAllocate_takes_free_run scenarioState 100 2 (hashmapAllocate scenarioState 100 2).1 5
      (by decide) (by decide) (by decide) (by decide) (by decide) (by decide) (by decide)
      (by decide)⟩

/-- C5: on a well-formed state (well typed, tri-map consistent, no span starting at
page 0) and for every `n ≥ 0`, `hashmapAllocate(txid, n)` returns 0 exactly when
`n = 0` or no span has `n` pages or more; and whenever it returns 0 the state,
every field of it, is the one before the call. -/
theorem hashmapAllocate_zero_iff (f : freelist) (txid n : Nat)
    (ht : Typed f) (hc : TriMapConsistent f) (hz : NoSpanAtZero f)
    (hn : n < 9223372036854775808) :
    ((hashmapAllocate f txid n).2 = 0 ↔ (n = 0 ∨ ∀ e ∈ f.forwardMap, e.2 < n)) ∧
    ((hashmapAllocate f txid n).2 = 0 → (hashmapAllocate f txid n).1 = f) := by
  by_cases hn0 : n = 0
  · subst hn0
    simp [hashmapAllocate]
  · have hcons := cons_of_typed ht hc.1
    have hnW : n < W := by unfold W; omega
    rcases alloc_spec hcons txid hn0 hnW with ⟨size, hsz, hle, -⟩ | ⟨he, hall⟩
    · have hne : (hashmapAllocate f txid n).2 ≠ 0 := hz _ (mem_of_mget hsz)
      refine ⟨⟨fun h => absurd h hne, ?_⟩, fun h => absurd h hne⟩
      rintro (h | h)
      · exact absurd h hn0
      · have := h _ (mem_of_mget hsz)
        simp only at this
        omega
    · rw [he]
      refine ⟨⟨fun _ => Or.inr ?_, fun _ => rfl⟩, fun _ => rfl⟩
      intro e hmem
      exact hall e.1 e.2 (mget_of_mem hcons.nd_f hmem)

theorem hashmapAllocate_zero_iff_witness :
    (Typed scenarioState ∧ TriMapConsistent scenarioState ∧ NoSpanAtZero scenarioState) ∧
    (((hashmapAllocate scenarioState 1 100).2 = 0 ↔
        ((100 : Nat) = 0 ∨ ∀ e ∈ scenarioState.forwardMap, e.2 < 100)) ∧
      ((hashmapAllocate scenarioState 1 100).2 = 0 →
        (hashmapAllocate scenarioState 1 100).1 = scenarioState)) :=
  ⟨by decide,
    hashmapAllocate_zero_iff scenarioState 1 100 (by decide) (by decide) (by decide)
      (by decide)⟩


/-! ## Merging a list of pages -/

theorem le_sumVals_of_mget {m : List (Nat × Nat)} {k v : Nat} (h : mget m k = some v) :
    v ≤ sumVals m := by
  induction m with
  | nil => simp [mget] at h
  | cons e m ih =>
    obtain ⟨a, b⟩ := e
    by_cases ha : a = k
    · simp only [mget, ha, if_true, Option.some.injEq] at h
      simp only [sumVals, List.map_cons, List.sum_cons]
      omega
    · simp only [mget, ha, if_false] at h
      have := ih h
      simp only [sumVals, List.map_cons, List.sum_cons] at this ⊢
      omega

theorem ar_count_step (c k : Nat) : ((c + 1) % W + k) % W = (c + (k + 1)) % W := by
  unfold W; omega

/-- Merging distinct pages that are not free, one after the other, keeps the
invariant and frees exactly those pages, as long as the pages do not run out. -/
theorem mergeAll_ok (ids : List Nat) : ∀ {f : freelist}, MInv f → ids.Nodup →
    (∀ x ∈ ids, x < W ∧ ¬ isFree f x) → sumVals f.forwardMap + ids.length < W →
    f.freePagesCount < W →
    MInv (mergeAll f ids) ∧
    (∀ x, x < W → (isFree (mergeAll f ids) x ↔ isFree f x ∨ x ∈ ids)) ∧
    sumVals (mergeAll f ids).forwardMap = sumVals f.forwardMap + ids.length ∧
    (mergeAll f ids).freePagesCount = (f.freePagesCount + ids.length) % W := by
  induction ids with
  | nil =>
    intro f h _ _ _ hc
    refine ⟨h, ?_, rfl, ?_⟩
    · intro x _
      simp [mergeAll]
    · show f.freePagesCount = (f.freePagesCount + 0) % W
      rw [Nat.add_zero, Nat.mod_eq_of_lt hc]
  | cons pid ids ih =>
    intro f h hnd hids hb hc
    have hp := hids pid (List.mem_cons_self _ _)
    have hfull : mget f.backwardMap ((pid + W - 1) % W) ≠ some (W - 1) := by
      intro hpre
      have := le_sumVals_of_mget (h.cons.bf _ _ hpre)
      simp only [List.length_cons] at hb
      omega
    obtain ⟨hI, hfree, hsum, hcnt⟩ := merge_step h hp.1 hp.2 hfull
    have hnd2 := (List.nodup_cons.1 hnd)
    have hids2 : ∀ x ∈ ids, x < W ∧ ¬ isFree (mergeWithExistingSpan f pid) x := by
      intro x hx
      have hxf := hids x (List.mem_cons_of_mem _ hx)
      refine ⟨hxf.1, ?_⟩
      rw [hfree x hxf.1]
      rintro (h1 | h1)
      · exact hxf.2 h1
      · subst h1
        exact hnd2.1 hx
    simp only [List.length_cons] at hb
    have hc2 : (mergeWithExistingSpan f pid).freePagesCount < W := by
      rw [hcnt]
      exact Nat.mod_lt _ (by unfold W; omega)
    obtain ⟨r1, r2, r3, r4⟩ := ih hI hnd2.2 hids2 (by omega) hc2
    have e : mergeAll f (pid :: ids) = mergeAll (mergeWithExistingSpan f pid) ids := rfl
    rw [e]
    refine ⟨r1, ?_, ?_, ?_⟩
    · intro x hx
      rw [r2 x hx, hfree x hx]
      simp only [List.mem_cons]
      tauto
    · rw [r3, hsum]
      simp only [List.length_cons]
      omega
    · rw [r4, hcnt]
      simp only [List.length_cons]
      exact ar_count_step _ _


/-! ## Expansion of spans into page ids -/

theorem ar_full_mem {s i n : Nat} (hi : i < n) (hn : n ≤ W) :
    (s + i) % W < W ∧ covers s n ((s + i) % W) := by
  unfold covers W at *; omega

theorem ar_full_back {s n x : Nat} (hs : s < W) (hx : x < W) (hc : covers s n x) :
    (x + W - s) % W < n ∧ (s + (x + W - s) % W) % W = x := by
  unfold covers W at *; omega

theorem ar_full_inj {s i j : Nat} (hi : i < W) (hj : j < W)
    (h : (s + i) % W = (s + j) % W) : i = j := by
  unfold W at *; omega

theorem mem_fullIds {s n x : Nat} (hs : s < W) (hn : n ≤ W) :
    x ∈ fullIds s n ↔ x < W ∧ covers s n x := by
  unfold fullIds
  simp only [List.mem_map, List.mem_range]
  constructor
  · rintro ⟨i, hi, rfl⟩
    exact ar_full_mem hi hn
  · rintro ⟨hx, hc⟩
    have := ar_full_back hs hx hc
    exact ⟨_, this.1, this.2⟩

theorem nodup_fullIds (s : Nat) {n : Nat} (hn : n ≤ W) : (fullIds s n).Nodup := by
  unfold fullIds
  refine List.Nodup.map_on ?_ (List.nodup_range n)
  intro i hi j hj h
  rw [List.mem_range] at hi hj
  exact ar_full_inj (by omega) (by omega) h

theorem length_fullIds (s n : Nat) : (fullIds s n).length = n := by
  simp [fullIds]

theorem mem_idsWith (g : Nat → Nat) (m : List (Nat × Nat)) (x : Nat) :
    x ∈ idsWith g m ↔ ∃ e ∈ m, x ∈ fullIds e.1 (g e.2) := by
  induction m with
  | nil => simp [idsWith]
  | cons e m ih =>
    simp only [idsWith, List.mem_append, ih, List.mem_cons, exists_eq_or_imp]

theorem length_idsWith_id (m : List (Nat × Nat)) : (idsWith id m).length = sumVals m := by
  induction m with
  | nil => rfl
  | cons e m ih =>
    simp only [idsWith, List.length_append, length_fullIds, ih, id, sumVals, List.map_cons,
      List.sum_cons]

theorem ar_cov_mono {s n k x : Nat} (h : k ≤ n) (hc : covers s k x) : covers s n x := by
  unfold covers at *; omega

theorem nodup_idsWith (g : Nat → Nat) (hg : ∀ n, g n ≤ n) (m : List (Nat × Nat))
    (hnd : NodupKeys m) (hlt : ∀ e ∈ m, e.1 < W ∧ e.2 < W)
    (hd : ∀ e1 ∈ m, ∀ e2 ∈ m, e1.1 ≠ e2.1 → apart e1.1 e1.2 e2.1 e2.2) :
    (idsWith g m).Nodup := by
  induction m with
  | nil => simp [idsWith]
  | cons e m ih =>
    have h1 : e.1 ∉ mkeys m ∧ NodupKeys m := by
      simpa [NodupKeys, mkeys] using hnd
    have he := hlt e (List.mem_cons_self _ _)
    have hge : g e.2 ≤ W := by
      have := hg e.2
      omega
    simp only [idsWith]
    rw [List.nodup_append]
    refine ⟨nodup_fullIds _ hge, ?_, ?_⟩
    · exact ih h1.2 (fun e' he' => hlt e' (List.mem_cons_of_mem _ he'))
        (fun e1 h1' e2 h2' => hd e1 (List.mem_cons_of_mem _ h1') e2 (List.mem_cons_of_mem _ h2'))
    · intro x hx1 hx2
      rw [mem_idsWith] at hx2
      obtain ⟨e', he', hx2⟩ := hx2
      have he'lt := hlt e' (List.mem_cons_of_mem _ he')
      have hge' : g e'.2 ≤ W := by
        have := hg e'.2
        omega
      rw [mem_fullIds he.1 hge] at hx1
      rw [mem_fullIds he'lt.1 hge'] at hx2
      have hne : e.1 ≠ e'.1 := by
        intro heq
        apply h1.1
        rw [heq]
        exact List.mem_map_of_mem Prod.fst he'
      exact ar_apart (hd e (List.mem_cons_self _ _) e' (List.mem_cons_of_mem _ he') hne)
        he.1 he'lt.1 hx1.1 ⟨ar_cov_mono (hg _) hx1.2, ar_cov_mono (hg _) hx2.2⟩

/-- Disjoint spans and `k` further distinct pages that are not free fit into the
`W` page ids. -/
theorem sum_add_length_le {f : freelist} (hnd : NodupKeys f.forwardMap)
    (hlt : ∀ e ∈ f.forwardMap, e.1 < W ∧ e.2 < W) (hd : SpansDisjoint f)
    {l : List Nat} (hl : l.Nodup) (hlf : ∀ x ∈ l, x < W ∧ ¬ isFree f x) :
    sumVals f.forwardMap + l.length ≤ W := by
  have h1 : (idsWith id f.forwardMap ++ l).Nodup := by
    rw [List.nodup_append]
    refine ⟨nodup_idsWith id (fun n => le_refl n) _ hnd hlt hd, hl, ?_⟩
    intro x hx1 hx2
    rw [mem_idsWith] at hx1
    obtain ⟨e, he, hx1⟩ := hx1
    have helt := hlt e he
    rw [mem_fullIds helt.1 (by simp only [id]; omega)] at hx1
    exact (hlf x hx2).2 ⟨e, he, hx1.2⟩
  have h2 : idsWith id f.forwardMap ++ l ⊆ List.range W := by
    intro x hx
    rw [List.mem_range]
    rcases List.mem_append.1 hx with hx | hx
    · rw [mem_idsWith] at hx
      obtain ⟨e, he, hx⟩ := hx
      have helt := hlt e he
      rw [mem_fullIds helt.1 (by simp only [id]; omega)] at hx
      exact hx.1
    · exact (hlf x hx).1
  have h3 := (List.Nodup.subperm h1 h2).length_le
  rw [List.length_append, length_idsWith_id, List.length_range] at h3
  exact h3


/-! ## The exporter `hashmapGetFreePageIDs` -/

theorem ilen_of_lt {n : Nat} (h : n < 9223372036854775808) : ilen n = n := by
  have h1 : n % W = n := Nat.mod_eq_of_lt (by unfold W; omega)
  unfold ilen toInt
  rw [h1]
  simp [h]

theorem toInt_of_lt {n : Nat} (h : n < 9223372036854775808) : toInt n = (n : Int) := by
  have h1 : n % W = n := Nat.mod_eq_of_lt (by unfold W; omega)
  unfold toInt
  rw [h1]
  simp [h]

theorem wrapInt_of_lt {z : Int} (h0 : 0 ≤ z) (h : z < 9223372036854775808) : wrapInt z = z := by
  unfold wrapInt
  omega

theorem freeCountSlow_loop (m : List (Nat × Nat)) : ∀ (acc : Nat),
    acc + sumVals m < 9223372036854775808 →
    m.foldl (fun count e => wrapInt (count + toInt e.2)) (acc : Int) = ((acc + sumVals m : Nat) : Int) := by
  induction m with
  | nil =>
    intro acc _
    simp [sumVals]
  | cons e m ih =>
    intro acc h
    simp only [sumVals, List.map_cons, List.sum_cons] at h
    have h2 : sumVals m = (m.map Prod.snd).sum := rfl
    simp only [List.foldl_cons]
    rw [toInt_of_lt (by omega), wrapInt_of_lt (by omega) (by omega)]
    have := ih (acc + e.2) (by rw [h2]; omega)
    rw [show ((acc : Int) + (e.2 : Int)) = ((acc + e.2 : Nat) : Int) by push_cast; rfl, this]
    simp only [sumVals, List.map_cons, List.sum_cons]
    congr 1
    omega

theorem freeCountSlow_eq {f : freelist} (h : sumVals f.forwardMap < 9223372036854775808) :
    hashmapFreeCountSlow f = (sumVals f.forwardMap : Int) := by
  unfold hashmapFreeCountSlow
  have := freeCountSlow_loop f.forwardMap 0 (by omega)
  simpa using this

/-- With the counter in sync and fewer than `2^63` free pages, `free_count` returns
the counter, also when the assertion is checked. -/
theorem free_count_eq (verify : Bool) {f : freelist} (hc : CountConsistent f)
    (h : f.freePagesCount < 9223372036854775808) :
    free_count verify f = some (f.freePagesCount : Int) := by
  unfold free_count hashmapFreeCount
  have h1 : sumVals f.forwardMap < 9223372036854775808 := by
    rw [← hc]; exact h
  rw [freeCountSlow_eq h1, toInt_of_lt h, ← hc]
  simp

theorem ar_nowrap_apart {s n t m : Nat} (h : apart s n t m) (hs : s + n ≤ W) (ht : t + m ≤ W)
    (hst : s < t) (hn : 1 ≤ n) (hm : 1 ≤ m) : s + n ≤ t := by
  unfold apart W at *; omega

theorem mem_fullIds_nowrap {s n x : Nat} (h : s + n ≤ W) :
    x ∈ fullIds s n ↔ s ≤ x ∧ x < s + n := by
  unfold fullIds
  simp only [List.mem_map, List.mem_range]
  constructor
  · rintro ⟨i, hi, rfl⟩
    have : (s + i) % W = s + i := Nat.mod_eq_of_lt (by omega)
    omega
  · rintro ⟨h1, h2⟩
    refine ⟨x - s, by omega, ?_⟩
    have : (s + (x - s)) % W = s + (x - s) := Nat.mod_eq_of_lt (by omega)
    omega

theorem sorted_fullIds_nowrap {s n : Nat} (h : s + n ≤ W) :
    (fullIds s n).Sorted (fun a b => a < b) := by
  unfold fullIds List.Sorted
  rw [List.pairwise_map]
  refine List.Pairwise.imp_of_mem ?_ (List.pairwise_lt_range n)
  intro a b ha hb hab
  rw [List.mem_range] at ha hb
  rw [Nat.mod_eq_of_lt (by omega), Nat.mod_eq_of_lt (by omega)]
  omega

/-- The expansion of ascending starts of disjoint spans that do not wrap. -/
theorem expandStarts_sorted (fwd : List (Nat × Nat))
    (hd : ∀ s n t m, mget fwd s = some n → mget fwd t = some m → s ≠ t → apart s n t m)
    (hw : ∀ s n, mget fwd s = some n → s + n ≤ W ∧ n < 9223372036854775808)
    (ks : List Nat) (hks : ks.Sorted (fun a b => a < b)) :
    (expandStarts fwd ks).Sorted (fun a b => a < b) ∧
    (∀ x, x ∈ expandStarts fwd ks ↔
      ∃ s ∈ ks, ∃ n, mget fwd s = some n ∧ s ≤ x ∧ x < s + n) ∧
    (expandStarts fwd ks).length = (ks.map (fun s => (mget fwd s).getD 0)).sum := by
  induction ks with
  | nil => simp [expandStarts]
  | cons s ks ih =>
    have hks2 := List.sorted_cons.1 hks
    obtain ⟨i1, i2, i3⟩ := ih hks2.2
    cases hm : mget fwd s with
    | none =>
      simp only [expandStarts, hm]
      refine ⟨i1, ?_, ?_⟩
      · intro x
        rw [i2]
        constructor
        · rintro ⟨t, ht, r⟩
          exact ⟨t, List.mem_cons_of_mem _ ht, r⟩
        · rintro ⟨t, ht, n, htn, r⟩
          rcases List.mem_cons.1 ht with rfl | ht
          · rw [hm] at htn
            cases htn
          · exact ⟨t, ht, n, htn, r⟩
      · simp [i3, hm]
    | some n =>
      have hwn := hw s n hm
      have hsp : spanIds s n = fullIds s n := by
        unfold spanIds fullIds
        rw [ilen_of_lt hwn.2]
      simp only [expandStarts, hm, hsp]
      refine ⟨?_, ?_, ?_⟩
      · unfold List.Sorted
        rw [List.pairwise_append]
        refine ⟨sorted_fullIds_nowrap hwn.1, i1, ?_⟩
        intro a ha b hb
        rw [mem_fullIds_nowrap hwn.1] at ha
        rw [i2] at hb
        obtain ⟨t, ht, m, htm, hb1, hb2⟩ := hb
        have hst : s < t := hks2.1 t ht
        have := ar_nowrap_apart (hd s n t m hm htm (by omega)) hwn.1 (hw t m htm).1 hst
          (by omega) (by omega)
        omega
      · intro x
        rw [List.mem_append, mem_fullIds_nowrap hwn.1, i2]
        constructor
        · rintro (h | ⟨t, ht, r⟩)
          · exact ⟨s, List.mem_cons_self _ _, n, hm, h⟩
          · exact ⟨t, List.mem_cons_of_mem _ ht, r⟩
        · rintro ⟨t, ht, m, htm, r⟩
          rcases List.mem_cons.1 ht with rfl | ht
          · rw [hm] at htm
            cases htm
            exact Or.inl r
          · exact Or.inr ⟨t, ht, m, htm, r⟩
      · simp [i3, hm, length_fullIds]

theorem map_getD_mkeys {m : List (Nat × Nat)} (h : NodupKeys m) :
    (mkeys m).map (fun s => (mget m s).getD 0) = m.map Prod.snd := by
  have : ∀ e ∈ m, (mget m e.1).getD 0 = e.2 := by
    intro e he
    rw [mget_of_mem h he]
    rfl
  unfold mkeys
  rw [List.map_map]
  exact List.map_congr_left (fun e he => this e he)

theorem sortPgids_perm (l : List Nat) : (sortPgids l).Perm l :=
  List.perm_insertionSort _ l

theorem sortPgids_sorted (l : List Nat) : (sortPgids l).Sorted (fun a b => a ≤ b) :=
  List.sorted_insertionSort _ l

theorem sortPgids_strict {l : List Nat} (h : l.Nodup) :
    (sortPgids l).Sorted (fun a b => a < b) := by
  have h1 := sortPgids_sorted l
  have h2 : (sortPgids l).Nodup := (sortPgids_perm l).nodup_iff.2 h
  unfold List.Sorted at *
  have h3 := List.Pairwise.and h1 h2
  exact h3.imp (fun ⟨a, b⟩ => lt_of_le_of_ne a b)


theorem ar_nowrap_cov {s n x : Nat} (hs : s + n ≤ W) (hx : x < W) :
    covers s n x ↔ s ≤ x ∧ x < s + n := by
  unfold covers W at *; omega

/-- C10, as stated, fails, in two ways.  `wrapState` is well typed, tri-map
consistent, has disjoint spans and a counter equal to the sum of the span lengths,
it is reached by `init([2^64 - 1])` followed by `hashmapMergeSpans([0])`, and
`hashmapGetFreePageIDs` returns `[2^64 - 1, 0]`, which is not ascending.
`largeState` is as well formed, its single span `(2, 2^50)` does not run past the
largest page id, and `hashmapGetFreePageIDs` returns no list: it panics in
`make([]Pgid, 0, count)`, whose capacity of `2^50` ids is out of range. -/
theorem getFreePageIDs_counterexample :
    ((init freelist.fresh [18446744073709551615]).bind
        (fun f => hashmapMergeSpans false f [0]) = some wrapState ∧
      Typed wrapState ∧ TriMapConsistent wrapState ∧ SpansDisjoint wrapState ∧
      hashmapGetFreePageIDs false wrapState = some [18446744073709551615, 0] ∧
      hashmapGetFreePageIDs true wrapState = some [18446744073709551615, 0] ∧
      ¬ List.Sorted (fun a b => a < b) [18446744073709551615, 0]) ∧
    (Typed largeState ∧ TriMapConsistent largeState ∧ SpansDisjoint largeState ∧
      NoWrap largeState ∧ free_count true largeState = some 1125899906842624 ∧
      hashmapGetFreePageIDs false largeState = none ∧
      hashmapGetFreePageIDs true largeState = none) := by
  decide

/-- On a well-typed state with disjoint spans, none running past the largest page
id, and a counter equal to the sum of the span lengths that is a capacity `make`
accepts, the export returns the sorted expansion of the index. -/
theorem getFreePageIDs_ok (verify : Bool) (f : freelist)
    (ht : Typed f) (hd : SpansDisjoint f) (hc : CountConsistent f) (hw : NoWrap f)
    (hcap : 8 * f.freePagesCount ≤ maxAlloc) :
    ∃ l, hashmapGetFreePageIDs verify f = some l ∧
      l.Sorted (fun a b => a < b) ∧
      (∀ x, x ∈ l ↔ x < W ∧ isFree f x) ∧
      l.length = f.freePagesCount := by
  obtain ⟨t1, -, -, t4, -, -, -⟩ := ht
  have hsmall : f.freePagesCount < 9223372036854775808 := by
    unfold maxAlloc at hcap
    omega
  have hdm : ∀ s n t m, mget f.forwardMap s = some n → mget f.forwardMap t = some m →
      s ≠ t → apart s n t m := fun s n t m h1 h2 h3 => disjoint_mget t1 hd h1 h2 h3
  have hsum : sumVals f.forwardMap < 9223372036854775808 := by
    rw [← hc]; exact hsmall
  have hwm : ∀ s n, mget f.forwardMap s = some n → s + n ≤ W ∧ n < 9223372036854775808 := by
    intro s n h
    have := le_sumVals_of_mget h
    exact ⟨hw (s, n) (mem_of_mget h), by omega⟩
  have hks := sortPgids_strict (l := mkeys f.forwardMap) t1
  obtain ⟨e1, e2, e3⟩ := expandStarts_sorted f.forwardMap hdm hwm _ hks
  have hlen : (expandStarts f.forwardMap (sortPgids (mkeys f.forwardMap))).length =
      f.freePagesCount := by
    rw [e3, hc, (List.Perm.map _ (sortPgids_perm _)).sum_eq, map_getD_mkeys t1]
    rfl
  have hmem : ∀ x, x ∈ expandStarts f.forwardMap (sortPgids (mkeys f.forwardMap)) ↔
      x < W ∧ isFree f x := by
    intro x
    rw [e2, isFree_iff t1]
    constructor
    · rintro ⟨s, -, n, hsn, h1, h2⟩
      have hx : x < W := by
        have := (hwm s n hsn).1
        omega
      exact ⟨hx, s, n, hsn, (ar_nowrap_cov (hwm s n hsn).1 hx).2 ⟨h1, h2⟩⟩
    · rintro ⟨hx, s, n, hsn, hcv⟩
      have hk : s ∈ sortPgids (mkeys f.forwardMap) :=
        (sortPgids_perm _).mem_iff.2 ((mem_mkeys_iff _ _).2 ⟨n, hsn⟩)
      exact ⟨s, hk, n, hsn, (ar_nowrap_cov (hwm s n hsn).1 hx).1 hcv⟩
  unfold hashmapGetFreePageIDs
  rw [free_count_eq verify hc hsmall]
  simp only
  by_cases h0 : f.freePagesCount = 0
  · refine ⟨[], by simp [h0], List.sorted_nil, ?_, by simp [h0]⟩
    intro x
    have hnil : expandStarts f.forwardMap (sortPgids (mkeys f.forwardMap)) = [] :=
      List.length_eq_zero.1 (by rw [hlen, h0])
    rw [← hmem x, hnil]
  · refine ⟨_, ?_, e1, hmem, hlen⟩
    have h1 : ¬ ((f.freePagesCount : Int) = 0) := by
      intro h
      exact h0 (by exact_mod_cast h)
    have h2 : ¬ ((f.freePagesCount : Int) < 0 ∨
        8 * (f.freePagesCount : Int) > (maxAlloc : Int)) := by
      have h3 : (8 * f.freePagesCount : Int) ≤ (maxAlloc : Int) := by exact_mod_cast hcap
      omega
    simp only [h1, h2, if_false]

/-- C10, amended: on a well-formed state (well typed, spans disjoint,
`freePagesCount` equal to the sum of the span lengths) in which no span runs past
the largest page id and the free count is a capacity that `make` accepts (at most
`2^45` pages, 8 bytes each within `maxAlloc`), `hashmapGetFreePageIDs` returns a
strictly ascending list whose elements are exactly the page ids covered by the
spans of `forwardMap`, and whose length is the free count. -/
theorem hashmapGetFreePageIDs_sorted (verify : Bool) (f : freelist)
    (ht : Typed f) (hd : SpansDisjoint f) (hc : CountConsistent f) (hw : NoWrap f)
    (hcap : 8 * f.freePagesCount ≤ maxAlloc) :
    ∃ l, hashmapGetFreePageIDs verify f = some l ∧
      l.Sorted (fun a b => a < b) ∧
      (∀ x, x ∈ l ↔ x < W ∧ isFree f x) ∧
      l.length = f.freePagesCount :=
  getFreePageIDs_ok verify f ht hd hc hw hcap

theorem hashmapGetFreePageIDs_sorted_witness :
    (Typed scenarioState ∧ SpansDisjoint scenarioState ∧ CountConsistent scenarioState ∧
      NoWrap scenarioState ∧ 8 * scenarioState.freePagesCount ≤ maxAlloc) ∧
    ∃ l, hashmapGetFreePageIDs true scenarioState = some l ∧
      l.Sorted (fun a b => a < b) ∧
      (∀ x, x ∈ l ↔ x < W ∧ isFree scenarioState x) ∧
      l.length = scenarioState.freePagesCount :=
  ⟨by decide,
    hashmapGetFreePageIDs_sorted true scenarioState (by decide) (by decide) (by decide)
      (by decide) (by decide)⟩


/-! ## The initializer `init` -/

theorem ar_end_nowrap {s n : Nat} (h1 : 1 ≤ n) (h : s + n ≤ W) : endOf s n = s + n - 1 := by
  unfold endOf W at *; omega

theorem ar_init_end {t n e : Nat} (hn : 1 ≤ n) (ht : t + n ≤ W) (he : endOf t n = e) :
    e + 1 = t + n := by
  unfold endOf W at *; omega

theorem InitInv.initAdd {f : freelist} {start size : Nat} (h : InitInv f start)
    (h1 : 1 ≤ size) (hw : start + size ≤ W)
    (hb : sumVals f.forwardMap + size < W) {p : Nat} (hp : start + size < p) :
    InitInv (addSpan f start size) p := by
  have hf1 : mget f.forwardMap start = none := by
    cases hm : mget f.forwardMap start with
    | none => rfl
    | some n =>
      have := h.below start n hm
      omega
  have hf2 : mget f.backwardMap (endOf start size) = none := by
    cases hm : mget f.backwardMap (endOf start size) with
    | none => rfl
    | some n =>
      exfalso
      have h0 := h.cons.bf _ n hm
      have hlt := h.cons.lt_b _ n hm
      have h2 := h.below _ n h0
      have h3 := ar_init_end h2.1 (by omega) (endOf_startOf (n := n) hlt.1)
      have he := ar_end_nowrap h1 hw
      generalize endOf start size = e at *
      omega
  refine ⟨h.cons.consAdd (by unfold W at *; omega) (by unfold W at *; omega) hf1 hf2, ?_, ?_, ?_⟩
  · intro s n
    rw [forwardMap_addSpan, mget_mset]
    by_cases hs : s = start
    · simp only [hs, if_true, Option.some.injEq]
      rintro rfl
      exact ⟨h1, hp⟩
    · simp only [hs, if_false]
      intro hsn
      have := h.below s n hsn
      omega
  · intro s n t m
    rw [forwardMap_addSpan, mget_mset, mget_mset]
    by_cases hs : s = start
    · by_cases ht : t = start
      · intro _ _ hlt
        omega
      · simp only [hs, ht, if_true, if_false, Option.some.injEq]
        rintro rfl htm hlt
        have := h.below t m htm
        omega
    · by_cases ht : t = start
      · simp only [hs, ht, if_true, if_false, Option.some.injEq]
        rintro hsn rfl _
        have := h.below s n hsn
        omega
      · simp only [hs, ht, if_false]
        exact h.gap s n t m
  · rw [count_addSpan, sumVals_addSpan _ hf1, h.cnt]
    exact Nat.mod_eq_of_lt hb

theorem inSpan_addSpan {f : freelist} {start : Nat} (size x : Nat)
    (h1 : mget f.forwardMap start = none) :
    inSpan (addSpan f start size) x ↔ inSpan f x ∨ (start ≤ x ∧ x < start + size) := by
  unfold inSpan
  simp only [forwardMap_addSpan, mget_mset]
  constructor
  · rintro ⟨t, m, ht, hc⟩
    by_cases hts : t = start
    · simp only [hts, if_true, Option.some.injEq] at ht
      subst ht
      subst hts
      exact Or.inr hc
    · simp only [hts, if_false] at ht
      exact Or.inl ⟨t, m, ht, hc⟩
  · rintro (⟨t, m, ht, hc⟩ | hc)
    · have hts : t ≠ start := by
        rintro rfl
        rw [h1] at ht
        cases ht
      exact ⟨t, m, by simp [hts, ht], hc⟩
    · exact ⟨start, size, by simp, hc⟩

/-- The loop of `init` over an ascending rest of the list: it keeps the loop
invariant, and the spans built together with the pending run hold exactly the
pages seen. -/
theorem initLoop_ok (ps : List Nat) : ∀ (f : freelist) (start size prev : Nat),
    InitInv f start → 1 ≤ size → prev + 1 = start + size → prev < W →
    List.Chain (fun a b => a < b) prev ps → (∀ p ∈ ps, p < W) →
    sumVals f.forwardMap + size + ps.length < W →
    InitInv (initLoop f start size prev ps).1 (initLoop f start size prev ps).2.1 ∧
    1 ≤ (initLoop f start size prev ps).2.2 ∧
    (initLoop f start size prev ps).2.1 + (initLoop f start size prev ps).2.2 ≤ W ∧
    (∀ x, (inSpan (initLoop f start size prev ps).1 x ∨
        ((initLoop f start size prev ps).2.1 ≤ x ∧
          x < (initLoop f start size prev ps).2.1 + (initLoop f start size prev ps).2.2)) ↔
      (inSpan f x ∨ (start ≤ x ∧ x < start + size) ∨ x ∈ ps)) ∧
    sumVals (initLoop f start size prev ps).1.forwardMap + (initLoop f start size prev ps).2.2 =
      sumVals f.forwardMap + size + ps.length ∧
    ((initLoop f start size prev ps).2.1 = 0 →
      start = 0 ∧ ps = List.range' (prev + 1) ps.length) := by
  induction ps with
  | nil =>
    intro f start size prev h h1 hprev hlt _ _ _
    simp only [initLoop]
    exact ⟨h, h1, by omega, fun x => by simp, by simp, fun h0 => ⟨h0, by simp⟩⟩
  | cons p ps ih =>
    intro f start size prev h h1 hprev hlt hch hpW hb
    have hch2 := List.chain_cons.1 hch
    have hpw := hpW p (List.mem_cons_self _ _)
    simp only [List.length_cons] at hb
    have hmod : (prev + 1) % W = prev + 1 := Nat.mod_eq_of_lt (by omega)
    unfold initLoop
    rw [hmod]
    by_cases hp : p = prev + 1
    · simp only [hp, if_true]
      have hmod2 : (size + 1) % W = size + 1 := Nat.mod_eq_of_lt (by omega)
      rw [hmod2]
      subst hp
      obtain ⟨r1, r2, r3, r4, r5, r6⟩ := ih f start (size + 1) (prev + 1) h (by omega)
        (by omega) hpw hch2.2 (fun q hq => hpW q (List.mem_cons_of_mem _ hq)) (by omega)
      refine ⟨r1, r2, r3, ?_, ?_, ?_⟩
      · intro x
        rw [r4 x]
        simp only [List.mem_cons]
        constructor
        · rintro (h | h | h)
          · exact Or.inl h
          · by_cases hx : x = prev + 1
            · exact Or.inr (Or.inr (Or.inl hx))
            · exact Or.inr (Or.inl (by omega))
          · exact Or.inr (Or.inr (Or.inr h))
        · rintro (h | h | h | h)
          · exact Or.inl h
          · exact Or.inr (Or.inl (by omega))
          · exact Or.inr (Or.inl (by omega))
          · exact Or.inr (Or.inr h)
      · rw [r5]
        simp only [List.length_cons]
        omega
      · intro h0
        obtain ⟨e1, e2⟩ := r6 h0
        refine ⟨e1, ?_⟩
        simp only [List.length_cons, List.range'_succ]
        rw [← e2]
    · simp only [hp, if_false]
      have hp2 : prev + 1 < p := by omega
      have hI := h.initAdd h1 (by omega) (by omega) (p := p) (by omega)
      have hf1 : mget f.forwardMap start = none := by
        cases hm : mget f.forwardMap start with
        | none => rfl
        | some n =>
          have := h.below start n hm
          omega
      have hsum := sumVals_addSpan (f := f) size hf1
      obtain ⟨r1, r2, r3, r4, r5, r6⟩ := ih (addSpan f start size) p 1 p hI (le_refl 1)
        rfl hpw hch2.2 (fun q hq => hpW q (List.mem_cons_of_mem _ hq)) (by omega)
      refine ⟨r1, r2, r3, ?_, ?_, ?_⟩
      · intro x
        rw [r4 x, inSpan_addSpan size x hf1]
        simp only [List.mem_cons]
        constructor
        · rintro ((h | h) | h | h)
          · exact Or.inl h
          · exact Or.inr (Or.inl h)
          · exact Or.inr (Or.inr (Or.inl (by omega)))
          · exact Or.inr (Or.inr (Or.inr h))
        · rintro (h | h | h | h)
          · exact Or.inl (Or.inl h)
          · exact Or.inl (Or.inr h)
          · exact Or.inr (Or.inl (by omega))
          · exact Or.inr (Or.inr h)
      · rw [r5, hsum]
        simp only [List.length_cons]
        omega
      · intro h0
        obtain ⟨e1, -⟩ := r6 h0
        omega


theorem sliceIsSorted_of_sorted : ∀ (l : List Nat), l.Sorted (fun a b => a < b) →
    sliceIsSorted l = true
  | [], _ => rfl
  | [_], _ => rfl
  | a :: b :: rest, h => by
    have h1 := List.sorted_cons.1 h
    have hab : a < b := h1.1 b (List.mem_cons_self _ _)
    have := sliceIsSorted_of_sorted (b :: rest) h1.2
    simp only [sliceIsSorted, this, Bool.and_true, Bool.not_eq_true', decide_eq_false_iff_not]
    omega

theorem typed_of_cons {f : freelist} (h : Cons f) (hc : f.freePagesCount < W) : Typed f := by
  refine ⟨h.nd_f, h.nd_b, h.nd_m, ?_, ?_, ?_, hc⟩
  · intro e he
    exact h.lt_f e.1 e.2 (mget_of_mem h.nd_f he)
  · intro e he
    exact h.lt_b e.1 e.2 (mget_of_mem h.nd_b he)
  · intro b hb
    have hm := mget_of_mem h.nd_m hb
    have h1 : ∀ s ∈ b.2, b.1 < W ∧ s < W := by
      intro s hs
      exact h.lt_m b.1 s ((inBucket_iff _ _ _).2 ⟨b.2, hm, hs⟩)
    exact ⟨h.lt_k _ _ hm, h.nd_k _ _ hm, fun s hs => (h1 s hs).2⟩

theorem mapsConsistent_of_cons {f : freelist} (h : Cons f) : MapsConsistent f := by
  refine ⟨?_, ?_, ?_, ?_⟩
  · intro e he
    exact h.fb e.1 e.2 (mget_of_mem h.nd_f he)
  · intro e he
    exact h.bf e.1 e.2 (mget_of_mem h.nd_b he)
  · intro e he
    exact (h.fm e.1 e.2).1 (mget_of_mem h.nd_f he)
  · intro b hb s hs
    exact (h.fm s b.1).2 ((inBucket_iff _ _ _).2 ⟨b.2, mget_of_mem h.nd_m hb, hs⟩)

theorem initLoop_frame (ps : List Nat) : ∀ (f : freelist) (start size prev : Nat),
    (initLoop f start size prev ps).1.allocs = f.allocs ∧
    (initLoop f start size prev ps).1.cache = f.cache := by
  induction ps with
  | nil => intro f start size prev; exact ⟨rfl, rfl⟩
  | cons p ps ih =>
    intro f start size prev
    unfold initLoop
    by_cases hp : p = (prev + 1) % W
    · simp only [hp, if_true]
      exact ih _ _ _ _
    · simp only [hp, if_false]
      exact ih _ _ _ _

theorem cons_empty (g : freelist) :
    Cons (resetIndex g) := by
  refine ⟨?_, ?_, ?_, ?_, ?_, ?_, ?_, ?_, ?_, ?_, ?_⟩
  · simp [NodupKeys, mkeys, resetIndex]
  · simp [NodupKeys, mkeys, resetIndex]
  · simp [NodupKeys, mkeys, resetIndex]
  · intro n bm h; simp [mget, resetIndex] at h
  · intro s n h; simp [mget, resetIndex] at h
  · intro s n h; simp [mget, resetIndex] at h
  · intro n s h; simp [inBucket, mget, resetIndex] at h
  · intro n bm h; simp [mget, resetIndex] at h
  · intro s n h; simp [mget, resetIndex] at h
  · intro s n h; simp [mget, resetIndex] at h
  · intro s n; simp [inBucket, mget, resetIndex]

/-- What `init` builds from a strictly ascending list that is not the single
run `0, 1, …, k`: spans in ascending order, separated by gaps, that hold exactly
the pages of the list. -/
theorem init_ok (g : freelist) (p0 : Nat) (rest : List Nat)
    (hs : (p0 :: rest).Sorted (fun a b => a < b)) (hW : ∀ x ∈ p0 :: rest, x < W)
    (hlen : rest.length + 1 < 9223372036854775808)
    (hne : p0 :: rest ≠ List.range (rest.length + 1)) :
    ∃ F, init g (p0 :: rest) = some F ∧ InitInv F (W + 1) ∧
      (∀ x, inSpan F x ↔ x ∈ p0 :: rest) ∧
      sumVals F.forwardMap = rest.length + 1 ∧ F.allocs = g.allocs ∧ F.cache = g.cache := by
  have hsorted := sliceIsSorted_of_sorted _ hs
  have hI0 : InitInv (resetIndex g) p0 := by
    refine ⟨cons_empty g, ?_, ?_, rfl⟩
    · intro s n h; simp [mget, resetIndex] at h
    · intro s n t m h; simp [mget, resetIndex] at h
  have hp0 := hW p0 (List.mem_cons_self _ _)
  have hch : List.Chain (fun a b => a < b) p0 rest := List.Pairwise.chain hs
  have hsum0 : sumVals (resetIndex g).forwardMap = 0 := rfl
  obtain ⟨r1, r2, r3, r4, r5, r6⟩ := initLoop_ok rest _ p0 1 p0 hI0 (le_refl 1) rfl hp0 hch
    (fun p hp => hW p (List.mem_cons_of_mem _ hp)) (by rw [hsum0]; unfold W; omega)
  have hfr := initLoop_frame rest (resetIndex g) p0 1 p0
  have hinit : init g (p0 :: rest) =
      some (addSpan (initLoop (resetIndex g) p0 1 p0 rest).1
        (initLoop (resetIndex g) p0 1 p0 rest).2.1 (initLoop (resetIndex g) p0 1 p0 rest).2.2) := by
    have hst : (initLoop (resetIndex g) p0 1 p0 rest).2.1 ≠ 0 := by
      intro h0
      obtain ⟨e1, e2⟩ := r6 h0
      apply hne
      rw [List.range_eq_range', List.range'_succ, e1]
      rw [e1] at e2
      rw [← e2]
    have hsz : (initLoop (resetIndex g) p0 1 p0 rest).2.2 ≠ 0 := by omega
    unfold init
    simp only [hsorted, Bool.not_true, Bool.false_eq_true, if_false, hst, hsz, ne_eq,
      not_false_eq_true, and_self, if_true]
  rw [hsum0] at r5
  have hfg : (resetIndex g).allocs = g.allocs ∧ (resetIndex g).cache = g.cache := ⟨rfl, rfl⟩
  rw [hfg.1, hfg.2] at hfr
  generalize initLoop (resetIndex g) p0 1 p0 rest = r at *
  have hf1 : mget r.1.forwardMap r.2.1 = none := by
    cases hm : mget r.1.forwardMap r.2.1 with
    | none => rfl
    | some n =>
      have := r1.below _ n hm
      omega
  refine ⟨_, hinit, r1.initAdd r2 r3 (by unfold W; omega) (by omega), ?_, ?_, hfr.1, hfr.2⟩
  · intro x
    rw [inSpan_addSpan _ x hf1, r4 x]
    simp only [List.mem_cons]
    constructor
    · rintro (⟨s, n, h, -⟩ | h | h)
      · simp [mget, resetIndex] at h
      · exact Or.inl (by omega)
      · exact Or.inr h
    · rintro (h | h)
      · exact Or.inr (Or.inl (by omega))
      · exact Or.inr (Or.inr h)
  · rw [sumVals_addSpan _ hf1]
    omega


theorem ar_gap_apart {s n t m : Nat} (h : s + n < t) (ht : t + m ≤ W) :
    apart s n t m ∧ apart t m s n := by
  unfold apart W at *; omega

theorem InitInv.nowrap {f : freelist} {b : Nat} (h : InitInv f b) (hb : b ≤ W + 1) :
    NoWrap f := by
  intro e he
  have := h.below e.1 e.2 (mget_of_mem h.cons.nd_f he)
  omega

theorem InitInv.spansDisjoint {f : freelist} {b : Nat} (h : InitInv f b) (hb : b ≤ W + 1) :
    SpansDisjoint f := by
  intro e1 h1 e2 h2 hne
  have m1 := mget_of_mem h.cons.nd_f h1
  have m2 := mget_of_mem h.cons.nd_f h2
  have b1 := h.below _ _ m1
  have b2 := h.below _ _ m2
  rcases Nat.lt_or_gt_of_ne hne with hlt | hlt
  · exact (ar_gap_apart (h.gap _ _ _ _ m1 m2 hlt) (by omega)).1
  · exact (ar_gap_apart (h.gap _ _ _ _ m2 m1 hlt) (by omega)).2

theorem isFree_iff_inSpan {f : freelist} (hnd : NodupKeys f.forwardMap) (hw : NoWrap f)
    {x : Nat} (hx : x < W) : isFree f x ↔ inSpan f x := by
  rw [isFree_iff hnd]
  unfold inSpan
  constructor
  · rintro ⟨s, n, h, hc⟩
    exact ⟨s, n, h, (ar_nowrap_cov (hw (s, n) (mem_of_mget h)) hx).1 hc⟩
  · rintro ⟨s, n, h, hc⟩
    exact ⟨s, n, h, (ar_nowrap_cov (hw (s, n) (mem_of_mget h)) hx).2 hc⟩

/-- C1, as stated, fails: the list `[0]` is strictly ascending, and `init([0])` on a
fresh freelist followed by `hashmapGetFreePageIDs` returns the empty list, because
the tail guard `start != 0` of `init` drops the run that starts at page 0. -/
theorem init_roundtrip_counterexample :
    List.Sorted (fun a b => a < b) [0] ∧
    (init freelist.fresh [0]).bind (hashmapGetFreePageIDs false) = some [] ∧
    (init freelist.fresh [0]).bind (hashmapGetFreePageIDs true) = some [] ∧
    (init freelist.fresh [0]).bind (hashmapGetFreePageIDs false) ≠ some [0] := by
  decide

/-- C1, amended: for every strictly ascending list `L` of page ids, a slice that
the runtime can hold (at most `2^45` elements, 8 bytes each within `maxAlloc`),
that is not a single run `0, 1, …, k` starting at page 0, `init(L)` on a fresh
freelist followed by `hashmapGetFreePageIDs` returns exactly `L`. -/
theorem init_roundtrip (verify : Bool) (L : List Nat)
    (hs : L.Sorted (fun a b => a < b)) (hW : ∀ x ∈ L, x < W)
    (hcap : 8 * L.length ≤ maxAlloc)
    (hne : L = [] ∨ L ≠ List.range L.length) :
    ∃ f, init freelist.fresh L = some f ∧ hashmapGetFreePageIDs verify f = some L := by
  cases L with
  | nil =>
    refine ⟨freelist.fresh, rfl, ?_⟩
    cases verify <;> decide
  | cons p0 rest =>
    have hne2 : p0 :: rest ≠ List.range (rest.length + 1) := by
      rcases hne with h | h
      · cases h
      · simpa using h
    simp only [List.length_cons] at hcap
    have hlen : rest.length + 1 < 9223372036854775808 := by
      unfold maxAlloc at hcap
      omega
    obtain ⟨F, hF, hI, hmem, hsum, -, -⟩ := init_ok freelist.fresh p0 rest hs hW hlen hne2
    have hcnt : 8 * F.freePagesCount ≤ maxAlloc := by
      rw [hI.cnt, hsum]; exact hcap
    have hcnt2 : F.freePagesCount < 9223372036854775808 := by
      rw [hI.cnt, hsum]; exact hlen
    have hnw := hI.nowrap (le_refl _)
    obtain ⟨l, hl, hsorted, hlmem, -⟩ := getFreePageIDs_ok verify F
      (typed_of_cons hI.cons (by unfold W; omega)) (hI.spansDisjoint (le_refl _)) hI.cnt hnw hcnt
    refine ⟨F, hF, ?_⟩
    rw [hl]
    congr 1
    have hperm : l.Perm (p0 :: rest) := by
      refine (List.perm_ext_iff_of_nodup hsorted.nodup hs.nodup).2 ?_
      intro x
      rw [hlmem, ← hmem]
      constructor
      · rintro ⟨hx, hf⟩
        exact (isFree_iff_inSpan hI.cons.nd_f hnw hx).1 hf
      · intro hx
        have hxW : x < W := hW x ((hmem x).1 hx)
        exact ⟨hxW, (isFree_iff_inSpan hI.cons.nd_f hnw hxW).2 hx⟩
    exact List.eq_of_perm_of_sorted hperm hsorted hs

theorem init_roundtrip_witness :
    (List.Sorted (fun a b => a < b) scenarioIds ∧ (∀ x ∈ scenarioIds, x < W) ∧
      8 * scenarioIds.length ≤ maxAlloc ∧
      (scenarioIds = [] ∨ scenarioIds ≠ List.range scenarioIds.length)) ∧
    ∃ f, init freelist.fresh scenarioIds = some f ∧
      hashmapGetFreePageIDs true f = some scenarioIds :=
  ⟨by decide,
    init_roundtrip true scenarioIds (by decide) (by decide) (by decide) (by decide)⟩


/-! ## The verification block of `hashmapMergeSpans` -/

theorem ilen_le (n : Nat) : ilen n ≤ n := by
  unfold ilen toInt
  have h1 : n % W ≤ n := Nat.mod_le _ _
  by_cases h : n % W < 9223372036854775808
  · simp only [h, if_true, Int.toNat_ofNat]
    exact h1
  · simp only [h, if_false]
    have : n % W < W := Nat.mod_lt _ (by unfold W; omega)
    unfold W at *
    omega

theorem ilen_cases {n : Nat} (hn : n < W) : ilen n = n ∨ ilen n = 0 := by
  unfold ilen toInt
  rw [Nat.mod_eq_of_lt hn]
  by_cases h : n < 9223372036854775808
  · left
    simp [h]
  · right
    simp only [h, if_false]
    unfold W at *
    omega

theorem spanIds_eq (s n : Nat) : spanIds s n = fullIds s (ilen n) := rfl

theorem addIds_eq (l : List Nat) : ∀ (ids : List Nat), (ids ++ l).Nodup →
    addIds ids l = some (ids ++ l) := by
  induction l with
  | nil => intro ids _; simp [addIds]
  | cons x l ih =>
    intro ids h
    have hx : x ∉ ids := by
      intro hx
      have := (List.nodup_append.1 h).2.2
      exact this hx (List.mem_cons_self _ _)
    have h2 : ((ids ++ [x]) ++ l).Nodup := by
      rw [List.append_assoc]
      exact h
    simp only [addIds, hx, if_false]
    rw [ih _ h2, List.append_assoc]
    rfl

theorem fwdLoop_eq (m : List (Nat × Nat)) : ∀ (ids : List Nat),
    (ids ++ idsWith ilen m).Nodup →
    idsFromForwardLoop ids m = some (ids ++ idsWith ilen m) := by
  induction m with
  | nil => intro ids _; simp [idsFromForwardLoop, idsWith]
  | cons e m ih =>
    intro ids h
    obtain ⟨s, n⟩ := e
    simp only [idsWith, ← List.append_assoc] at h
    have h1 : (ids ++ fullIds s (ilen n)).Nodup := (List.nodup_append.1 h).1
    simp only [idsFromForwardLoop, spanIds_eq, addIds_eq _ _ h1, idsWith]
    rw [ih _ h, List.append_assoc]

theorem bwdLoop_eq (m : List (Nat × Nat)) : ∀ (ids : List Nat),
    (ids ++ idsBack m).Nodup →
    idsFromBackwardLoop ids m = some (ids ++ idsBack m) := by
  induction m with
  | nil => intro ids _; simp [idsFromBackwardLoop, idsBack]
  | cons e m ih =>
    intro ids h
    obtain ⟨s, n⟩ := e
    simp only [idsBack, List.flatMap_cons, ← List.append_assoc] at h
    have h1 : (ids ++ spanIdsBack s n).Nodup := (List.nodup_append.1 h).1
    simp only [idsFromBackwardLoop, addIds_eq _ _ h1, idsBack, List.flatMap_cons]
    rw [ih _ h, List.append_assoc]
    rfl

theorem bucketLoop_eq (size : Nat) (bm : List Nat) : ∀ (ids : List Nat),
    (ids ++ bm.flatMap (fun s => spanIds s size)).Nodup →
    idsFromBucket size ids bm = some (ids ++ bm.flatMap (fun s => spanIds s size)) := by
  induction bm with
  | nil => intro ids _; simp [idsFromBucket]
  | cons s bm ih =>
    intro ids h
    simp only [List.flatMap_cons, ← List.append_assoc] at h
    have h1 : (ids ++ spanIds s size).Nodup := (List.nodup_append.1 h).1
    simp only [idsFromBucket, addIds_eq _ _ h1, List.flatMap_cons]
    rw [ih _ h, List.append_assoc]

theorem fmLoop_eq (fm : List (Nat × List Nat)) : ∀ (ids : List Nat),
    (ids ++ idsBuckets fm).Nodup →
    idsFromFreemapsLoop ids fm = some (ids ++ idsBuckets fm) := by
  induction fm with
  | nil => intro ids _; simp [idsFromFreemapsLoop, idsBuckets]
  | cons b fm ih =>
    intro ids h
    obtain ⟨size, bm⟩ := b
    simp only [idsBuckets, List.flatMap_cons, ← List.append_assoc] at h
    have h1 : (ids ++ bm.flatMap (fun s => spanIds s size)).Nodup := (List.nodup_append.1 h).1
    simp only [idsFromFreemapsLoop, bucketLoop_eq _ _ _ h1, idsBuckets, List.flatMap_cons]
    rw [ih _ h, List.append_assoc]
    rfl

theorem ar_back_mem {e i k : Nat} (he : e < W) (hi : i < k) (hk : k ≤ W) :
    (e + W - i % W) % W < W ∧ (e + W - (e + W - i % W) % W) % W < k := by
  unfold W at *; omega

theorem ar_back_inv {e x : Nat} (he : e < W) (hx : x < W) :
    (e + W - ((e + W - x) % W) % W) % W = x := by
  unfold W at *; omega

theorem ar_back_inj {e i j : Nat} (hi : i < W) (hj : j < W)
    (h : (e + W - i % W) % W = (e + W - j % W) % W) : i = j := by
  unfold W at *; omega

theorem ar_back_fwd {e n x : Nat} (he : e < W) (hx : x < W) (hn : n < W) :
    (e + W - x) % W < n ↔ covers (startOf e n) n x := by
  unfold covers startOf W at *; omega

theorem mem_spanIdsBack {e n x : Nat} (he : e < W) :
    x ∈ spanIdsBack e n ↔ x < W ∧ (e + W - x) % W < ilen n := by
  have hk : ilen n ≤ W := by
    rcases Nat.lt_or_ge n W with h | h
    · have := ilen_le n
      omega
    · unfold ilen toInt
      have : n % W < W := Nat.mod_lt _ (by unfold W; omega)
      by_cases h2 : n % W < 9223372036854775808
      · simp only [h2, if_true, Int.toNat_ofNat]; omega
      · simp only [h2, if_false]
        unfold W at *
        omega
  unfold spanIdsBack
  simp only [List.mem_map, List.mem_range]
  constructor
  · rintro ⟨i, hi, rfl⟩
    exact ar_back_mem he hi hk
  · rintro ⟨hx, hc⟩
    exact ⟨_, hc, ar_back_inv he hx⟩

theorem nodup_spanIdsBack (e : Nat) {n : Nat} (hn : n < W) : (spanIdsBack e n).Nodup := by
  unfold spanIdsBack
  refine List.Nodup.map_on ?_ (List.nodup_range _)
  intro i hi j hj h
  rw [List.mem_range] at hi hj
  have := ilen_le n
  exact ar_back_inj (by omega) (by omega) h

theorem nodup_spanIds (s : Nat) {n : Nat} (hn : n < W) : (spanIds s n).Nodup := by
  rw [spanIds_eq]
  have := ilen_le n
  exact nodup_fullIds s (by omega)

theorem mem_spanIds {s n x : Nat} (hs : s < W) (hn : n < W) :
    x ∈ spanIds s n ↔ x < W ∧ covers s (ilen n) x := by
  rw [spanIds_eq]
  have := ilen_le n
  exact mem_fullIds hs (by omega)

/-- The set computed by `idsFromForwardMap`. -/
theorem mem_idsFwd {f : freelist} (h : Cons f) (x : Nat) :
    x ∈ idsWith ilen f.forwardMap ↔ FreeT f x := by
  rw [mem_idsWith]
  unfold FreeT
  constructor
  · rintro ⟨e, he, hx⟩
    have hm := mget_of_mem h.nd_f he
    have hlt := h.lt_f _ _ hm
    rw [← spanIds_eq, mem_spanIds hlt.1 hlt.2] at hx
    exact ⟨e.1, e.2, hm, hx⟩
  · rintro ⟨s, n, hm, hx⟩
    have hlt := h.lt_f _ _ hm
    refine ⟨(s, n), mem_of_mget hm, ?_⟩
    rw [← spanIds_eq, mem_spanIds hlt.1 hlt.2]
    exact hx

/-- The set computed by `idsFromBackwardMap`. -/
theorem mem_idsBack {f : freelist} (h : Cons f) (x : Nat) :
    x ∈ idsBack f.backwardMap ↔ FreeT f x := by
  unfold idsBack FreeT
  rw [List.mem_flatMap]
  constructor
  · rintro ⟨e, he, hx⟩
    have hm := mget_of_mem h.nd_b he
    have hlt := h.lt_b _ _ hm
    rw [mem_spanIdsBack hlt.1] at hx
    refine ⟨startOf e.1 e.2, e.2, h.bf _ _ hm, hx.1, ?_⟩
    rcases ilen_cases hlt.2 with hk | hk
    · rw [hk] at hx ⊢
      exact (ar_back_fwd hlt.1 hx.1 hlt.2).1 hx.2
    · rw [hk] at hx
      omega
  · rintro ⟨s, n, hm, hx, hc⟩
    have hlt := h.lt_f _ _ hm
    have hb := h.fb _ _ hm
    refine ⟨(endOf s n, n), mem_of_mget hb, ?_⟩
    rw [mem_spanIdsBack (endOf_lt s n)]
    refine ⟨hx, ?_⟩
    rcases ilen_cases hlt.2 with hk | hk
    · rw [hk] at hc ⊢
      rw [ar_back_fwd (endOf_lt s n) hx hlt.2, startOf_endOf hlt.1]
      exact hc
    · rw [hk] at hc
      unfold covers at hc
      omega

/-- The set computed by `idsFromFreemaps`. -/
theorem mem_idsBuckets {f : freelist} (h : Cons f) (x : Nat) :
    x ∈ idsBuckets f.freemaps ↔ FreeT f x := by
  unfold idsBuckets FreeT
  simp only [List.mem_flatMap]
  constructor
  · rintro ⟨b, hb, s, hs, hx⟩
    have hm := mget_of_mem h.nd_m hb
    have hf := (h.fm s b.1).2 ((inBucket_iff _ _ _).2 ⟨b.2, hm, hs⟩)
    have hlt := h.lt_f _ _ hf
    rw [mem_spanIds hlt.1 hlt.2] at hx
    exact ⟨s, b.1, hf, hx⟩
  · rintro ⟨s, n, hm, hx⟩
    have hlt := h.lt_f _ _ hm
    have hb := (h.fm s n).1 hm
    rw [inBucket_iff] at hb
    obtain ⟨bm, hbm, hs⟩ := hb
    refine ⟨(n, bm), mem_of_mget hbm, s, hs, ?_⟩
    rw [mem_spanIds hlt.1 hlt.2]
    exact hx


theorem cover_clash {f : freelist} (h : Cons f) (hd : SpansDisjoint f) {s n t m x : Nat}
    (hs : mget f.forwardMap s = some n) (ht : mget f.forwardMap t = some m) (hne : s ≠ t)
    (hx : x < W) (h1 : covers s n x) (h2 : covers t m x) : False :=
  ar_apart (disjoint_mget h.nd_f hd hs ht hne) (h.lt_f _ _ hs).1 (h.lt_f _ _ ht).1 hx ⟨h1, h2⟩

theorem covers_of_mem_spanIds {s n x : Nat} (hs : s < W) (hn : n < W) (h : x ∈ spanIds s n) :
    x < W ∧ covers s n x := by
  rw [mem_spanIds hs hn] at h
  exact ⟨h.1, ar_cov_mono (ilen_le n) h.2⟩

theorem covers_of_mem_spanIdsBack {e n x : Nat} (he : e < W) (hn : n < W)
    (h : x ∈ spanIdsBack e n) : x < W ∧ covers (startOf e n) n x := by
  rw [mem_spanIdsBack he] at h
  refine ⟨h.1, (ar_back_fwd he h.1 hn).1 ?_⟩
  have := ilen_le n
  omega

theorem nodup_idsFwd {f : freelist} (h : Cons f) (hd : SpansDisjoint f) :
    (idsWith ilen f.forwardMap).Nodup :=
  nodup_idsWith ilen ilen_le _ h.nd_f
    (fun e he => h.lt_f e.1 e.2 (mget_of_mem h.nd_f he)) hd

theorem nodup_idsBack {f : freelist} (h : Cons f) (hd : SpansDisjoint f) :
    (idsBack f.backwardMap).Nodup := by
  unfold idsBack
  rw [List.nodup_flatMap]
  constructor
  · intro e he
    exact nodup_spanIdsBack _ (h.lt_b _ _ (mget_of_mem h.nd_b he)).2
  · have hnd : f.backwardMap.Nodup := List.Nodup.of_map _ h.nd_b
    refine List.Nodup.pairwise_of_forall_ne hnd ?_
    intro a ha b hb hab x hxa hxb
    have ma := mget_of_mem h.nd_b ha
    have mb := mget_of_mem h.nd_b hb
    have la := h.lt_b _ _ ma
    have lb := h.lt_b _ _ mb
    have ca := covers_of_mem_spanIdsBack la.1 la.2 hxa
    have cb := covers_of_mem_spanIdsBack lb.1 lb.2 hxb
    have fa := h.bf _ _ ma
    have fb := h.bf _ _ mb
    have hne : startOf a.1 a.2 ≠ startOf b.1 b.2 := by
      intro heq
      rw [heq, fb] at fa
      have h2 : b.2 = a.2 := by simpa using fa
      rw [h2] at heq
      have h1 := startOf_inj la.1 lb.1 heq
      apply hab
      exact Prod.ext h1 h2.symm
    exact cover_clash h hd fa fb hne ca.1 ca.2 cb.2

theorem nodup_idsBuckets {f : freelist} (h : Cons f) (hd : SpansDisjoint f) :
    (idsBuckets f.freemaps).Nodup := by
  unfold idsBuckets
  rw [List.nodup_flatMap]
  constructor
  · intro b hb
    have hm := mget_of_mem h.nd_m hb
    have hfw : ∀ s ∈ b.2, mget f.forwardMap s = some b.1 := fun s hs =>
      (h.fm s b.1).2 ((inBucket_iff _ _ _).2 ⟨b.2, hm, hs⟩)
    rw [List.nodup_flatMap]
    constructor
    · intro s hs
      exact nodup_spanIds s (h.lt_f _ _ (hfw s hs)).2
    · refine List.Nodup.pairwise_of_forall_ne (h.nd_k _ _ hm) ?_
      intro s hs t ht hst x hxs hxt
      have ls := h.lt_f _ _ (hfw s hs)
      have lt := h.lt_f _ _ (hfw t ht)
      have cs := covers_of_mem_spanIds ls.1 ls.2 hxs
      have ct := covers_of_mem_spanIds lt.1 lt.2 hxt
      exact cover_clash h hd (hfw s hs) (hfw t ht) hst cs.1 cs.2 ct.2
  · have hnd : f.freemaps.Nodup := List.Nodup.of_map _ h.nd_m
    refine List.Nodup.pairwise_of_forall_ne hnd ?_
    intro a ha b hb hab x hxa hxb
    rw [List.mem_flatMap] at hxa hxb
    obtain ⟨s, hs, hxs⟩ := hxa
    obtain ⟨t, ht, hxt⟩ := hxb
    have ma := mget_of_mem h.nd_m ha
    have mb := mget_of_mem h.nd_m hb
    have fs := (h.fm s a.1).2 ((inBucket_iff _ _ _).2 ⟨a.2, ma, hs⟩)
    have ft := (h.fm t b.1).2 ((inBucket_iff _ _ _).2 ⟨b.2, mb, ht⟩)
    have ls := h.lt_f _ _ fs
    have lt := h.lt_f _ _ ft
    have cs := covers_of_mem_spanIds ls.1 ls.2 hxs
    have ct := covers_of_mem_spanIds lt.1 lt.2 hxt
    have hst : s ≠ t := by
      rintro rfl
      rw [fs] at ft
      have h1 : a.1 = b.1 := by simpa using ft
      apply hab
      rw [h1, mb] at ma
      have h2 : b.2 = a.2 := by simpa using ma
      exact Prod.ext h1 h2.symm
    exact cover_clash h hd fs ft hst cs.1 cs.2 ct.2

theorem setEq_of_mem {a b : List Nat} (h : ∀ x, x ∈ a ↔ x ∈ b) : setEq a b = true := by
  unfold setEq
  simp only [Bool.and_eq_true, List.all_eq_true, decide_eq_true_eq]
  exact ⟨fun x hx => (h x).1 hx, fun x hx => (h x).2 hx⟩

theorem checkIds_ok (S : List Nat) (l : List Nat) : ∀ (prev : Nat),
    (∀ x ∈ l, prev < x) → l.Sorted (fun a b => a < b) → (∀ x ∈ l, x ∉ S) →
    checkIds S prev l = true := by
  induction l with
  | nil => intro prev _ _ _; rfl
  | cons a l ih =>
    intro prev h1 h2 h3
    have ha := h1 a (List.mem_cons_self _ _)
    have hs := List.sorted_cons.1 h2
    have hne : ¬ prev = a := by omega
    simp only [checkIds, hne, if_false, h3 a (List.mem_cons_self _ _)]
    exact ih a hs.1 hs.2 (fun x hx => h3 x (List.mem_cons_of_mem _ hx))

/-- On consistent maps with disjoint spans, the verification block of
`hashmapMergeSpans` passes for distinct non-zero ids that are not free, and the
merge loop then runs over the sorted ids. -/
theorem mergeSpans_verify_ok {f : freelist} (h : Cons f) (hd : SpansDisjoint f)
    {ids : List Nat} (hnd : ids.Nodup) (hids : ∀ x ∈ ids, x ≠ 0 ∧ ¬ isFree f x) :
    hashmapMergeSpans true f ids = some (mergeAll f (sortPgids ids)) := by
  have e1 : idsFromFreemaps f = some (idsBuckets f.freemaps) := by
    unfold idsFromFreemaps
    rw [fmLoop_eq _ _ (by simpa using nodup_idsBuckets h hd)]
    simp
  have e2 : idsFromForwardMap f = some (idsWith ilen f.forwardMap) := by
    unfold idsFromForwardMap
    rw [fwdLoop_eq _ _ (by simpa using nodup_idsFwd h hd)]
    simp
  have e3 : idsFromBackwardMap f = some (idsBack f.backwardMap) := by
    unfold idsFromBackwardMap
    rw [bwdLoop_eq _ _ (by simpa using nodup_idsBack h hd)]
    simp
  have s1 : setEq (idsBuckets f.freemaps) (idsWith ilen f.forwardMap) = true :=
    setEq_of_mem (fun x => by rw [mem_idsBuckets h, mem_idsFwd h])
  have s2 : setEq (idsBuckets f.freemaps) (idsBack f.backwardMap) = true :=
    setEq_of_mem (fun x => by rw [mem_idsBuckets h, mem_idsBack h])
  have hperm := sortPgids_perm ids
  have c : checkIds (idsBuckets f.freemaps) 0 (sortPgids ids) = true := by
    refine checkIds_ok _ _ 0 ?_ (sortPgids_strict hnd) ?_
    · intro x hx
      have := (hids x (hperm.mem_iff.1 hx)).1
      omega
    · intro x hx hx2
      rw [mem_idsBuckets h] at hx2
      obtain ⟨s, n, hm, -, hc⟩ := hx2
      exact (hids x (hperm.mem_iff.1 hx)).2
        ⟨(s, n), mem_of_mget hm, ar_cov_mono (ilen_le n) hc⟩
  unfold hashmapMergeSpans
  simp only [if_true, e1, e2, e3, s1, s2, c, Bool.not_true, Bool.false_eq_true, if_false]


/-! ## Claims on `hashmapMergeSpans` -/

theorem ar_sep_of {s n t m : Nat} (hs : s < W) (ht : t < W) (hn : 1 ≤ n) (hm : 1 ≤ m)
    (ha : apart s n t m) (hz1 : ¬ covers s n 0) (hz2 : ¬ covers t m 0) (hadj : t ≠ s + n) :
    n < (t + W - s) % W := by
  unfold apart covers W at *; omega

/-- The hypotheses of the merge claims give the invariant of the span index. -/
theorem minv_of {f : freelist} (ht : Typed f) (hc : MapsConsistent f) (hd : SpansDisjoint f)
    (ha : NonAdjacent f) (hp : PosLen f) (hz : NoZero f) : MInv f := by
  have hcons := cons_of_typed ht hc
  refine ⟨hcons, ?_, ?_⟩
  · intro s n h
    exact hp (s, n) (mem_of_mget h)
  · intro s n t m h1 h2 hne
    have m1 := mem_of_mget h1
    have m2 := mem_of_mget h2
    exact ar_sep_of (hcons.lt_f _ _ h1).1 (hcons.lt_f _ _ h2).1 (hp _ m1) (hp _ m2)
      (hd _ m1 _ m2 hne) (fun hcv => hz ⟨_, m1, hcv⟩) (fun hcv => hz ⟨_, m2, hcv⟩)
      (ha _ m1 _ m2)

theorem spansDisjoint_of_minv {f : freelist} (h : MInv f) : SpansDisjoint f := by
  intro e1 h1 e2 h2 hne
  have m1 := mget_of_mem h.cons.nd_f h1
  have m2 := mget_of_mem h.cons.nd_f h2
  have s1 := h.sep _ _ _ _ m1 m2 hne
  have s2 := h.sep _ _ _ _ m2 m1 (fun e => hne e.symm)
  unfold apart
  right; right
  omega

/-- C7, as stated, fails: `fullState` is well typed and tri-map consistent, its
spans are disjoint, not adjacent and have lengths `≥ 1`, the id 5 is not zero and
not free, and after `hashmapMergeSpans([5])`, with verification off or on, page 5
is still not free and no page is free any more: the new size `1 + 5 + (2^64 - 6)`
wraps to 0. -/
theorem mergeSpans_counterexample :
    Typed fullState ∧ TriMapConsistent fullState ∧ SpansDisjoint fullState ∧
    NonAdjacent fullState ∧ PosLen fullState ∧ ¬ isFree fullState 5 ∧ isFree fullState 7 ∧
    (∀ verify, ∃ f1, hashmapMergeSpans verify fullState [5] = some f1 ∧
      ¬ isFree f1 5 ∧ ¬ isFree f1 7 ∧ f1.forwardMap = [(0, 0)] ∧
      f1.freePagesCount ≠ fullState.freePagesCount + 1) := by
  refine ⟨by decide, by decide, by decide, by decide, by decide, by decide, by decide, ?_⟩
  intro verify
  cases verify
  · exact ⟨_, rfl, by decide⟩
  · exact ⟨mergeAll fullState [5], by decide, by decide⟩

/-- The merge of distinct non-zero pages that are not free, on a state
satisfying the invariant in which page 0 is not free. -/
theorem mergeSpans_ok (verify : Bool) {f : freelist} (h : MInv f) (hz : ¬ isFree f 0)
    (hcW : f.freePagesCount < W)
    {ids : List Nat} (hnd : ids.Nodup) (hids : ∀ x ∈ ids, x ≠ 0 ∧ x < W ∧ ¬ isFree f x) :
    ∃ f1, hashmapMergeSpans verify f ids = some f1 ∧ (∃ l, l.Perm ids ∧ f1 = mergeAll f l) ∧
      MInv f1 ∧
      (∀ x, x < W → (isFree f1 x ↔ isFree f x ∨ x ∈ ids)) ∧
      sumVals f1.forwardMap = sumVals f.forwardMap + ids.length ∧
      sumVals f1.forwardMap < W ∧
      f1.freePagesCount = (f.freePagesCount + ids.length) % W := by
  have hd := spansDisjoint_of_minv h
  have hcount : sumVals f.forwardMap + (0 :: ids).length ≤ W := by
    refine sum_add_length_le h.cons.nd_f
      (fun e he => h.cons.lt_f e.1 e.2 (mget_of_mem h.cons.nd_f he)) hd ?_ ?_
    · rw [List.nodup_cons]
      exact ⟨fun h0 => (hids 0 h0).1 rfl, hnd⟩
    · intro x hx
      rcases List.mem_cons.1 hx with rfl | hx
      · exact ⟨by unfold W; omega, hz⟩
      · exact (hids x hx).2
  simp only [List.length_cons] at hcount
  have key : ∀ l : List Nat, l.Perm ids →
      MInv (mergeAll f l) ∧
      (∀ x, x < W → (isFree (mergeAll f l) x ↔ isFree f x ∨ x ∈ ids)) ∧
      sumVals (mergeAll f l).forwardMap = sumVals f.forwardMap + ids.length ∧
      sumVals (mergeAll f l).forwardMap < W ∧
      (mergeAll f l).freePagesCount = (f.freePagesCount + ids.length) % W := by
    intro l hl
    obtain ⟨r1, r2, r3, r4⟩ := mergeAll_ok l h (hl.nodup_iff.2 hnd)
      (fun x hx => (hids x (hl.mem_iff.1 hx)).2) (by rw [hl.length_eq]; omega) hcW
    rw [hl.length_eq] at r3 r4
    refine ⟨r1, ?_, r3, by omega, r4⟩
    intro x hx
    rw [r2 x hx, hl.mem_iff]
  cases verify
  · exact ⟨mergeAll f ids, rfl, ⟨ids, List.Perm.refl _, rfl⟩, key ids (List.Perm.refl _)⟩
  · refine ⟨mergeAll f (sortPgids ids), ?_, ⟨_, sortPgids_perm ids, rfl⟩,
      key _ (sortPgids_perm ids)⟩
    exact mergeSpans_verify_ok h.cons hd hnd (fun x hx => ⟨(hids x hx).1, (hids x hx).2.2⟩)

/-- C7, amended: on a well-formed state (well typed, tri-map consistent, spans
disjoint and non-adjacent, lengths `≥ 1`) in which no span contains page 0, and for
every duplicate-free collection `ids` of non-zero page ids none of which is free,
`hashmapMergeSpans(ids)` returns, with verification off or on, and afterwards the
free pages are exactly the old free pages and `ids`, and `freePagesCount` has grown
by exactly `len(ids)`. -/
theorem hashmapMergeSpans_frees (verify : Bool) (f : freelist) (ids : List Nat)
    (ht : Typed f) (hc : TriMapConsistent f) (hd : SpansDisjoint f) (ha : NonAdjacent f)
    (hp : PosLen f) (hz : NoZero f) (hnd : ids.Nodup)
    (hids : ∀ x ∈ ids, x ≠ 0 ∧ x < W ∧ ¬ isFree f x) :
    ∃ f1, hashmapMergeSpans verify f ids = some f1 ∧
      (∀ x, x < W → (isFree f1 x ↔ isFree f x ∨ x ∈ ids)) ∧
      f1.freePagesCount = f.freePagesCount + ids.length := by
  have h := minv_of ht hc.1 hd ha hp hz
  obtain ⟨f1, e, -, -, r2, r3, r4, r5⟩ := mergeSpans_ok verify h hz ht.2.2.2.2.2.2 hnd hids
  refine ⟨f1, e, r2, ?_⟩
  have hcnt : f.freePagesCount = sumVals f.forwardMap := hc.2
  rw [r5, hcnt]
  exact Nat.mod_eq_of_lt (by omega)

theorem hashmapMergeSpans_frees_witness :
    (Typed scenarioState ∧ TriMapConsistent scenarioState ∧ SpansDisjoint scenarioState ∧
      NonAdjacent scenarioState ∧ PosLen scenarioState ∧ NoZero scenarioState ∧
      [21, 19].Nodup ∧ ∀ x ∈ [21, 19], x ≠ 0 ∧ x < W ∧ ¬ isFree scenarioState x) ∧
    ∃ f1, hashmapMergeSpans true scenarioState [21, 19] = some f1 ∧
      (∀ x, x < W → (isFree f1 x ↔ isFree scenarioState x ∨ x ∈ [21, 19])) ∧
      f1.freePagesCount = scenarioState.freePagesCount + [21, 19].length :=
  ⟨by decide,
    hashmapMergeSpans_frees true scenarioState [21, 19] (by decide) (by decide) (by decide)
      (by decide) (by decide) (by decide) (by decide) (by decide)⟩


/-! ## The index is determined by the set of free pages -/

theorem ar_un_pred {s t m : Nat} (hs : s < W) (ht : t < W) (hne : t ≠ s)
    (hc : covers t m s) : covers t m ((s + W - 1) % W) := by
  unfold covers W at *; omega

theorem ar_un_gap {s u k : Nat} (hs : s < W) (hu : u < W) (hne : u ≠ s)
    (hc : covers u k ((s + W - 1) % W)) (hsep : k < (s + W - u) % W) : False := by
  unfold covers W at *; omega

theorem ar_un_self {s n : Nat} (hs : s < W) (hn : n < W) :
    ¬ covers s n ((s + W - 1) % W) := by
  unfold covers W at *; omega

theorem ar_un_next {s n m : Nat} (hs : s < W) (hm : m < W) (h : n < m) :
    covers s m ((s + n) % W) ∧ ¬ covers s n ((s + n) % W) := by
  unfold covers W at *; omega

theorem ar_un_far {s n u k : Nat} (hs : s < W) (hu : u < W) (hn : n < W)
    (hc : covers u k ((s + n) % W)) (h1 : n < (u + W - s) % W) (h2 : k < (s + W - u) % W) :
    False := by
  unfold covers W at *; omega

theorem unique_start {f g : freelist} (hf : MInv f) (hg : MInv g)
    (h : ∀ x, x < W → (isFree f x ↔ isFree g x)) {s n : Nat}
    (hs : mget f.forwardMap s = some n) : ∃ m, mget g.forwardMap s = some m := by
  have hlt := hf.cons.lt_f s n hs
  have hfree : isFree g s :=
    (h s hlt.1).1 ⟨(s, n), mem_of_mget hs, ar_cov_self (hf.pos s n hs)⟩
  rw [isFree_iff hg.cons.nd_f] at hfree
  obtain ⟨t, m, htm, hc⟩ := hfree
  by_cases hts : t = s
  · exact ⟨m, hts ▸ htm⟩
  · exfalso
    have hp : (s + W - 1) % W < W := Nat.mod_lt _ (by unfold W; omega)
    have hc2 := ar_un_pred hlt.1 (hg.cons.lt_f t m htm).1 hts hc
    have hfree2 : isFree f ((s + W - 1) % W) := (h _ hp).2 ⟨(t, m), mem_of_mget htm, hc2⟩
    rw [isFree_iff hf.cons.nd_f] at hfree2
    obtain ⟨u, k, huk, hc3⟩ := hfree2
    by_cases hus : u = s
    · subst hus
      rw [hs] at huk
      cases huk
      exact ar_un_self hlt.1 hlt.2 hc3
    · exact ar_un_gap hlt.1 (hf.cons.lt_f u k huk).1 hus hc3 (hf.sep u k s n huk hs hus)

theorem unique_size {f g : freelist} (hf : MInv f) (hg : MInv g)
    (h : ∀ x, x < W → (isFree f x ↔ isFree g x)) {s n m : Nat}
    (hs : mget f.forwardMap s = some n) (hm : mget g.forwardMap s = some m) : ¬ n < m := by
  intro hnm
  have hlt := hf.cons.lt_f s n hs
  have hlt2 := hg.cons.lt_f s m hm
  have hy : (s + n) % W < W := Nat.mod_lt _ (by unfold W; omega)
  have hc := ar_un_next hlt.1 hlt2.2 hnm
  have hfree : isFree f ((s + n) % W) := (h _ hy).2 ⟨(s, m), mem_of_mget hm, hc.1⟩
  rw [isFree_iff hf.cons.nd_f] at hfree
  obtain ⟨u, k, huk, hc3⟩ := hfree
  by_cases hus : u = s
  · subst hus
    rw [hs] at huk
    cases huk
    exact hc.2 hc3
  · exact ar_un_far hlt.1 (hf.cons.lt_f u k huk).1 hlt.2 hc3
      (hf.sep s n u k hs huk (fun e => hus e.symm)) (hf.sep u k s n huk hs hus)

theorem unique_fwd_some {f g : freelist} (hf : MInv f) (hg : MInv g)
    (h : ∀ x, x < W → (isFree f x ↔ isFree g x)) {s n : Nat}
    (hs : mget f.forwardMap s = some n) : mget g.forwardMap s = some n := by
  obtain ⟨m, hm⟩ := unique_start hf hg h hs
  have h1 := unique_size hf hg h hs hm
  have h2 := unique_size hg hf (fun x hx => (h x hx).symm) hm hs
  have : m = n := by omega
  rw [hm, this]

/-- Two states that satisfy the invariant and have the same free pages have the
same `forwardMap`. -/
theorem unique_fwd {f g : freelist} (hf : MInv f) (hg : MInv g)
    (h : ∀ x, x < W → (isFree f x ↔ isFree g x)) (s : Nat) :
    mget f.forwardMap s = mget g.forwardMap s := by
  cases h1 : mget f.forwardMap s with
  | some n => exact (unique_fwd_some hf hg h h1).symm
  | none =>
    cases h2 : mget g.forwardMap s with
    | none => rfl
    | some m =>
      have := unique_fwd_some hg hf (fun x hx => (h x hx).symm) h2
      rw [h1] at this
      cases this

theorem bwd_of_fwd_eq {f g : freelist} (hf : Cons f) (hg : Cons g)
    (h : ∀ s, mget f.forwardMap s = mget g.forwardMap s) {e n : Nat}
    (he : mget f.backwardMap e = some n) : mget g.backwardMap e = some n := by
  have h1 := hf.bf e n he
  rw [h] at h1
  have h2 := hg.fb _ _ h1
  rw [endOf_startOf (hf.lt_b e n he).1] at h2
  exact h2

theorem isSome_bucket_iff {f : freelist} (he : NoEmptyBucket f) (n : Nat) :
    (mget f.freemaps n).isSome = true ↔ ∃ s, inBucket f.freemaps n s := by
  constructor
  · intro h
    cases hm : mget f.freemaps n with
    | none => rw [hm] at h; cases h
    | some bm =>
      have hne := he (n, bm) (mem_of_mget hm)
      cases hb : bm with
      | nil => exact absurd hb hne
      | cons s rest =>
        exact ⟨s, (inBucket_iff _ _ _).2 ⟨bm, hm, by rw [hb]; exact List.mem_cons_self _ _⟩⟩
  · rintro ⟨s, hs⟩
    rw [inBucket_iff] at hs
    obtain ⟨bm, hm, -⟩ := hs
    rw [hm]
    rfl

/-- Two states that satisfy the invariant, have no empty bucket, the same free
pages and the same counter hold the same index. -/
theorem sameIndex_of_free {f g : freelist} (hf : MInv f) (hg : MInv g)
    (hef : NoEmptyBucket f) (heg : NoEmptyBucket g)
    (h : ∀ x, x < W → (isFree f x ↔ isFree g x))
    (hc : f.freePagesCount = g.freePagesCount) : SameIndex f g := by
  have hfw := unique_fwd hf hg h
  have hbk : ∀ n s, inBucket f.freemaps n s ↔ inBucket g.freemaps n s := by
    intro n s
    rw [← hf.cons.fm, ← hg.cons.fm, hfw]
  refine ⟨hfw, ?_, ?_, hbk, hc⟩
  · intro e
    cases h1 : mget f.backwardMap e with
    | some n => exact (bwd_of_fwd_eq hf.cons hg.cons hfw h1).symm
    | none =>
      cases h2 : mget g.backwardMap e with
      | none => rfl
      | some m =>
        have := bwd_of_fwd_eq hg.cons hf.cons (fun s => (hfw s).symm) h2
        rw [h1] at this
        cases this
  · intro n
    have h1 := isSome_bucket_iff hef n
    have h2 := isSome_bucket_iff heg n
    have h3 : (∃ s, inBucket f.freemaps n s) ↔ ∃ s, inBucket g.freemaps n s :=
      exists_congr (fun s => hbk n s)
    rw [Bool.eq_iff_iff, h1, h2, h3]


/-! ## Buckets are never left empty -/

theorem neb_addSpan {f : freelist}
    (h : ∀ n bm, mget f.freemaps n = some bm → bm ≠ []) (s n : Nat) :
    ∀ n' bm, mget (addSpan f s n).freemaps n' = some bm → bm ≠ [] := by
  intro n' bm
  unfold addSpan
  simp only
  cases hm : mget f.freemaps n with
  | none =>
    simp only [mget_mset]
    by_cases hn : n' = n
    · simp only [hn, if_true, Option.some.injEq]
      rintro rfl
      simp
    · simp only [hn, if_false]
      exact h n' bm
  | some b =>
    simp only [mget_mset]
    by_cases hn : n' = n
    · simp only [hn, if_true, Option.some.injEq]
      rintro rfl
      intro he
      have : s ∈ sadd b s := (mem_sadd b s s).2 (Or.inl rfl)
      rw [he] at this
      simp at this
    · simp only [hn, if_false]
      exact h n' bm

theorem neb_delSpan {f : freelist}
    (h : ∀ n bm, mget f.freemaps n = some bm → bm ≠ []) (s n : Nat) :
    ∀ n' bm, mget (delSpan f s n).freemaps n' = some bm → bm ≠ [] := by
  intro n' bm
  unfold delSpan
  simp only
  cases hm : mget f.freemaps n with
  | none => exact h n' bm
  | some b =>
    simp only
    by_cases he : sdel b s = []
    · simp only [he, if_true, mget_mdel]
      by_cases hn : n' = n
      · simp [hn]
      · simp only [hn, if_false]
        exact h n' bm
    · simp only [he, if_false, mget_mset]
      by_cases hn : n' = n
      · simp only [hn, if_true, Option.some.injEq]
        rintro rfl
        exact he
      · simp only [hn, if_false]
        exact h n' bm

theorem neb_merge {f : freelist}
    (h : ∀ n bm, mget f.freemaps n = some bm → bm ≠ []) (pid : Nat) :
    ∀ n' bm, mget (mergeWithExistingSpan f pid).freemaps n' = some bm → bm ≠ [] := by
  cases hpre : mget f.backwardMap ((pid + W - 1) % W) with
  | none =>
    cases hnxt : mget f.forwardMap ((pid + 1) % W) with
    | none =>
      unfold mergeWithExistingSpan
      simp only [hpre, hnxt]
      exact neb_addSpan h _ _
    | some q =>
      unfold mergeWithExistingSpan
      simp only [hpre, hnxt]
      exact neb_addSpan (neb_delSpan h _ _) _ _
  | some p =>
    cases hnxt : mget f.forwardMap ((pid + 1) % W) with
    | none =>
      unfold mergeWithExistingSpan
      simp only [hpre, hnxt]
      exact neb_addSpan (neb_delSpan h _ _) _ _
    | some q =>
      unfold mergeWithExistingSpan
      simp only [hpre, hnxt]
      exact neb_addSpan (neb_delSpan (neb_delSpan h _ _) _ _) _ _

theorem neb_mergeAll (ids : List Nat) : ∀ {f : freelist},
    (∀ n bm, mget f.freemaps n = some bm → bm ≠ []) →
    ∀ n' bm, mget (mergeAll f ids).freemaps n' = some bm → bm ≠ [] := by
  induction ids with
  | nil => intro f h; exact h
  | cons pid ids ih =>
    intro f h
    exact ih (neb_merge h pid)

theorem neb_allocIndex {f : freelist}
    (h : ∀ n bm, mget f.freemaps n = some bm → bm ≠ []) (s size n : Nat) :
    ∀ n' bm, mget (allocIndex f s size n).freemaps n' = some bm → bm ≠ [] := by
  unfold allocIndex
  by_cases he : size = n
  · simp only [he, if_true]
    exact neb_delSpan h _ _
  · simp only [he, if_false]
    exact neb_addSpan (neb_delSpan h _ _) _ _

theorem neb_of {f : freelist} (h : NoEmptyBucket f) :
    ∀ n bm, mget f.freemaps n = some bm → bm ≠ [] :=
  fun n bm hm => h (n, bm) (mem_of_mget hm)

theorem neb_to {f : freelist} (hnd : NodupKeys f.freemaps)
    (h : ∀ n bm, mget f.freemaps n = some bm → bm ≠ []) : NoEmptyBucket f :=
  fun b hb => h b.1 b.2 (mget_of_mem hnd hb)


/-! ## Release of what was allocated -/

theorem ar_restore_count {c n : Nat} (hc : c < W) (hn : n < W) :
    ((c + W - n % W) % W + n) % W = c := by
  unfold W at *; omega

/-- C8, as stated, fails: `edgeState` is well typed and tri-map consistent, its spans
`(2^64 - 2, 2)` and `(0, 5)` are disjoint and not adjacent, `hashmapAllocate(1, 2)`
returns `2^64 - 2`, and the merge of the ids `2^64 - 2, 2^64 - 1`, with
verification off or on, joins them with the span that starts at page 0: the index
is then the single span `(2^64 - 2, 7)`, and `forwardMap[0]` is gone. -/
theorem allocate_release_counterexample :
    Typed edgeState ∧ TriMapConsistent edgeState ∧ SpansDisjoint edgeState ∧
    NonAdjacent edgeState ∧ PosLen edgeState ∧ NoEmptyBucket edgeState ∧
    (hashmapAllocate edgeState 1 2).2 = 18446744073709551614 ∧
    mget edgeState.forwardMap 0 = some 5 ∧
    (∀ verify, ∃ f2,
      hashmapMergeSpans verify (hashmapAllocate edgeState 1 2).1
        (List.range' 18446744073709551614 2) = some f2 ∧
      f2.forwardMap = [(18446744073709551614, 7)] ∧ mget f2.forwardMap 0 = none) := by
  refine ⟨by decide, by decide, by decide, by decide, by decide, by decide, by decide,
    by decide, ?_⟩
  intro verify
  cases verify
  · exact ⟨_, rfl, by decide⟩
  · exact ⟨mergeAll (hashmapAllocate edgeState 1 2).1 (List.range' 18446744073709551614 2),
      by decide, by decide⟩

/-- C8, amended: on a well-formed state (well typed, tri-map consistent with no
empty bucket, spans disjoint and non-adjacent, lengths `≥ 1`) in which no span
contains page 0, if `hashmapAllocate(tx, n)` with `n ≥ 1` returns `s ≠ 0`, then a
following `hashmapMergeSpans` over the ids `s, s+1, …, s+n-1`, with verification off
or on, returns and leaves `forwardMap`, `backwardMap`, `freemaps` and
`freePagesCount` equal, as maps, to their values before the allocation. -/
theorem allocate_release_restores (verify : Bool) (f : freelist) (txid n : Nat)
    (f1 : freelist) (s : Nat)
    (ht : Typed f) (hc : TriMapConsistent f) (hd : SpansDisjoint f) (ha : NonAdjacent f)
    (hp : PosLen f) (hz : NoZero f) (he : NoEmptyBucket f)
    (hn1 : 1 ≤ n) (hn : n < 9223372036854775808)
    (hr : hashmapAllocate f txid n = (f1, s)) (hs : s ≠ 0) :
    ∃ f2, hashmapMergeSpans verify f1 (List.range' s n) = some f2 ∧ SameIndex f2 f := by
  have h := minv_of ht hc.1 hd ha hp hz
  have hnW : n < W := by unfold W; omega
  have hdm : ∀ s n t m, mget f.forwardMap s = some n → mget f.forwardMap t = some m →
      s ≠ t → apart s n t m := fun s n t m h1 h2 h3 => disjoint_mget h.cons.nd_f hd h1 h2 h3
  rcases alloc_spec h.cons txid (by omega : n ≠ 0) hnW with ⟨size, hsz, hle, hidx⟩ | ⟨e0, -⟩
  · rw [hr] at hsz hidx
    simp only at hsz hidx
    have hlt := h.cons.lt_f s size hsz
    have hw : s + size ≤ W :=
      ar_nozero hlt.1 (fun hcv => hz ⟨(s, size), mem_of_mget hsz, hcv⟩) hs
    have hI1 : MInv f1 := (h.invAlloc hsz hn1 hle).invCongr hidx
    have hfree1 : ∀ x, x < W → (isFree f1 x ↔ isFree f x ∧ ¬ covers s n x) := by
      intro x hx
      rw [isFree_congr hidx.1 x]
      exact isFree_allocIndex h.cons hdm hsz hn1 hle hx
    have hz1 : ¬ isFree f1 0 := by
      rw [hfree1 0 (by unfold W; omega)]
      exact fun h0 => hz h0.1
    have hc1 : f1.freePagesCount = (f.freePagesCount + W - n % W) % W := by
      rw [hidx.2.2.2, count_allocIndex f hle hlt.2]
    have hc1W : f1.freePagesCount < W := by
      rw [hc1]
      exact Nat.mod_lt _ (by unfold W; omega)
    have hmem : ∀ x, x ∈ List.range' s n ↔ s ≤ x ∧ x < s + n := by
      intro x
      rw [List.mem_range'_1]
    have hids : ∀ x ∈ List.range' s n, x ≠ 0 ∧ x < W ∧ ¬ isFree f1 x := by
      intro x hx
      rw [hmem] at hx
      have hxW : x < W := by omega
      refine ⟨by omega, hxW, ?_⟩
      rw [hfree1 x hxW]
      exact fun h0 => h0.2 (ar_in_run hw hle hx.1 hx.2).1
    obtain ⟨f2, e2, ⟨l, -, hl⟩, hI2, hfree2, -, -, hc2⟩ :=
      mergeSpans_ok verify hI1 hz1 hc1W (List.nodup_range' s n) hids
    refine ⟨f2, e2, ?_⟩
    have hne1 : ∀ n' bm, mget f1.freemaps n' = some bm → bm ≠ [] := by
      rw [hidx.2.2.1]
      exact neb_allocIndex (neb_of he) _ _ _
    have hne2 : NoEmptyBucket f2 := by
      refine neb_to hI2.cons.nd_m ?_
      rw [hl]
      exact neb_mergeAll l hne1
    refine sameIndex_of_free hI2 h hne2 he ?_ ?_
    · intro x hx
      rw [hfree2 x hx, hfree1 x hx, hmem]
      constructor
      · rintro (h0 | h0)
        · exact h0.1
        · exact ⟨(s, size), mem_of_mget hsz, (ar_in_run hw hle h0.1 h0.2).2⟩
      · intro h0
        by_cases hcv : covers s n x
        · right
          exact (ar_nowrap_cov (by omega : s + n ≤ W) hx).1 hcv
        · exact Or.inl ⟨h0, hcv⟩
    · rw [hc2, hc1, List.length_range']
      exact ar_restore_count ht.2.2.2.2.2.2 hnW
  · rw [hr] at e0
    simp only [Prod.mk.injEq] at e0
    exact absurd e0.2 hs

theorem allocate_release_restores_witness :
    (Typed scenarioState ∧ TriMapConsistent scenarioState ∧ SpansDisjoint scenarioState ∧
      NonAdjacent scenarioState ∧ PosLen scenarioState ∧ NoZero scenarioState ∧
      NoEmptyBucket scenarioState) ∧
    ∃ f2, hashmapMergeSpans true (hashmapAllocate scenarioState 100 2).1 (List.range' 5 2) =
        some f2 ∧ SameIndex f2 scenarioState :=
  ⟨by decide,
    allocate_release_restores true scenarioState 100 2 (hashmapAllocate scenarioState 100 2).1 5
      (by decide) (by decide) (by decide) (by decide) (by decide) (by decide) (by decide)
      (by decide) (by decide) (by decide) (by decide)⟩


/-! ## Reordering the entries of the maps -/

theorem Cons.transfer {f g : freelist} (h : Cons f)
    (nf : NodupKeys g.forwardMap) (nb : NodupKeys g.backwardMap) (nm : NodupKeys g.freemaps)
    (nk : ∀ n bm, mget g.freemaps n = some bm → bm.Nodup)
    (lk : ∀ n bm, mget g.freemaps n = some bm → n < W)
    (e1 : ∀ k, mget g.forwardMap k = mget f.forwardMap k)
    (e2 : ∀ k, mget g.backwardMap k = mget f.backwardMap k)
    (e3 : ∀ n s, inBucket g.freemaps n s ↔ inBucket f.freemaps n s) : Cons g := by
  refine ⟨nf, nb, nm, nk, ?_, ?_, ?_, lk, ?_, ?_, ?_⟩
  · intro s n; rw [e1]; exact h.lt_f s n
  · intro e n; rw [e2]; exact h.lt_b e n
  · intro n s; rw [e3]; exact h.lt_m n s
  · intro s n; rw [e1, e2]; exact h.fb s n
  · intro e n; rw [e1, e2]; exact h.bf e n
  · intro s n; rw [e1, e3]; exact h.fm s n

theorem isFree_of_lookup {f g : freelist} (nf : NodupKeys f.forwardMap)
    (ng : NodupKeys g.forwardMap) (e1 : ∀ k, mget g.forwardMap k = mget f.forwardMap k)
    (x : Nat) : isFree g x ↔ isFree f x := by
  rw [isFree_iff ng, isFree_iff nf]
  simp only [e1]

theorem Cons.reorder {f g : freelist} (h : Cons f) (r : Reorder f g) : Cons g := by
  obtain ⟨⟨s1, s2, s3, s4, -⟩, n1, n2, n3, n4, -, -⟩ := r
  refine h.transfer n1 n2 n3 (fun n bm hm => n4 (n, bm) (mem_of_mget hm)) ?_
    (fun k => (s1 k).symm) (fun k => (s2 k).symm) (fun n s => (s4 n s).symm)
  intro n bm hm
  have h1 := s3 n
  rw [hm] at h1
  cases hf : mget f.freemaps n with
  | none => rw [hf] at h1; cases h1
  | some b => exact h.lt_k n b hf

theorem isFree_reorder {f g : freelist} (h : Cons f) (r : Reorder f g) (x : Nat) :
    isFree g x ↔ isFree f x :=
  isFree_of_lookup h.nd_f r.2.1 (fun k => (r.1.1 k).symm) x

theorem MInv.invReorder {f g : freelist} (h : MInv f) (r : Reorder f g) : MInv g := by
  have e1 : ∀ k, mget g.forwardMap k = mget f.forwardMap k := fun k => (r.1.1 k).symm
  refine ⟨h.cons.reorder r, ?_, ?_⟩
  · intro s n; rw [e1]; exact h.pos s n
  · intro s n t m; rw [e1, e1]; exact h.sep s n t m

theorem AInv.ainvReorder {f g : freelist} (h : AInv f) (r : Reorder f g) : AInv g := by
  have e1 : ∀ k, mget g.forwardMap k = mget f.forwardMap k := fun k => (r.1.1 k).symm
  refine ⟨h.cons.reorder r, ?_, ?_⟩
  · intro s n; rw [e1]; exact h.pos s n
  · intro s n t m; rw [e1, e1]; exact h.dis s n t m

theorem perm_of_lookup {a b : List (Nat × Nat)} (na : NodupKeys a) (nb : NodupKeys b)
    (e : ∀ k, mget a k = mget b k) : a.Perm b := by
  refine (List.perm_ext_iff_of_nodup (List.Nodup.of_map _ na) (List.Nodup.of_map _ nb)).2 ?_
  rintro ⟨k, v⟩
  rw [mem_iff_mget na, mem_iff_mget nb, e]

theorem sumVals_reorder {f g : freelist} (h : Cons f) (r : Reorder f g) :
    sumVals g.forwardMap = sumVals f.forwardMap := by
  have hp := perm_of_lookup h.nd_f r.2.1 r.1.1
  unfold sumVals
  exact ((hp.map Prod.snd).sum_eq).symm

theorem reorder_refl {f : freelist} (h : Cons f) : Reorder f f :=
  ⟨⟨fun _ => rfl, fun _ => rfl, fun _ => rfl, fun _ _ => Iff.rfl, rfl⟩, h.nd_f, h.nd_b, h.nd_m,
    fun b hb => h.nd_k b.1 b.2 (mget_of_mem h.nd_m hb), fun _ => rfl, fun _ => Iff.rfl⟩


/-! ## Runs of allocations -/

theorem ar_al_apart {s n size t m : Nat} (h : apart s size t m) (hs : s < W) (ht : t < W)
    (hlt : n < size) (hsz : size < W) :
    apart ((s + n) % W) (size - n) t m ∧ apart t m ((s + n) % W) (size - n) := by
  unfold apart W at *; omega

theorem ar_apart_symm {s n t m : Nat} (h : apart s n t m) : apart t m s n := by
  unfold apart at *; omega

theorem AInv.ainvAlloc {f : freelist} (h : AInv f) {s size n : Nat}
    (hs : mget f.forwardMap s = some size) (hn1 : 1 ≤ n) (hn : n ≤ size) :
    AInv (allocIndex f s size n) := by
  have hlt := h.cons.lt_f s size hs
  have hdel := h.cons.consDel hs
  unfold allocIndex
  by_cases he : size = n
  · simp only [he, if_true]
    rw [← he]
    refine ⟨hdel, ?_, ?_⟩
    · intro t m
      rw [forwardMap_delSpan, mget_mdel]
      by_cases ht : t = s
      · simp [ht]
      · simp only [ht, if_false]; exact h.pos t m
    · intro t m u k
      rw [forwardMap_delSpan, mget_mdel, mget_mdel]
      by_cases ht : t = s
      · simp [ht]
      · by_cases hu : u = s
        · simp [hu]
        · simp only [ht, hu, if_false]; exact h.dis t m u k
  · have hlt2 : n < size := by omega
    simp only [he, if_false]
    have hkey : (s + n) % W ≠ s := by
      clear hdel hs h
      unfold W at *; omega
    have h1 : mget (delSpan f s size).forwardMap ((s + n) % W) = none := by
      rw [forwardMap_delSpan, mget_mdel, if_neg hkey]
      cases hm : mget f.forwardMap ((s + n) % W) with
      | none => rfl
      | some m =>
        exfalso
        have h0 := ar_al_key (h.dis s size _ m hs hm (fun e => hkey e.symm)) hlt.1 hn1 hlt2 hlt.2
        have := h.pos _ m hm
        omega
    have h2 : mget (delSpan f s size).backwardMap (endOf ((s + n) % W) (size - n)) = none := by
      rw [backwardMap_delSpan, mget_mdel, ar_al_end hlt.1 hlt2 hlt.2]
      simp
    have hsW : (s + n) % W < W := Nat.mod_lt _ (by unfold W; omega)
    refine ⟨hdel.consAdd hsW (by omega) h1 h2, ?_, ?_⟩
    · intro t m
      rw [forwardMap_addSpan, mget_mset]
      by_cases ht : t = (s + n) % W
      · simp only [ht, if_true, Option.some.injEq]
        rintro rfl
        omega
      · simp only [ht, if_false, forwardMap_delSpan, mget_mdel]
        by_cases hts : t = s
        · simp [hts]
        · simp only [hts, if_false]; exact h.pos t m
    · intro t m u k
      rw [forwardMap_addSpan, mget_mset, mget_mset, forwardMap_delSpan, mget_mdel, mget_mdel]
      by_cases ht : t = (s + n) % W
      · by_cases hu : u = (s + n) % W
        · intro _ _ hne
          exact absurd (ht.trans hu.symm) hne
        · simp only [ht, hu, if_true, if_false, Option.some.injEq]
          by_cases hus : u = s
          · simp [hus]
          · simp only [hus, if_false]
            rintro rfl hk _
            exact (ar_al_apart (h.dis s size u k hs hk (fun e => hus e.symm)) hlt.1
              (h.cons.lt_f u k hk).1 hlt2 hlt.2).1
      · by_cases hu : u = (s + n) % W
        · simp only [ht, hu, if_true, if_false, Option.some.injEq]
          by_cases hts : t = s
          · simp [hts]
          · simp only [hts, if_false]
            rintro hm rfl _
            exact (ar_al_apart (h.dis s size t m hs hm (fun e => hts e.symm)) hlt.1
              (h.cons.lt_f t m hm).1 hlt2 hlt.2).2
        · simp only [ht, hu, if_false]
          by_cases hts : t = s
          · simp [hts]
          · by_cases hus : u = s
            · simp [hus]
            · simp only [hts, hus, if_false]; exact h.dis t m u k

theorem AInv.ainvCongr {f g : freelist} (h : AInv f) (e : IndexEq g f) : AInv g := by
  refine ⟨h.cons.consCongr e, ?_, ?_⟩
  · rw [e.1]; exact h.pos
  · rw [e.1]; exact h.dis

/-- One call of `hashmapAllocate` on a well-formed state: the state stays
well-formed, no page becomes free, and when the call returns `s ≠ 0` the pages of
the run `s, …` of `n` pages were free and are not free any more. -/
theorem alloc_step {f : freelist} (h : AInv f) (txid : Nat) {n : Nat} (hn : n < W) :
    AInv (hashmapAllocate f txid n).1 ∧
    (∀ x, x < W → isFree (hashmapAllocate f txid n).1 x → isFree f x) ∧
    ((hashmapAllocate f txid n).2 ≠ 0 → (hashmapAllocate f txid n).2 < W ∧
      ∀ x, x < W → covers (hashmapAllocate f txid n).2 n x →
        isFree f x ∧ ¬ isFree (hashmapAllocate f txid n).1 x) := by
  by_cases hn0 : n = 0
  · subst hn0
    have e : hashmapAllocate f txid 0 = (f, 0) := by simp [hashmapAllocate]
    rw [e]
    exact ⟨h, fun _ _ hx => hx, fun h0 => absurd rfl h0⟩
  · rcases alloc_spec h.cons txid hn0 hn with ⟨size, hsz, hle, hidx⟩ | ⟨e, -⟩
    · have hlt := h.cons.lt_f _ size hsz
      have hfree : ∀ x, x < W → (isFree (hashmapAllocate f txid n).1 x ↔
          isFree f x ∧ ¬ covers (hashmapAllocate f txid n).2 n x) := by
        intro x hx
        rw [isFree_congr hidx.1 x]
        exact isFree_allocIndex h.cons h.dis hsz (by omega) hle hx
      refine ⟨(h.ainvAlloc hsz (by omega) hle).ainvCongr hidx, ?_, ?_⟩
      · intro x hx hf
        exact ((hfree x hx).1 hf).1
      · intro _
        refine ⟨hlt.1, ?_⟩
        intro x hx hcv
        refine ⟨⟨(_, size), mem_of_mget hsz, ar_cov_mono hle hcv⟩, ?_⟩
        rw [hfree x hx]
        exact fun h0 => h0.2 hcv
    · rw [e]
      exact ⟨h, fun _ _ hx => hx, fun h0 => absurd rfl h0⟩


theorem ar_cov_nat {s n y : Nat} (hy : y < W) (h1 : s ≤ y) (h2 : y < s + n) : covers s n y := by
  unfold covers W at *; omega

theorem ring_to_nat {s n t m : Nat} (hs : s < W) (ht : t < W)
    (h : ∀ x, x < W → ¬ (covers s n x ∧ covers t m x)) :
    ∀ x, ¬ (s ≤ x ∧ x < s + n ∧ t ≤ x ∧ x < t + m) := by
  rintro x ⟨h1, h2, h3, h4⟩
  rcases Nat.le_total s t with hst | hst
  · exact h t ht ⟨ar_cov_nat ht hst (by omega), ar_cov_nat ht (le_refl t) (by omega)⟩
  · exact h s hs ⟨ar_cov_nat hs (le_refl s) (by omega), ar_cov_nat hs hst (by omega)⟩

theorem allocRun_inv {f h : freelist} {calls : List (Nat × Nat)} (hrun : AllocRun f calls h) :
    AInv f → AInv h ∧ (∀ x, x < W → isFree h x → isFree f x) ∧
    (∀ c ∈ calls, c.1 ≠ 0 → c.1 < W ∧ 1 ≤ c.2 ∧
      ∀ x, x < W → covers c.1 c.2 x → isFree f x ∧ ¬ isFree h x) ∧
    calls.Pairwise callsDisjoint := by
  induction hrun with
  | done f =>
    intro hf
    exact ⟨hf, fun _ _ hx => hx, by simp, List.Pairwise.nil⟩
  | call f g h txid n calls hre hn _ ih =>
    intro hf
    have hg := hf.ainvReorder hre
    have hnW : n < W := by unfold W; omega
    obtain ⟨s1, s2, s3⟩ := alloc_step hg txid hnW
    obtain ⟨i1, i2, i3, i4⟩ := ih s1
    have hfg : ∀ x, isFree g x ↔ isFree f x := isFree_reorder hf.cons hre
    have hn1 : (hashmapAllocate g txid n).2 ≠ 0 → 1 ≤ n := by
      intro h0
      by_contra hn0
      have : n = 0 := by omega
      subst this
      exact h0 (by simp [hashmapAllocate])
    refine ⟨i1, ?_, ?_, ?_⟩
    · intro x hx hfree
      exact (hfg x).1 (s2 x hx (i2 x hx hfree))
    · intro c hc hc0
      rcases List.mem_cons.1 hc with rfl | hc
      · obtain ⟨t1, t2⟩ := s3 hc0
        refine ⟨t1, hn1 hc0, ?_⟩
        intro x hx hcv
        have := t2 x hx hcv
        exact ⟨(hfg x).1 this.1, fun hh => this.2 (i2 x hx hh)⟩
      · obtain ⟨t1, t2, t3⟩ := i3 c hc hc0
        refine ⟨t1, t2, ?_⟩
        intro x hx hcv
        have := t3 x hx hcv
        exact ⟨(hfg x).1 (s2 x hx this.1), this.2⟩
    · rw [List.pairwise_cons]
      refine ⟨?_, i4⟩
      intro c hc ha0 hc0
      obtain ⟨t1, t2⟩ := s3 ha0
      obtain ⟨u1, u2, u3⟩ := i3 c hc hc0
      have hring : ∀ x, x < W →
          ¬ (covers (hashmapAllocate g txid n).2 n x ∧ covers c.1 c.2 x) := by
        rintro x hx ⟨c1, c2⟩
        exact (t2 x hx c1).2 (u3 x hx c2).1
      refine ⟨hring, ring_to_nat t1 u1 hring, ?_⟩
      intro heq
      apply hring c.1 u1
      refine ⟨?_, ar_cov_self u2⟩
      have heq2 : (hashmapAllocate g txid n).2 = c.1 := heq
      rw [← heq2]
      exact ar_cov_self (hn1 ha0)

theorem ainv_of {f : freelist} (ht : Typed f) (hc : MapsConsistent f) (hd : SpansDisjoint f)
    (hp : PosLen f) : AInv f := by
  have hcons := cons_of_typed ht hc
  exact ⟨hcons, fun s n h => hp (s, n) (mem_of_mget h),
    fun s n t m h1 h2 h3 => disjoint_mget hcons.nd_f hd h1 h2 h3⟩

/-- C6: allocation disjointness.  On a well-formed state (well typed, tri-map
consistent, spans disjoint, lengths `≥ 1`), for every run of calls
`hashmapAllocate(tx, n_i)` with no release in between, whatever order the maps are
visited in, the runs `[s_i, s_i + n_i)` of the calls that returned `s_i ≠ 0` are
pairwise disjoint, none of their pages is free in the final state, that is, they
are disjoint from every span still in `forwardMap`, and no page id is returned
twice. -/
theorem allocRun_disjoint (f h : freelist) (calls : List (Nat × Nat))
    (ht : Typed f) (hc : TriMapConsistent f) (hd : SpansDisjoint f) (hp : PosLen f)
    (hrun : AllocRun f calls h) :
    calls.Pairwise callsDisjoint ∧
    (∀ c ∈ calls, c.1 ≠ 0 → ∀ x, x < W → covers c.1 c.2 x → ¬ isFree h x) := by
  obtain ⟨-, -, r3, r4⟩ := allocRun_inv hrun (ainv_of ht hc.1 hd hp)
  exact ⟨r4, fun c hc h0 x hx hcv => ((r3 c hc h0).2.2 x hx hcv).2⟩

theorem scenario_allocRun : AllocRun scenarioState scenarioCalls scenarioAfter2 :=
  AllocRun.call scenarioState scenarioState scenarioAfter2 100 3 _
    (reorder_refl (cons_of_typed (by decide) (by decide))) (by decide)
    (AllocRun.call scenarioAfter1 scenarioAfter1 scenarioAfter2 100 2 []
      (reorder_refl (cons_of_typed (by decide) (by decide))) (by decide)
      (AllocRun.done scenarioAfter2))

theorem allocRun_disjoint_witness :
    (Typed scenarioState ∧ TriMapConsistent scenarioState ∧ SpansDisjoint scenarioState ∧
      PosLen scenarioState ∧ AllocRun scenarioState scenarioCalls scenarioAfter2) ∧
    (scenarioCalls.Pairwise callsDisjoint ∧
      (∀ c ∈ scenarioCalls, c.1 ≠ 0 → ∀ x, x < W → covers c.1 c.2 x →
        ¬ isFree scenarioAfter2 x)) :=
  ⟨⟨by decide, by decide, by decide, by decide, scenario_allocRun⟩,
    allocRun_disjoint scenarioState scenarioAfter2 scenarioCalls (by decide) (by decide)
      (by decide) (by decide) scenario_allocRun⟩


/-! ## Maximality along every run -/

theorem MInv.invTransfer {f g : freelist} (h : MInv f) (hg : Cons g)
    (e1 : ∀ k, mget g.forwardMap k = mget f.forwardMap k) : MInv g := by
  refine ⟨hg, ?_, ?_⟩
  · intro s n; rw [e1]; exact h.pos s n
  · intro s n t m; rw [e1, e1]; exact h.sep s n t m

theorem ar_full_start {pid : Nat} (hp : pid < W) :
    startOf ((pid + W - 1) % W) (W - 1) = (pid + 1) % W := by
  unfold startOf W at *; omega

theorem ar_full_size : ((1 + (W - 1)) % W + (W - 1)) % W = W - 1 := by
  unfold W; omega

/-- The merge step that meets a span of `W - 1` pages, which holds every page but
the merged one: the index is left as it was. -/
theorem merge_full {f : freelist} (h : MInv f) {pid : Nat} (hp : pid < W)
    (hpre : mget f.backwardMap ((pid + W - 1) % W) = some (W - 1)) :
    MInv (mergeWithExistingSpan f pid) ∧
    ∀ x, isFree (mergeWithExistingSpan f pid) x ↔ isFree f x := by
  have ha := h.cons.bf _ _ hpre
  rw [ar_full_start hp] at ha
  have hb := h.cons.fb _ _ ha
  have hin := (h.cons.fm _ _).1 ha
  have hW1 : W - 1 < W := by unfold W; omega
  have e : mergeWithExistingSpan f pid =
      addSpan (delSpan (delSpan f ((pid + 1) % W) (W - 1)) ((pid + 1) % W) (W - 1))
        ((pid + 1) % W) (W - 1) := by
    unfold mergeWithExistingSpan
    simp only [hpre, ha]
    rw [ar_ss_start hp hW1, ar_full_size, ar_full_start hp]
    have e0 : (((pid + W - 1) % W + 1) % W + W - (W - 1) % W) % W =
        startOf ((pid + W - 1) % W) (W - 1) := rfl
    rw [e0, ar_full_start hp]
  rw [e]
  generalize (pid + 1) % W = a at *
  generalize W - 1 = p at *
  have e1 : ∀ k, mget (addSpan (delSpan (delSpan f a p) a p) a p).forwardMap k =
      mget f.forwardMap k := by
    intro k
    simp only [forwardMap_addSpan, forwardMap_delSpan, mget_mset, mget_mdel]
    by_cases hk : k = a
    · simp [hk, ha]
    · simp [hk]
  have e2 : ∀ k, mget (addSpan (delSpan (delSpan f a p) a p) a p).backwardMap k =
      mget f.backwardMap k := by
    intro k
    simp only [backwardMap_addSpan, backwardMap_delSpan, mget_mset, mget_mdel]
    by_cases hk : k = endOf a p
    · simp [hk, hb]
    · simp [hk]
  have e3 : ∀ n s, inBucket (addSpan (delSpan (delSpan f a p) a p) a p).freemaps n s ↔
      inBucket f.freemaps n s := by
    intro n s
    rw [inBucket_addSpan, inBucket_delSpan, inBucket_delSpan]
    constructor
    · rintro (⟨rfl, rfl⟩ | h0)
      · exact hin
      · exact h0.1.1
    · intro h0
      by_cases hk : n = p ∧ s = a
      · exact Or.inl hk
      · exact Or.inr ⟨⟨h0, hk⟩, hk⟩
  have hcons : Cons (addSpan (delSpan (delSpan f a p) a p) a p) := by
    refine h.cons.transfer ?_ ?_ ?_ ?_ ?_ e1 e2 e3
    · simp only [forwardMap_addSpan, forwardMap_delSpan]
      exact nodupKeys_mset (nodupKeys_mdel (nodupKeys_mdel h.cons.nd_f _) _) _ _
    · simp only [backwardMap_addSpan, backwardMap_delSpan]
      exact nodupKeys_mset (nodupKeys_mdel (nodupKeys_mdel h.cons.nd_b _) _) _ _
    · exact nodupKeys_freemaps_addSpan
        (nodupKeys_freemaps_delSpan (nodupKeys_freemaps_delSpan h.cons.nd_m _ _) _ _) _ _
    · exact bucket_nodup_addSpan
        (bucket_nodup_delSpan (bucket_nodup_delSpan h.cons.nd_k _ _) _ _) _ _
    · exact key_lt_addSpan (key_lt_delSpan (key_lt_delSpan h.cons.lt_k _ _) _ _) _ hW1
  exact ⟨h.invTransfer hcons e1, isFree_of_lookup h.cons.nd_f hcons.nd_f e1⟩

/-- Every merge step of a page that is not free keeps the invariant, and frees
no page but that one. -/
theorem merge_step_any {f : freelist} (h : MInv f) {pid : Nat} (hp : pid < W)
    (hnf : ¬ isFree f pid) :
    MInv (mergeWithExistingSpan f pid) ∧
    ∀ x, x < W → isFree (mergeWithExistingSpan f pid) x → isFree f x ∨ x = pid := by
  by_cases hfull : mget f.backwardMap ((pid + W - 1) % W) = some (W - 1)
  · obtain ⟨r1, r2⟩ := merge_full h hp hfull
    exact ⟨r1, fun x _ hx => Or.inl ((r2 x).1 hx)⟩
  · obtain ⟨r1, r2, -, -⟩ := merge_step h hp hnf hfull
    exact ⟨r1, fun x hx hf => (r2 x hx).1 hf⟩

theorem mergeAll_minv (ids : List Nat) : ∀ {f : freelist}, MInv f → ids.Nodup →
    (∀ x ∈ ids, x < W ∧ ¬ isFree f x) → MInv (mergeAll f ids) := by
  induction ids with
  | nil => intro f h _ _; exact h
  | cons pid ids ih =>
    intro f h hnd hids
    have hp := hids pid (List.mem_cons_self _ _)
    obtain ⟨r1, r2⟩ := merge_step_any h hp.1 hp.2
    have hnd2 := List.nodup_cons.1 hnd
    refine ih r1 hnd2.2 ?_
    intro x hx
    have hxf := hids x (List.mem_cons_of_mem _ hx)
    refine ⟨hxf.1, fun hf => ?_⟩
    rcases r2 x hxf.1 hf with h1 | h1
    · exact hxf.2 h1
    · subst h1
      exact hnd2.1 hx

/-- When `hashmapMergeSpans` returns, it has merged the ids in some order. -/
theorem mergeSpans_some {verify : Bool} {f f1 : freelist} {ids : List Nat}
    (h : hashmapMergeSpans verify f ids = some f1) :
    ∃ l, l.Perm ids ∧ f1 = mergeAll f l := by
  unfold hashmapMergeSpans at h
  cases verify
  · simp only [Bool.false_eq_true, if_false, Option.some.injEq] at h
    exact ⟨ids, List.Perm.refl _, h.symm⟩
  · simp only [if_true] at h
    split at h
    · split at h
      · cases h
      · split at h
        · cases h
        · split at h
          · cases h
          · simp only [Option.some.injEq] at h
            exact ⟨_, sortPgids_perm ids, h.symm⟩
    · cases h

theorem alloc_minv {f : freelist} (h : MInv f) (txid : Nat) {n : Nat} (hn : n < W) :
    MInv (hashmapAllocate f txid n).1 := by
  by_cases hn0 : n = 0
  · subst hn0
    have e : hashmapAllocate f txid 0 = (f, 0) := by simp [hashmapAllocate]
    rw [e]
    exact h
  · rcases alloc_spec h.cons txid hn0 hn with ⟨size, hsz, hle, hidx⟩ | ⟨e, -⟩
    · exact (h.invAlloc hsz (by omega) hle).invCongr hidx
    · rw [e]
      exact h


theorem ar_init_sep {s n t m : Nat} (hs : s + n ≤ W) (ht : t + m ≤ W) (hne : s ≠ t)
    (ht1 : 1 ≤ t) (hm : 1 ≤ m) (h1 : t ≤ s ∨ s + n < t) (h2 : s ≤ t ∨ t + m < s) :
    n < (t + W - s) % W := by
  unfold W at *; omega

theorem minv_fresh : MInv freelist.fresh := by
  have e : freelist.fresh = resetIndex freelist.fresh := rfl
  refine ⟨by rw [e]; exact cons_empty _, ?_, ?_⟩
  · intro s n h; simp [freelist.fresh, mget] at h
  · intro s n t m h; simp [freelist.fresh, mget] at h

/-- The state built by `init` from a strictly ascending list of page ids `≥ 1`
satisfies the invariant of the span index; its free pages are the pages of the
list and the counter is the length of the list. -/
theorem init_minv {g f : freelist} {L : List Nat} (hs : L.Sorted (fun a b => a < b))
    (hW : ∀ x ∈ L, 1 ≤ x ∧ x < W) (hlen : L.length < 9223372036854775808) (hne : L ≠ [])
    (hinit : init g L = some f) :
    MInv f ∧ (∀ x, x < W → (isFree f x ↔ x ∈ L)) ∧
    sumVals f.forwardMap = L.length ∧ f.freePagesCount = L.length := by
  cases L with
  | nil => exact absurd rfl hne
  | cons p0 rest =>
    simp only [List.length_cons] at hlen
    have hne2 : p0 :: rest ≠ List.range (rest.length + 1) := by
      rw [List.range_eq_range', List.range'_succ]
      intro heq
      have h0 : p0 = 0 := (List.cons.inj heq).1
      have := (hW p0 (List.mem_cons_self _ _)).1
      omega
    obtain ⟨F, hF, hI, hmem, hsum, -, -⟩ :=
      init_ok g p0 rest hs (fun x hx => (hW x hx).2) hlen hne2
    have hFf : F = f := by
      rw [hF] at hinit
      exact Option.some.inj hinit
    subst hFf
    have hnw := hI.nowrap (le_refl _)
    have hfree : ∀ x, x < W → (isFree F x ↔ x ∈ p0 :: rest) := by
      intro x hx
      rw [isFree_iff_inSpan hI.cons.nd_f hnw hx, hmem]
    have hstart : ∀ t m, mget F.forwardMap t = some m → 1 ≤ t := by
      intro t m htm
      have hb := hI.below t m htm
      have : inSpan F t := ⟨t, m, htm, le_refl t, by omega⟩
      exact (hW t ((hmem t).1 this)).1
    refine ⟨⟨hI.cons, fun s n h => (hI.below s n h).1, ?_⟩, hfree, hsum, ?_⟩
    · intro s n t m h1 h2 hne
      have b1 := hI.below s n h1
      have b2 := hI.below t m h2
      have e1 : s + n ≤ W := by omega
      have e2 : t + m ≤ W := by omega
      refine ar_init_sep e1 e2 hne (hstart t m h2) b2.1 ?_ ?_
      · rcases Nat.lt_or_ge s t with hlt | hge
        · exact Or.inr (hI.gap s n t m h1 h2 hlt)
        · exact Or.inl hge
      · rcases Nat.lt_or_ge t s with hlt | hge
        · exact Or.inr (hI.gap t m s n h2 h1 hlt)
        · exact Or.inl hge
    · rw [hI.cnt, hsum]
      rfl

theorem reachable_minv {f : freelist} (hr : Reachable f) : MInv f := by
  induction hr with
  | init f L hs hW hlen hinit =>
    by_cases hne : L = []
    · subst hne
      have : f = freelist.fresh := by
        simp only [init, Option.some.injEq] at hinit
        exact hinit.symm
      rw [this]
      exact minv_fresh
    · exact (init_minv hs (fun x hx => ⟨by have := (hW x hx).1; omega, (hW x hx).2⟩)
        hlen hne hinit).1
  | alloc f txid n _ hn ih => exact alloc_minv ih txid (by unfold W; omega)
  | merge verify f f1 ids _ hnd hids _ hm ih =>
    obtain ⟨l, hl, rfl⟩ := mergeSpans_some hm
    exact mergeAll_minv l ih (hl.nodup_iff.2 hnd) (fun x hx => hids x (hl.mem_iff.1 hx))
  | reorder f g _ hre ih => exact ih.invReorder hre

theorem ar_nonadj {s n t : Nat} (hs : s < W) (h : n < (t + W - s) % W) : t ≠ s + n := by
  unfold W at *; omega

theorem ar_nonover {s n t : Nat} (ht : t < W) (h : n < (t + W - s) % W) :
    ¬ (s < t ∧ t < s + n) := by
  unfold W at *; omega

/-- C3: maximality is an invariant of the reachable states.  Starting from
`init(L)` for a strictly ascending list `L` of page ids `≥ 2`, after any sequence
of `hashmapAllocate` calls and `hashmapMergeSpans` calls (each given duplicate-free
ids that are not free), no two spans of `forwardMap` are adjacent or overlapping:
there are no starts `s`, `t` with `t = s + forwardMap[s]` or
`s < t < s + forwardMap[s]`. -/
theorem reachable_maximal (f : freelist) (hr : Reachable f) :
    NonAdjacent f ∧ NonOverlapping f := by
  have h := reachable_minv hr
  constructor
  · intro e1 h1 e2 h2
    have m1 := mget_of_mem h.cons.nd_f h1
    have m2 := mget_of_mem h.cons.nd_f h2
    by_cases hne : e1.1 = e2.1
    · have hp := h.pos _ _ m1
      omega
    · exact ar_nonadj (h.cons.lt_f _ _ m1).1 (h.sep _ _ _ _ m1 m2 hne)
  · intro e1 h1 e2 h2
    have m1 := mget_of_mem h.cons.nd_f h1
    have m2 := mget_of_mem h.cons.nd_f h2
    by_cases hne : e1.1 = e2.1
    · omega
    · exact ar_nonover (h.cons.lt_f _ _ m2).1 (h.sep _ _ _ _ m1 m2 hne)

theorem reachable_maximal_witness :
    Reachable scenarioAfter1 ∧ NonAdjacent scenarioAfter1 ∧ NonOverlapping scenarioAfter1 :=
  have hr : Reachable scenarioAfter1 :=
    Reachable.alloc scenarioState 100 3
      (Reachable.init scenarioState scenarioIds (by decide) (by decide) (by decide)
        init_scenario)
      (by decide)
  ⟨hr, reachable_maximal scenarioAfter1 hr⟩


/-! ## Tri-map consistency of the reachable states -/

theorem ar_count_alloc {c n s1 : Nat} (hc : c < W) (hs : s1 + n = c) :
    (c + W - n % W) % W = s1 := by
  unfold W at *; omega

/-- An allocation keeps the counter equal to the sum of the span lengths, and does
not raise it. -/
theorem alloc_count {f : freelist} (h : MInv f) (hc : CountConsistent f)
    (hW : f.freePagesCount < W) (txid : Nat) {n : Nat} (hn : n < W) :
    CountConsistent (hashmapAllocate f txid n).1 ∧
    (hashmapAllocate f txid n).1.freePagesCount ≤ f.freePagesCount := by
  by_cases hn0 : n = 0
  · subst hn0
    have e : hashmapAllocate f txid 0 = (f, 0) := by simp [hashmapAllocate]
    rw [e]
    exact ⟨hc, le_refl _⟩
  · rcases alloc_spec h.cons txid hn0 hn with ⟨size, hsz, hle, hidx⟩ | ⟨e, -⟩
    · have hd : ∀ s n t m, mget f.forwardMap s = some n → mget f.forwardMap t = some m →
          s ≠ t → apart s n t m :=
        fun s n t m h1 h2 h3 => disjoint_mget h.cons.nd_f (spansDisjoint_of_minv h) h1 h2 h3
      have hsum := sumVals_allocIndex h.cons hd hsz (by omega) hle
      have hcnt := count_allocIndex f (s := (hashmapAllocate f txid n).2) hle
        (h.cons.lt_f _ _ hsz).2
      unfold CountConsistent at hc ⊢
      rw [hidx.2.2.2, hidx.1, hcnt]
      have e := ar_count_alloc hW (by rw [hc]; exact hsum)
      rw [e]
      exact ⟨rfl, by omega⟩
    · rw [e]
      exact ⟨hc, le_refl _⟩

/-- In the states of `ReachableSmall` the span index is well formed, the counter
is the sum of the span lengths, and it is below `2^63`. -/
theorem reachableSmall_inv {f : freelist} (hr : ReachableSmall f) :
    MInv f ∧ CountConsistent f ∧ f.freePagesCount < 9223372036854775808 := by
  induction hr with
  | init f L hs hW hlen hinit =>
    by_cases hne : L = []
    · subst hne
      have : f = freelist.fresh := by
        simp only [init, Option.some.injEq] at hinit
        exact hinit.symm
      rw [this]
      exact ⟨minv_fresh, rfl, by decide⟩
    · obtain ⟨h1, -, h3, h4⟩ :=
        init_minv hs (fun x hx => ⟨by have := (hW x hx).1; omega, (hW x hx).2⟩) hlen hne hinit
      refine ⟨h1, ?_, ?_⟩
      · unfold CountConsistent
        rw [h3, h4]
      · rw [h4]
        exact hlen
  | alloc f txid n _ hn ih =>
    obtain ⟨h1, h2, h3⟩ := ih
    have hc := alloc_count h1 h2 (by unfold W; omega) txid (n := n) (by unfold W; omega)
    exact ⟨alloc_minv h1 txid (by unfold W; omega), hc.1, by omega⟩
  | merge verify f f1 ids _ hnd hids hlen hm ih =>
    obtain ⟨h1, h2, h3⟩ := ih
    obtain ⟨l, hl, rfl⟩ := mergeSpans_some hm
    have hll : l.length = ids.length := hl.length_eq
    unfold CountConsistent at h2
    obtain ⟨m1, -, m3, m4⟩ := mergeAll_ok l h1 (hl.nodup_iff.2 hnd)
      (fun x hx => hids x (hl.mem_iff.1 hx))
      (by rw [← h2, hll]; unfold W; omega) (by unfold W; omega)
    have e : (f.freePagesCount + l.length) % W = f.freePagesCount + l.length :=
      Nat.mod_eq_of_lt (by rw [hll]; unfold W; omega)
    refine ⟨m1, ?_, ?_⟩
    · unfold CountConsistent
      rw [m3, m4, e, h2]
    · rw [m4, e, hll]
      exact hlen
  | reorder f g _ hre ih =>
    obtain ⟨h1, h2, h3⟩ := ih
    refine ⟨h1.invReorder hre, ?_, ?_⟩
    · unfold CountConsistent at h2 ⊢
      rw [sumVals_reorder h1.cons hre, ← hre.1.2.2.2.2, h2]
    · rw [← hre.1.2.2.2.2]
      exact h3

theorem length_idsWith_ilen (m : List (Nat × Nat)) (h : sumVals m < 9223372036854775808) :
    (idsWith ilen m).length = sumVals m := by
  induction m with
  | nil => rfl
  | cons e m ih =>
    have hs : sumVals (e :: m) = e.2 + sumVals m := by simp [sumVals]
    rw [hs] at h ⊢
    simp only [idsWith, List.length_append, length_fullIds]
    rw [ih (by omega), ilen_of_lt (by omega)]

/-- On a well-formed index whose counter is in sync and below `2^63`, the three
traversals return the same set of page ids, without repetition, and the counter is
the number of ids. -/
theorem triMap_of_inv {f : freelist} (h : MInv f) (hc : CountConsistent f)
    (hs : f.freePagesCount < 9223372036854775808) :
    TriMapConsistent f ∧
    ∃ a b c, idsFromFreemaps f = some a ∧ idsFromForwardMap f = some b ∧
      idsFromBackwardMap f = some c ∧
      setEq a b = true ∧ setEq a c = true ∧
      a.Nodup ∧ b.Nodup ∧ c.Nodup ∧
      (∀ x, x ∈ b ↔ x < W ∧ isFree f x) ∧
      a.length = f.freePagesCount ∧ b.length = f.freePagesCount ∧
      c.length = f.freePagesCount ∧
      hashmapFreeCountSlow f = (f.freePagesCount : Int) ∧
      ∀ verify, hashmapFreeCount verify f = some (f.freePagesCount : Int) := by
  have hd := spansDisjoint_of_minv h
  have na := nodup_idsBuckets h.cons hd
  have nb := nodup_idsFwd h.cons hd
  have nc := nodup_idsBack h.cons hd
  have hsum : sumVals f.forwardMap < 9223372036854775808 := by
    rw [← hc]; exact hs
  have hab : ∀ x, x ∈ idsBuckets f.freemaps ↔ x ∈ idsWith ilen f.forwardMap := by
    intro x; rw [mem_idsBuckets h.cons, mem_idsFwd h.cons]
  have hac : ∀ x, x ∈ idsBuckets f.freemaps ↔ x ∈ idsBack f.backwardMap := by
    intro x; rw [mem_idsBuckets h.cons, mem_idsBack h.cons]
  have lb : (idsWith ilen f.forwardMap).length = f.freePagesCount := by
    rw [length_idsWith_ilen _ hsum]; exact hc.symm
  have la : (idsBuckets f.freemaps).length = f.freePagesCount := by
    rw [((List.perm_ext_iff_of_nodup na nb).2 hab).length_eq, lb]
  have lc : (idsBack f.backwardMap).length = f.freePagesCount := by
    rw [← ((List.perm_ext_iff_of_nodup na nc).2 hac).length_eq, la]
  have hfree : ∀ x, x ∈ idsWith ilen f.forwardMap ↔ x < W ∧ isFree f x := by
    intro x
    rw [mem_idsFwd h.cons, isFree_iff h.cons.nd_f]
    constructor
    · rintro ⟨s, n, hsn, hx, hcv⟩
      rw [ilen_of_lt (by have := le_sumVals_of_mget hsn; omega)] at hcv
      exact ⟨hx, s, n, hsn, hcv⟩
    · rintro ⟨hx, s, n, hsn, hcv⟩
      refine ⟨s, n, hsn, hx, ?_⟩
      rw [ilen_of_lt (by have := le_sumVals_of_mget hsn; omega)]
      exact hcv
  have hslow : hashmapFreeCountSlow f = (f.freePagesCount : Int) := by
    rw [freeCountSlow_eq hsum, hc]
  refine ⟨⟨mapsConsistent_of_cons h.cons, hc⟩, idsBuckets f.freemaps,
    idsWith ilen f.forwardMap, idsBack f.backwardMap, ?_, ?_, ?_, setEq_of_mem hab,
    setEq_of_mem hac, na, nb, nc, hfree, la, lb, lc, hslow, ?_⟩
  · have := fmLoop_eq f.freemaps [] (by simpa using na)
    simpa [idsFromFreemaps] using this
  · have := fwdLoop_eq f.forwardMap [] (by simpa using nb)
    simpa [idsFromForwardMap] using this
  · have := bwdLoop_eq f.backwardMap [] (by simpa using nc)
    simpa [idsFromBackwardMap] using this
  · intro verify
    exact free_count_eq verify hc hs

/-- C2: tri-map consistency is an invariant of the reachable states.  In every
state reached from `init(L)`, for a strictly ascending list `L` of page ids `≥ 2`,
by calls of `hashmapAllocate` and of `hashmapMergeSpans` (each given duplicate-free
ids that are not free), the number of free pages staying in the range of a Go
`int`, the three maps agree, `idsFromFreemaps`, `idsFromForwardMap` and
`idsFromBackwardMap` return without panic the same set of page ids, which is the
set of free pages, each without repetition, `freePagesCount` is the number of ids
and equals `hashmapFreeCountSlow`, and the assertion of `hashmapFreeCount` holds. -/
theorem reachableSmall_triMap (f : freelist) (hr : ReachableSmall f) :
    TriMapConsistent f ∧
    ∃ a b c, idsFromFreemaps f = some a ∧ idsFromForwardMap f = some b ∧
      idsFromBackwardMap f = some c ∧
      setEq a b = true ∧ setEq a c = true ∧
      a.Nodup ∧ b.Nodup ∧ c.Nodup ∧
      (∀ x, x ∈ b ↔ x < W ∧ isFree f x) ∧
      a.length = f.freePagesCount ∧ b.length = f.freePagesCount ∧
      c.length = f.freePagesCount ∧
      hashmapFreeCountSlow f = (f.freePagesCount : Int) ∧
      ∀ verify, hashmapFreeCount verify f = some (f.freePagesCount : Int) :=
  triMap_of_inv (reachableSmall_inv hr).1 (reachableSmall_inv hr).2.1
    (reachableSmall_inv hr).2.2

theorem reachableSmall_triMap_witness :
    ReachableSmall (hashmapAllocate scenarioMerged 100 3).1 ∧
    TriMapConsistent (hashmapAllocate scenarioMerged 100 3).1 ∧
    ∃ a b c, idsFromFreemaps (hashmapAllocate scenarioMerged 100 3).1 = some a ∧
      idsFromForwardMap (hashmapAllocate scenarioMerged 100 3).1 = some b ∧
      idsFromBackwardMap (hashmapAllocate scenarioMerged 100 3).1 = some c ∧
      setEq a b = true ∧ setEq a c = true ∧
      a.Nodup ∧ b.Nodup ∧ c.Nodup ∧
      (∀ x, x ∈ b ↔ x < W ∧ isFree (hashmapAllocate scenarioMerged 100 3).1 x) ∧
      a.length = (hashmapAllocate scenarioMerged 100 3).1.freePagesCount ∧
      b.length = (hashmapAllocate scenarioMerged 100 3).1.freePagesCount ∧
      c.length = (hashmapAllocate scenarioMerged 100 3).1.freePagesCount ∧
      hashmapFreeCountSlow (hashmapAllocate scenarioMerged 100 3).1 =
        ((hashmapAllocate scenarioMerged 100 3).1.freePagesCount : Int) ∧
      ∀ verify, hashmapFreeCount verify (hashmapAllocate scenarioMerged 100 3).1 =
        some ((hashmapAllocate scenarioMerged 100 3).1.freePagesCount : Int) :=
  have hr : ReachableSmall (hashmapAllocate scenarioMerged 100 3).1 :=
    ReachableSmall.alloc scenarioMerged 100 3
      (ReachableSmall.merge true scenarioState scenarioMerged [21, 19]
        (ReachableSmall.init scenarioState scenarioIds (by decide) (by decide) (by decide)
          init_scenario)
        (by decide) (by decide) (by decide) (by decide))
      (by decide)
  ⟨hr, reachableSmall_triMap (hashmapAllocate scenarioMerged 100 3).1 hr⟩


/-! ## Unsorted input of `init` -/

theorem sliceIsSorted_tail (x : Nat) (l : List Nat) (h : sliceIsSorted (x :: l) = true) :
    sliceIsSorted l = true := by
  cases l with
  | nil => rfl
  | cons y t =>
    simp only [sliceIsSorted, Bool.and_eq_true] at h
    exact h.2

theorem sliceIsSorted_false (a b : Nat) (l2 : List Nat) (h : b < a) (l1 : List Nat) :
    sliceIsSorted (l1 ++ a :: b :: l2) = false := by
  induction l1 with
  | nil => simp [sliceIsSorted, h]
  | cons x l1 ih =>
    cases hs : sliceIsSorted (x :: l1 ++ a :: b :: l2)
    · rfl
    · have ht : sliceIsSorted (l1 ++ a :: b :: l2) = true := sliceIsSorted_tail x _ hs
      rw [ih] at ht
      exact absurd ht (by decide)

/-- The state-passing reading `initStop` agrees with `init`: a panic of the one is
the `none` of the other, and otherwise the final states are the same. -/
theorem init_eq_initStop (f : freelist) (pgids : List Nat) :
    init f pgids = if (initStop f pgids).2 then none else some (initStop f pgids).1 := by
  cases pgids with
  | nil => rfl
  | cons p0 rest =>
    unfold init initStop
    by_cases hs : sliceIsSorted (p0 :: rest) = true
    · simp only [hs, Bool.not_true, Bool.false_eq_true, if_false]
      by_cases hc : (initLoop (resetIndex f) p0 1 p0 rest).2.2 ≠ 0 ∧
          (initLoop (resetIndex f) p0 1 p0 rest).2.1 ≠ 0
      · simp only [if_pos hc, Bool.false_eq_true, if_false]
      · simp only [if_neg hc, Bool.false_eq_true, if_false]
    · have hs2 : sliceIsSorted (p0 :: rest) = false := by
        cases h : sliceIsSorted (p0 :: rest)
        · rfl
        · exact absurd h hs
      simp only [hs2, Bool.not_false, if_true]

/-- C11: on a list of page ids in which some element `b` is smaller than its
predecessor `a`, `init` stops by the panic "pgids not sorted", and in the state
at that panic `forwardMap`, `backwardMap` and `freemaps` are the ones from before
the call: no span has been added.  (The counter has already been reset to 0.) -/
theorem init_unsorted_panics (f : freelist) (L l1 l2 : List Nat) (a b : Nat)
    (hL : L = l1 ++ a :: b :: l2) (hba : b < a) :
    init f L = none ∧ (initStop f L).2 = true ∧
    (initStop f L).1.forwardMap = f.forwardMap ∧
    (initStop f L).1.backwardMap = f.backwardMap ∧
    (initStop f L).1.freemaps = f.freemaps ∧
    (initStop f L).1.freePagesCount = 0 ∧
    (∀ x, isFree (initStop f L).1 x ↔ isFree f x) := by
  have hs : sliceIsSorted L = false := by
    rw [hL]
    exact sliceIsSorted_false a b l2 hba l1
  have hstop : initStop f L = ({ f with freePagesCount := 0 }, true) := by
    cases L with
    | nil =>
      have := congrArg List.length hL
      simp at this
      omega
    | cons p0 rest =>
      unfold initStop
      simp only [hs, Bool.not_false, if_true]
  refine ⟨?_, ?_, ?_, ?_, ?_, ?_, ?_⟩
  · rw [init_eq_initStop, hstop]
    rfl
  all_goals rw [hstop]
  · intro x
    rfl

theorem init_unsorted_panics_witness :
    ([5, 6, 3, 9] = [5] ++ 6 :: 3 :: [9] ∧ 3 < 6) ∧
    init scenarioState [5, 6, 3, 9] = none ∧ (initStop scenarioState [5, 6, 3, 9]).2 = true ∧
    (initStop scenarioState [5, 6, 3, 9]).1.forwardMap = scenarioState.forwardMap ∧
    (initStop scenarioState [5, 6, 3, 9]).1.backwardMap = scenarioState.backwardMap ∧
    (initStop scenarioState [5, 6, 3, 9]).1.freemaps = scenarioState.freemaps ∧
    (initStop scenarioState [5, 6, 3, 9]).1.freePagesCount = 0 ∧
    (∀ x, isFree (initStop scenarioState [5, 6, 3, 9]).1 x ↔ isFree scenarioState x) :=
  ⟨by decide, init_unsorted_panics scenarioState [5, 6, 3, 9] [5] [9] 6 3 (by decide) (by decide)⟩


/-! ## The contracts of `addSpan` and `delSpan` -/

theorem mget_freemaps_delSpan (f : freelist) (s n n' : Nat) (h : n' ≠ n) :
    mget (delSpan f s n).freemaps n' = mget f.freemaps n' := by
  unfold delSpan
  simp only
  cases hb : mget f.freemaps n with
  | none => rfl
  | some bm =>
    by_cases he : sdel bm s = []
    · simp only [he, if_true, mget_mdel, if_neg h]
    · simp only [he, if_false, mget_mset, if_neg h]

theorem mget_freemaps_delSpan_self (f : freelist) (s n : Nat) :
    mget (delSpan f s n).freemaps n =
      match mget f.freemaps n with
      | none => none
      | some bm => if sdel bm s = [] then none else some (sdel bm s) := by
  unfold delSpan
  simp only
  cases hb : mget f.freemaps n with
  | none => simp only [hb]
  | some bm =>
    by_cases he : sdel bm s = []
    · simp only [he, if_true, mget_mdel]
    · simp only [he, if_false, mget_mset, if_true]

/-- After `delSpan(start, size)` the bucket `freemaps[size]` is absent exactly when
no start other than `start` was a member of it, in every state. -/
theorem bucket_removed_iff (f : freelist) (start size : Nat) :
    mget (delSpan f start size).freemaps size = none ↔
      ∀ t, inBucket f.freemaps size t → t = start := by
  rw [mget_freemaps_delSpan_self]
  cases hb : mget f.freemaps size with
  | none =>
    simp only
    constructor
    · intro _ t hin
      obtain ⟨bm2, hbm2, -⟩ := (inBucket_iff _ _ _).1 hin
      rw [hb] at hbm2
      cases hbm2
    · intro _
      trivial
  | some bm =>
    simp only
    constructor
    · intro h t hin
      obtain ⟨bm2, hbm2, ht2⟩ := (inBucket_iff _ _ _).1 hin
      rw [hb] at hbm2
      cases hbm2
      by_contra hne
      have hm : t ∈ sdel bm start := (mem_sdel bm start t).2 ⟨hne, ht2⟩
      by_cases he : sdel bm start = []
      · rw [he] at hm
        exact absurd hm (List.not_mem_nil t)
      · rw [if_neg he] at h
        exact absurd h (by simp)
    · intro h
      have he : sdel bm start = [] := by
        apply List.eq_nil_iff_forall_not_mem.2
        intro t ht2
        have := (mem_sdel bm start t).1 ht2
        exact this.1 (h t ((inBucket_iff _ _ _).2 ⟨bm, hb, this.2⟩))
      rw [if_pos he]

/-- C12, as stated, fails: `delSpan` tests nothing and always returns.  In the
scenario state `forwardMap[5] = 3`, yet `delSpan(5, 2)` returns a state in which
the span at 5 is gone from `forwardMap`, still present in `backwardMap` and
`freemaps`, and the counter is 2 lower; `forwardMap` has no entry for 6, yet
`delSpan(6, 1)` returns a state whose counter is 1 lower. -/
theorem delSpan_mismatch_counterexample :
    mget scenarioState.forwardMap 5 = some 3 ∧
    mget (delSpan scenarioState 5 2).forwardMap 5 = none ∧
    mget (delSpan scenarioState 5 2).backwardMap 7 = some 3 ∧
    inBucket (delSpan scenarioState 5 2).freemaps 3 5 ∧
    (delSpan scenarioState 5 2).freePagesCount = 6 ∧
    mget scenarioState.forwardMap 6 = none ∧
    (delSpan scenarioState 6 1).freePagesCount = 7 := by
  decide

/-- C12, amended: `delSpan(start, size)` performs no check of its arguments: for
every state and every `(start, size)`, whether or not `size` is `forwardMap[start]`,
it returns the state in which the key `start` is deleted from `forwardMap`, the
key `start + size - 1` from `backwardMap` and `start` from `freemaps[size]`; the
bucket `freemaps[size]` is removed when that leaves it without a member, and
otherwise it holds its other members; the counter is lowered by `size` modulo
`2^64`, and nothing else is changed. -/
theorem delSpan_unchecked (f : freelist) (start size : Nat) :
    (∀ k, mget (delSpan f start size).forwardMap k =
      if k = start then none else mget f.forwardMap k) ∧
    (∀ k, mget (delSpan f start size).backwardMap k =
      if k = endOf start size then none else mget f.backwardMap k) ∧
    (∀ n s, inBucket (delSpan f start size).freemaps n s ↔
      inBucket f.freemaps n s ∧ ¬ (n = size ∧ s = start)) ∧
    (∀ n, n ≠ size → mget (delSpan f start size).freemaps n = mget f.freemaps n) ∧
    (mget (delSpan f start size).freemaps size = none ↔
      ∀ t, inBucket f.freemaps size t → t = start) ∧
    (∀ bm, mget f.freemaps size = some bm → sdel bm start ≠ [] →
      mget (delSpan f start size).freemaps size = some (sdel bm start)) ∧
    (∀ bm, mget (delSpan f start size).freemaps size = some bm → bm ≠ []) ∧
    (delSpan f start size).freePagesCount = (f.freePagesCount + W - size % W) % W ∧
    (delSpan f start size).allocs = f.allocs ∧ (delSpan f start size).cache = f.cache := by
  refine ⟨?_, ?_, ?_, ?_, bucket_removed_iff f start size, ?_, ?_, rfl, rfl, rfl⟩
  · intro k
    rw [forwardMap_delSpan, mget_mdel]
  · intro k
    rw [backwardMap_delSpan, mget_mdel]
  · intro n s
    exact inBucket_delSpan f start size n s
  · intro n hn
    exact mget_freemaps_delSpan f start size n hn
  · intro bm hbm hne
    rw [mget_freemaps_delSpan_self]
    simp only [hbm, if_neg hne]
  · intro bm hbm
    rw [mget_freemaps_delSpan_self] at hbm
    cases hb : mget f.freemaps size with
    | none => simp [hb] at hbm
    | some bm0 =>
      simp only [hb] at hbm
      by_cases he : sdel bm0 start = []
      · simp [he] at hbm
      · rw [if_neg he] at hbm
        cases hbm
        exact he

/-- C16: on a well-typed, tri-map consistent state with `forwardMap[start] = size`,
after `delSpan(start, size)` the key `start` is absent from `forwardMap`, the key
`start + size - 1` is absent from `backwardMap`, `start` is absent from
`freemaps[size]`, the bucket `freemaps[size]` is removed exactly when `start` was
its only member, `freePagesCount` has decreased by `size`, every other entry of
the three maps is unchanged, and the state is again well typed and tri-map
consistent. -/
theorem delSpan_post (f : freelist) (start size : Nat) (ht : Typed f)
    (hc : TriMapConsistent f) (hs : mget f.forwardMap start = some size) :
    mget (delSpan f start size).forwardMap start = none ∧
    mget (delSpan f start size).backwardMap (endOf start size) = none ∧
    ¬ inBucket (delSpan f start size).freemaps size start ∧
    (mget (delSpan f start size).freemaps size = none ↔
      ∀ t, inBucket f.freemaps size t → t = start) ∧
    (delSpan f start size).freePagesCount + size = f.freePagesCount ∧
    (∀ k, k ≠ start → mget (delSpan f start size).forwardMap k = mget f.forwardMap k) ∧
    (∀ k, k ≠ endOf start size →
      mget (delSpan f start size).backwardMap k = mget f.backwardMap k) ∧
    (∀ n, n ≠ size → mget (delSpan f start size).freemaps n = mget f.freemaps n) ∧
    (∀ t, t ≠ start →
      (inBucket (delSpan f start size).freemaps size t ↔ inBucket f.freemaps size t)) ∧
    Typed (delSpan f start size) ∧ TriMapConsistent (delSpan f start size) := by
  have hcons := cons_of_typed ht hc.1
  have hcons1 := hcons.consDel hs
  have hle := le_sumVals_of_mget hs
  have hcW : f.freePagesCount < W := ht.2.2.2.2.2.2
  have hcc : f.freePagesCount = sumVals f.forwardMap := hc.2
  have hcnt : (delSpan f start size).freePagesCount + size = f.freePagesCount := by
    rw [count_delSpan]
    exact ar_count_sub hcW (by omega)
  have hsum := sumVals_delSpan hcons hs
  refine ⟨?_, ?_, ?_, ?_, hcnt, ?_, ?_, ?_, ?_, ?_, ?_⟩
  · rw [forwardMap_delSpan, mget_mdel, if_pos rfl]
  · rw [backwardMap_delSpan, mget_mdel, if_pos rfl]
  · rw [inBucket_delSpan]
    exact fun h => h.2 ⟨rfl, rfl⟩
  · rw [mget_freemaps_delSpan_self]
    obtain ⟨bm, hbm, hmem⟩ := (inBucket_iff _ _ _).1 ((hcons.fm start size).1 hs)
    simp only [hbm]
    constructor
    · intro h t hin
      obtain ⟨bm2, hbm2, ht2⟩ := (inBucket_iff _ _ _).1 hin
      rw [hbm] at hbm2
      cases hbm2
      by_contra hne
      have hm : t ∈ sdel bm start := (mem_sdel bm start t).2 ⟨hne, ht2⟩
      by_cases he : sdel bm start = []
      · rw [he] at hm
        exact absurd hm (List.not_mem_nil t)
      · rw [if_neg he] at h
        exact absurd h (by simp)
    · intro h
      have he : sdel bm start = [] := by
        apply List.eq_nil_iff_forall_not_mem.2
        intro t ht2
        have := (mem_sdel bm start t).1 ht2
        exact this.1 (h t ((inBucket_iff _ _ _).2 ⟨bm, hbm, this.2⟩))
      rw [if_pos he]
  · intro k hk
    rw [forwardMap_delSpan, mget_mdel, if_neg hk]
  · intro k hk
    rw [backwardMap_delSpan, mget_mdel, if_neg hk]
  · intro n hn
    exact mget_freemaps_delSpan f start size n hn
  · intro t hne
    rw [inBucket_delSpan]
    constructor
    · exact fun h => h.1
    · exact fun h => ⟨h, fun h2 => hne h2.2⟩
  · exact typed_of_cons hcons1 (by omega)
  · refine ⟨mapsConsistent_of_cons hcons1, ?_⟩
    unfold CountConsistent
    omega

theorem delSpan_post_witness :
    (Typed scenarioState ∧ TriMapConsistent scenarioState ∧
      mget scenarioState.forwardMap 10 = some 4) ∧
    mget (delSpan scenarioState 10 4).forwardMap 10 = none ∧
    mget (delSpan scenarioState 10 4).backwardMap (endOf 10 4) = none ∧
    ¬ inBucket (delSpan scenarioState 10 4).freemaps 4 10 ∧
    (mget (delSpan scenarioState 10 4).freemaps 4 = none ↔
      ∀ t, inBucket scenarioState.freemaps 4 t → t = 10) ∧
    (delSpan scenarioState 10 4).freePagesCount + 4 = scenarioState.freePagesCount ∧
    (∀ k, k ≠ 10 →
      mget (delSpan scenarioState 10 4).forwardMap k = mget scenarioState.forwardMap k) ∧
    (∀ k, k ≠ endOf 10 4 →
      mget (delSpan scenarioState 10 4).backwardMap k = mget scenarioState.backwardMap k) ∧
    (∀ n, n ≠ 4 →
      mget (delSpan scenarioState 10 4).freemaps n = mget scenarioState.freemaps n) ∧
    (∀ t, t ≠ 10 →
      (inBucket (delSpan scenarioState 10 4).freemaps 4 t ↔
        inBucket scenarioState.freemaps 4 t)) ∧
    Typed (delSpan scenarioState 10 4) ∧ TriMapConsistent (delSpan scenarioState 10 4) :=
  ⟨by decide, delSpan_post scenarioState 10 4 (by decide) (by decide) (by decide)⟩


theorem mget_freemaps_addSpan (f : freelist) (s n n' : Nat) (h : n' ≠ n) :
    mget (addSpan f s n).freemaps n' = mget f.freemaps n' := by
  unfold addSpan
  simp only
  cases hb : mget f.freemaps n with
  | none => simp only [mget_mset, if_neg h]
  | some bm => simp only [mget_mset, if_neg h]

/-- C15, as stated, fails: `nearFullState` is well typed and tri-map consistent,
its single span `(1, 2^64 - 1)` leaves page 0 out, `forwardMap` has no entry for 0
and `backwardMap` none for `0 + 1 - 1`; after `addSpan(0, 1)` the counter, a
`uint64`, is 0: it has not increased by 1. -/
theorem addSpan_counterexample :
    Typed nearFullState ∧ TriMapConsistent nearFullState ∧ SpansDisjoint nearFullState ∧
    mget nearFullState.forwardMap 0 = none ∧
    mget nearFullState.backwardMap (endOf 0 1) = none ∧
    nearFullState.freePagesCount = 18446744073709551615 ∧
    (addSpan nearFullState 0 1).freePagesCount = 0 := by
  decide

/-- C15, amended: for every state and every `(start, size)` with `size ≥ 1`, `start`
absent from `forwardMap`, `start + size - 1` absent from `backwardMap`, and
`freePagesCount + size` at most `2^64 - 1`, after `addSpan(start, size)` we have
`forwardMap[start] = size`, `backwardMap[start + size - 1] = size`, `start` in
`freemaps[size]`, `freePagesCount` increased by `size`, and every other entry of
the three maps unchanged. -/
theorem addSpan_post (f : freelist) (start size : Nat) (h1 : 1 ≤ size)
    (hf : mget f.forwardMap start = none) (hb : mget f.backwardMap (endOf start size) = none)
    (hc : f.freePagesCount + size < W) :
    mget (addSpan f start size).forwardMap start = some size ∧
    mget (addSpan f start size).backwardMap (endOf start size) = some size ∧
    (start + size ≤ W → endOf start size = start + size - 1) ∧
    inBucket (addSpan f start size).freemaps size start ∧
    (addSpan f start size).freePagesCount = f.freePagesCount + size ∧
    (∀ k, k ≠ start → mget (addSpan f start size).forwardMap k = mget f.forwardMap k) ∧
    (∀ k, k ≠ endOf start size →
      mget (addSpan f start size).backwardMap k = mget f.backwardMap k) ∧
    (∀ n, n ≠ size → mget (addSpan f start size).freemaps n = mget f.freemaps n) ∧
    (∀ t, t ≠ start →
      (inBucket (addSpan f start size).freemaps size t ↔ inBucket f.freemaps size t)) ∧
    sumVals (addSpan f start size).forwardMap = sumVals f.forwardMap + size ∧
    sumVals (addSpan f start size).backwardMap = sumVals f.backwardMap + size ∧
    (addSpan f start size).allocs = f.allocs ∧ (addSpan f start size).cache = f.cache := by
  refine ⟨?_, ?_, fun h => ar_end_nowrap h1 h, ?_, ?_, ?_, ?_, ?_, ?_, sumVals_addSpan size hf,
    ?_, rfl, rfl⟩
  · rw [forwardMap_addSpan, mget_mset, if_pos rfl]
  · rw [backwardMap_addSpan, mget_mset, if_pos rfl]
  · rw [inBucket_addSpan]
    exact Or.inl ⟨rfl, rfl⟩
  · rw [count_addSpan]
    exact Nat.mod_eq_of_lt hc
  · intro k hk
    rw [forwardMap_addSpan, mget_mset, if_neg hk]
  · intro k hk
    rw [backwardMap_addSpan, mget_mset, if_neg hk]
  · intro n hn
    exact mget_freemaps_addSpan f start size n hn
  · intro t hne
    rw [inBucket_addSpan]
    constructor
    · rintro (h | h)
      · exact absurd h.2 hne
      · exact h
    · exact fun h => Or.inr h
  · rw [backwardMap_addSpan]
    exact sumVals_mset size hb

theorem addSpan_post_witness :
    (1 ≤ 2 ∧ mget scenarioState.forwardMap 30 = none ∧
      mget scenarioState.backwardMap (endOf 30 2) = none ∧
      scenarioState.freePagesCount + 2 < W) ∧
    mget (addSpan scenarioState 30 2).forwardMap 30 = some 2 ∧
    mget (addSpan scenarioState 30 2).backwardMap (endOf 30 2) = some 2 ∧
    (30 + 2 ≤ W → endOf 30 2 = 30 + 2 - 1) ∧
    inBucket (addSpan scenarioState 30 2).freemaps 2 30 ∧
    (addSpan scenarioState 30 2).freePagesCount = scenarioState.freePagesCount + 2 ∧
    (∀ k, k ≠ 30 →
      mget (addSpan scenarioState 30 2).forwardMap k = mget scenarioState.forwardMap k) ∧
    (∀ k, k ≠ endOf 30 2 →
      mget (addSpan scenarioState 30 2).backwardMap k = mget scenarioState.backwardMap k) ∧
    (∀ n, n ≠ 2 →
      mget (addSpan scenarioState 30 2).freemaps n = mget scenarioState.freemaps n) ∧
    (∀ t, t ≠ 30 →
      (inBucket (addSpan scenarioState 30 2).freemaps 2 t ↔
        inBucket scenarioState.freemaps 2 t)) ∧
    sumVals (addSpan scenarioState 30 2).forwardMap = sumVals scenarioState.forwardMap + 2 ∧
    sumVals (addSpan scenarioState 30 2).backwardMap = sumVals scenarioState.backwardMap + 2 ∧
    (addSpan scenarioState 30 2).allocs = scenarioState.allocs ∧
    (addSpan scenarioState 30 2).cache = scenarioState.cache :=
  ⟨by decide, addSpan_post scenarioState 30 2 (by decide) (by decide) (by decide) (by decide)⟩


/-! ## The verification block of `hashmapMergeSpans` -/

theorem evict_eq_filter (c : List Nat) (pid : Nat) : ∀ k : Nat,
    (List.range k).foldl (fun c i => sdel c ((pid + i) % W)) c =
      c.filter (fun x => decide (x ∉ fullIds pid k)) := by
  intro k
  induction k with
  | zero => simp [fullIds]
  | succ k ih =>
    rw [List.range_succ, List.foldl_append, ih]
    simp only [List.foldl_cons, List.foldl_nil, sdel_eq_filter, List.filter_filter]
    apply List.filter_congr
    intro x _
    simp only [fullIds, List.range_succ, List.map_append, List.map_cons, List.map_nil,
      List.mem_append, List.mem_singleton, not_or]
    by_cases h1 : x = (pid + k) % W <;> by_cases h2 : x ∈ List.map (fun i => (pid + i) % W) (List.range k) <;>
      simp [h1, h2]

theorem evict_eq {n : Nat} (hn : n < W) (c : List Nat) (pid : Nat) :
    evict c pid n = c.filter (fun x => decide (x ∉ fullIds pid n)) := by
  unfold evict
  rw [Nat.mod_eq_of_lt hn]
  exact evict_eq_filter c pid n

/-- C14: exact fit takes priority.  On a well-typed, tri-map consistent state in
which the bucket `freemaps[n]` has a member, for `n ≥ 1`, whatever the order in
which the maps are visited and whatever larger spans are present, the result `s`
of `hashmapAllocate(txid, n)` is a member of `freemaps[n]`, the start of a span of
exactly `n` pages; that span is removed whole from the three maps, no span is
inserted, every other span is unchanged, and the counter decreases by `n`. -/
theorem hashmapAllocate_exact_fit (f : freelist) (txid n : Nat) (bm : List Nat)
    (f1 : freelist) (s : Nat)
    (ht : Typed f) (hc : TriMapConsistent f)
    (hn1 : 1 ≤ n) (hn : n < 9223372036854775808)
    (hb : mget f.freemaps n = some bm) (hne : bm ≠ [])
    (hr : hashmapAllocate f txid n = (f1, s)) :
    s ∈ bm ∧ mget f.forwardMap s = some n ∧
    (∀ k, mget f1.forwardMap k = if k = s then none else mget f.forwardMap k) ∧
    (∀ k, mget f1.backwardMap k = if k = endOf s n then none else mget f.backwardMap k) ∧
    (∀ m t, inBucket f1.freemaps m t ↔ inBucket f.freemaps m t ∧ ¬ (m = n ∧ t = s)) ∧
    f1.freePagesCount + n = f.freePagesCount ∧
    sumVals f1.forwardMap + n = sumVals f.forwardMap := by
  have hnW : n < W := by unfold W; omega
  have hmod : n % W = n := Nat.mod_eq_of_lt hnW
  have hcons := cons_of_typed ht hc.1
  have key : ∃ bm2, bm = s :: bm2 ∧ IndexEq f1 (delSpan f s n) := by
    rcases alloc_cases f txid (by omega : n ≠ 0) with ⟨pid, bm2, h1, h2⟩ | ⟨h1, -⟩ | ⟨h1, -⟩
    · rw [hmod, hb] at h1
      rw [hr, hmod] at h2
      simp only [Prod.mk.injEq] at h2
      obtain ⟨e1, e2⟩ := h2
      subst e2
      subst e1
      exact ⟨bm2, Option.some.inj h1, rfl, rfl, rfl, rfl⟩
    · rw [hmod, hb] at h1
      cases bm with
      | nil => exact absurd rfl hne
      | cons p t => exact absurd rfl (h1 p t)
    · rw [hmod, hb] at h1
      cases bm with
      | nil => exact absurd rfl hne
      | cons p t => exact absurd rfl (h1 p t)
  obtain ⟨bm2, hbm, e1, e2, e3, e4⟩ := key
  have hmem : s ∈ bm := by rw [hbm]; exact List.mem_cons_self _ _
  have hfwd : mget f.forwardMap s = some n :=
    (hcons.fm s n).2 ((inBucket_iff _ _ _).2 ⟨bm, hb, hmem⟩)
  have hle := le_sumVals_of_mget hfwd
  have hcW : f.freePagesCount < W := ht.2.2.2.2.2.2
  have hcc : f.freePagesCount = sumVals f.forwardMap := hc.2
  refine ⟨hmem, hfwd, ?_, ?_, ?_, ?_, ?_⟩
  · intro k
    rw [e1, forwardMap_delSpan, mget_mdel]
  · intro k
    rw [e2, backwardMap_delSpan, mget_mdel]
  · intro m t
    rw [e3]
    exact inBucket_delSpan f s n m t
  · rw [e4, count_delSpan]
    exact ar_count_sub hcW (by omega)
  · rw [e1]
    exact sumVals_delSpan hcons hfwd

theorem hashmapAllocate_exact_fit_witness :
    (Typed scenarioState ∧ TriMapConsistent scenarioState ∧ 1 ≤ 3 ∧
      3 < 9223372036854775808 ∧ mget scenarioState.freemaps 3 = some [5] ∧ [5] ≠ [] ∧
      hashmapAllocate scenarioState 100 3 = ((hashmapAllocate scenarioState 100 3).1, 5)) ∧
    5 ∈ [5] ∧ mget scenarioState.forwardMap 5 = some 3 ∧
    (∀ k, mget (hashmapAllocate scenarioState 100 3).1.forwardMap k =
      if k = 5 then none else mget scenarioState.forwardMap k) ∧
    (∀ k, mget (hashmapAllocate scenarioState 100 3).1.backwardMap k =
      if k = endOf 5 3 then none else mget scenarioState.backwardMap k) ∧
    (∀ m t, inBucket (hashmapAllocate scenarioState 100 3).1.freemaps m t ↔
      inBucket scenarioState.freemaps m t ∧ ¬ (m = 3 ∧ t = 5)) ∧
    (hashmapAllocate scenarioState 100 3).1.freePagesCount + 3 =
      scenarioState.freePagesCount ∧
    sumVals (hashmapAllocate scenarioState 100 3).1.forwardMap + 3 =
      sumVals scenarioState.forwardMap :=
  ⟨by decide,
    hashmapAllocate_exact_fit scenarioState 100 3 [5] (hashmapAllocate scenarioState 100 3).1 5
      (by decide) (by decide) (by decide) (by decide) (by decide) (by decide) (by decide)⟩

/-- C17: the bookkeeping of a successful allocation.  For every state and `n ≥ 1`,
if `hashmapAllocate(txid, n)` returns `s ≠ 0`, then `allocs` is the old `allocs`
with `s` mapped to `txid` and no other key changed, and `cache` is the old `cache`
without the ids `s, s+1, …, s+n-1` (page ids, so taken modulo `2^64`) and with
every other member kept. -/
theorem hashmapAllocate_bookkeeping (f : freelist) (txid n : Nat) (f1 : freelist) (s : Nat)
    (hn1 : 1 ≤ n) (hn : n < 9223372036854775808)
    (hr : hashmapAllocate f txid n = (f1, s)) (hs : s ≠ 0) :
    (∀ k, mget f1.allocs k = if k = s then some txid else mget f.allocs k) ∧
    f1.cache = f.cache.filter (fun x => decide (x ∉ fullIds s n)) ∧
    (∀ x, x ∈ f1.cache ↔ x ∈ f.cache ∧ x ∉ fullIds s n) ∧
    (s + n ≤ W → ∀ x, x ∈ f1.cache ↔ x ∈ f.cache ∧ ¬ (s ≤ x ∧ x < s + n)) := by
  have hnW : n < W := by unfold W; omega
  have key : f1.allocs = mset f.allocs s txid ∧ f1.cache = evict f.cache s n := by
    rcases alloc_cases f txid (by omega : n ≠ 0) with
      ⟨pid, bm2, -, h2⟩ | ⟨-, size, pid, -, h2⟩ | ⟨-, -, h2⟩
    · rw [hr] at h2
      simp only [Prod.mk.injEq] at h2
      obtain ⟨e1, e2⟩ := h2
      subst e2
      subst e1
      exact ⟨rfl, rfl⟩
    · rw [hr] at h2
      simp only [Prod.mk.injEq] at h2
      obtain ⟨e1, e2⟩ := h2
      subst e2
      subst e1
      exact ⟨rfl, rfl⟩
    · rw [hr] at h2
      simp only [Prod.mk.injEq] at h2
      exact absurd h2.2 hs
  obtain ⟨ea, ec⟩ := key
  have hcache : f1.cache = f.cache.filter (fun x => decide (x ∉ fullIds s n)) := by
    rw [ec, evict_eq hnW]
  have hmem : ∀ x, x ∈ f1.cache ↔ x ∈ f.cache ∧ x ∉ fullIds s n := by
    intro x
    rw [hcache, List.mem_filter, decide_eq_true_iff]
  refine ⟨?_, hcache, hmem, ?_⟩
  · intro k
    rw [ea, mget_mset]
  · intro hw x
    rw [hmem x, mem_fullIds_nowrap hw]

theorem hashmapAllocate_bookkeeping_witness :
    (1 ≤ 2 ∧ 2 < 9223372036854775808 ∧
      hashmapAllocate scenarioBooked 100 2 = ((hashmapAllocate scenarioBooked 100 2).1, 5) ∧
      5 ≠ 0) ∧
    (∀ k, mget (hashmapAllocate scenarioBooked 100 2).1.allocs k =
      if k = 5 then some 100 else mget scenarioBooked.allocs k) ∧
    (hashmapAllocate scenarioBooked 100 2).1.cache =
      scenarioBooked.cache.filter (fun x => decide (x ∉ fullIds 5 2)) ∧
    (∀ x, x ∈ (hashmapAllocate scenarioBooked 100 2).1.cache ↔
      x ∈ scenarioBooked.cache ∧ x ∉ fullIds 5 2) ∧
    (5 + 2 ≤ W → ∀ x, x ∈ (hashmapAllocate scenarioBooked 100 2).1.cache ↔
      x ∈ scenarioBooked.cache ∧ ¬ (5 ≤ x ∧ x < 5 + 2)) :=
  ⟨by decide,
    hashmapAllocate_bookkeeping scenarioBooked 100 2 (hashmapAllocate scenarioBooked 100 2).1 5
      (by decide) (by decide) (by decide) (by decide)⟩


/-! ## The order of the merges -/

/-- The state after the merge loop over any arrangement of the ids. -/
theorem mergeAll_facts {f : freelist} (h : MInv f) (hz : ¬ isFree f 0)
    (hcW : f.freePagesCount < W) (he : NoEmptyBucket f)
    {ids : List Nat} (hnd : ids.Nodup) (hids : ∀ x ∈ ids, x ≠ 0 ∧ x < W ∧ ¬ isFree f x)
    {l : List Nat} (hl : l.Perm ids) :
    MInv (mergeAll f l) ∧ NoEmptyBucket (mergeAll f l) ∧
    (∀ x, x < W → (isFree (mergeAll f l) x ↔ isFree f x ∨ x ∈ ids)) ∧
    (mergeAll f l).freePagesCount = (f.freePagesCount + ids.length) % W := by
  obtain ⟨f1, h1, -, h3, h4, -, -, h7⟩ := mergeSpans_ok false h hz hcW (hl.nodup_iff.2 hnd)
    (fun x hx => hids x (hl.mem_iff.1 hx))
  have e : f1 = mergeAll f l := by
    have : hashmapMergeSpans false f l = some (mergeAll f l) := rfl
    rw [this] at h1
    exact (Option.some.inj h1).symm
  subst e
  refine ⟨h3, neb_to h3.cons.nd_m (neb_mergeAll l (neb_of he)), ?_, ?_⟩
  · intro x hx
    rw [h4 x hx, hl.mem_iff]
  · rw [h7, hl.length_eq]

/-- C18, as stated, fails: `ringState` is well typed and tri-map consistent, its
single span `(0, 2^64 - 2)` is disjoint from and adjacent to no other, the ids
`2^64 - 2` and `2^64 - 1` are distinct, not zero and not free; merged in this
order they leave the span `(0, 2^64 - 1)`, merged in the other order the span
`(2^64 - 1, 2^64 - 1)`, and `hashmapMergeSpans` leaves the one with verification
on and the other with verification off. -/
theorem merge_order_counterexample :
    Typed ringState ∧ TriMapConsistent ringState ∧ SpansDisjoint ringState ∧
    NonAdjacent ringState ∧ PosLen ringState ∧ NoEmptyBucket ringState ∧
    [18446744073709551614, 18446744073709551615].Nodup ∧
    (∀ x ∈ [18446744073709551614, 18446744073709551615],
      x ≠ 0 ∧ x < W ∧ ¬ isFree ringState x) ∧
    (mergeAll ringState [18446744073709551614, 18446744073709551615]).forwardMap =
      [(0, 18446744073709551615)] ∧
    (mergeAll ringState [18446744073709551615, 18446744073709551614]).forwardMap =
      [(18446744073709551615, 18446744073709551615)] ∧
    (∃ f1 f2, hashmapMergeSpans true ringState [18446744073709551615, 18446744073709551614] =
        some f1 ∧
      hashmapMergeSpans false ringState [18446744073709551615, 18446744073709551614] =
        some f2 ∧
      f1.forwardMap = [(0, 18446744073709551615)] ∧
      f2.forwardMap = [(18446744073709551615, 18446744073709551615)]) :=
  ⟨by decide, by decide, by decide, by decide, by decide, by decide, by decide, by decide,
    by decide, by decide,
    mergeAll ringState [18446744073709551614, 18446744073709551615],
    mergeAll ringState [18446744073709551615, 18446744073709551614],
    by decide, by decide, by decide, by decide⟩

/-- C18, amended: on a well-formed state (well typed, tri-map consistent with no
empty bucket, spans disjoint and non-adjacent, lengths `≥ 1`) in which no span
contains page 0, for a duplicate-free list `ids` of non-zero page ids none of
which is free, the loop of `mergeWithExistingSpan` over any permutation `l` of
`ids` leaves the same `forwardMap`, `backwardMap`, `freemaps` (as maps and sets)
and the same `freePagesCount` as the loop over `ids`; hence `hashmapMergeSpans`
returns the same index with verification on, where it sorts `ids` first, and with
verification off. -/
theorem mergeAll_order (f : freelist) (ids l : List Nat)
    (ht : Typed f) (hc : TriMapConsistent f) (hd : SpansDisjoint f) (ha : NonAdjacent f)
    (hp : PosLen f) (hz : NoZero f) (he : NoEmptyBucket f) (hnd : ids.Nodup)
    (hids : ∀ x ∈ ids, x ≠ 0 ∧ x < W ∧ ¬ isFree f x) (hl : l.Perm ids) :
    SameIndex (mergeAll f l) (mergeAll f ids) ∧
    ∃ f1 f2, hashmapMergeSpans true f ids = some f1 ∧
      hashmapMergeSpans false f ids = some f2 ∧ SameIndex f1 f2 := by
  have h := minv_of ht hc.1 hd ha hp hz
  have hcW : f.freePagesCount < W := ht.2.2.2.2.2.2
  have same : ∀ l1 l2 : List Nat, l1.Perm ids → l2.Perm ids →
      SameIndex (mergeAll f l1) (mergeAll f l2) := by
    intro l1 l2 h1 h2
    obtain ⟨a1, a2, a3, a4⟩ := mergeAll_facts h hz hcW he hnd hids h1
    obtain ⟨b1, b2, b3, b4⟩ := mergeAll_facts h hz hcW he hnd hids h2
    refine sameIndex_of_free a1 b1 a2 b2 ?_ ?_
    · intro x hx
      rw [a3 x hx, b3 x hx]
    · rw [a4, b4]
  refine ⟨same l ids hl (List.Perm.refl _), mergeAll f (sortPgids ids), mergeAll f ids, ?_, rfl,
    same _ _ (sortPgids_perm ids) (List.Perm.refl _)⟩
  exact mergeSpans_verify_ok h.cons hd hnd (fun x hx => ⟨(hids x hx).1, (hids x hx).2.2⟩)

theorem mergeAll_order_witness :
    (Typed scenarioState ∧ TriMapConsistent scenarioState ∧ SpansDisjoint scenarioState ∧
      NonAdjacent scenarioState ∧ PosLen scenarioState ∧ NoZero scenarioState ∧
      NoEmptyBucket scenarioState ∧ [9, 21, 8].Nodup ∧
      (∀ x ∈ [9, 21, 8], x ≠ 0 ∧ x < W ∧ ¬ isFree scenarioState x) ∧
      [8, 9, 21].Perm [9, 21, 8]) ∧
    SameIndex (mergeAll scenarioState [8, 9, 21]) (mergeAll scenarioState [9, 21, 8]) ∧
    ∃ f1 f2, hashmapMergeSpans true scenarioState [9, 21, 8] = some f1 ∧
      hashmapMergeSpans false scenarioState [9, 21, 8] = some f2 ∧ SameIndex f1 f2 :=
  ⟨by decide,
    mergeAll_order scenarioState [9, 21, 8] [8, 9, 21] (by decide) (by decide) (by decide)
      (by decide) (by decide) (by decide) (by decide) (by decide) (by decide) (by decide)⟩


/-! ## `init` on an empty list and on a list with repeated ids -/

/-- C19: `init` on an empty list is a no-op, not a reset: for every state,
`init([])` returns the state it was given, so `forwardMap`, `backwardMap`,
`freemaps` and `freePagesCount` are unchanged and the pages free before the call
are free after it. -/
theorem init_nil_noop (f : freelist) :
    ∃ g, init f [] = some g ∧ initStop f [] = (g, false) ∧
      g.forwardMap = f.forwardMap ∧ g.backwardMap = f.backwardMap ∧
      g.freemaps = f.freemaps ∧ g.freePagesCount = f.freePagesCount ∧
      (∀ x, isFree g x ↔ isFree f x) :=
  ⟨f, rfl, rfl, rfl, rfl, rfl, rfl, fun _ => Iff.rfl⟩

theorem sliceIsSorted_of_le : ∀ (l : List Nat), l.Sorted (fun a b => a ≤ b) →
    sliceIsSorted l = true
  | [], _ => rfl
  | [_], _ => rfl
  | a :: b :: rest, h => by
    have h1 := List.sorted_cons.1 h
    have hab : a ≤ b := h1.1 b (List.mem_cons_self _ _)
    have := sliceIsSorted_of_le (b :: rest) h1.2
    simp only [sliceIsSorted, this, Bool.and_true, Bool.not_eq_true', decide_eq_false_iff_not]
    omega

/-- The loop of `init` counts every id once, whatever the ids are: the counter
plus the size of the run under construction grows by the number of ids read. -/
theorem initLoop_count : ∀ (rest : List Nat) (f : freelist) (start size prev : Nat),
    1 ≤ size → f.freePagesCount + size + rest.length < W →
    1 ≤ (initLoop f start size prev rest).2.2 ∧
    (initLoop f start size prev rest).1.freePagesCount + (initLoop f start size prev rest).2.2 =
      f.freePagesCount + size + rest.length ∧
    ((initLoop f start size prev rest).2.1 = start ∨
      (initLoop f start size prev rest).2.1 ∈ rest) := by
  intro rest
  induction rest with
  | nil =>
    intro f start size prev h1 _
    exact ⟨h1, rfl, Or.inl rfl⟩
  | cons p rest ih =>
    intro f start size prev h1 hlt
    simp only [List.length_cons] at hlt
    by_cases hp : p = (prev + 1) % W
    · have e : (size + 1) % W = size + 1 := Nat.mod_eq_of_lt (by omega)
      simp only [initLoop, if_pos hp, e]
      obtain ⟨r1, r2, r3⟩ := ih f start (size + 1) p (by omega) (by omega)
      refine ⟨r1, ?_, ?_⟩
      · rw [r2, List.length_cons]
        omega
      · rcases r3 with r3 | r3
        · exact Or.inl r3
        · exact Or.inr (List.mem_cons_of_mem _ r3)
    · simp only [initLoop, if_neg hp]
      have ec : (addSpan f start size).freePagesCount = f.freePagesCount + size := by
        rw [count_addSpan]
        exact Nat.mod_eq_of_lt (by omega)
      obtain ⟨r1, r2, r3⟩ := ih (addSpan f start size) p 1 p (le_refl 1) (by rw [ec]; omega)
      refine ⟨r1, ?_, ?_⟩
      · rw [r2, ec, List.length_cons]
        omega
      · rcases r3 with r3 | r3
        · exact Or.inr (by rw [r3]; exact List.mem_cons_self _ _)
        · exact Or.inr (List.mem_cons_of_mem _ r3)

/-- On a non-decreasing list of non-zero page ids, `init` returns and the counter
is the length of the list. -/
theorem init_count (f : freelist) (L : List Nat) (hs : L.Sorted (fun a b => a ≤ b))
    (h0 : ∀ x ∈ L, x ≠ 0) (hlen : L.length < 9223372036854775808) (hne : L ≠ []) :
    ∃ g, init f L = some g ∧ g.freePagesCount = L.length := by
  cases L with
  | nil => exact absurd rfl hne
  | cons p0 rest =>
    simp only [List.length_cons] at hlen
    have hsorted := sliceIsSorted_of_le _ hs
    obtain ⟨r1, r2, r3⟩ := initLoop_count rest (resetIndex f) p0 1 p0 (le_refl 1)
      (by
        have : (resetIndex f).freePagesCount = 0 := rfl
        rw [this]
        unfold W
        omega)
    have hstart : (initLoop (resetIndex f) p0 1 p0 rest).2.1 ≠ 0 := by
      rcases r3 with r3 | r3
      · rw [r3]
        exact h0 p0 (List.mem_cons_self _ _)
      · exact h0 _ (List.mem_cons_of_mem _ r3)
    have hc : (initLoop (resetIndex f) p0 1 p0 rest).2.2 ≠ 0 ∧
        (initLoop (resetIndex f) p0 1 p0 rest).2.1 ≠ 0 := ⟨by omega, hstart⟩
    refine ⟨addSpan (initLoop (resetIndex f) p0 1 p0 rest).1
      (initLoop (resetIndex f) p0 1 p0 rest).2.1 (initLoop (resetIndex f) p0 1 p0 rest).2.2,
      ?_, ?_⟩
    · simp only [init, hsorted, Bool.not_true, Bool.false_eq_true, if_false]
      rw [if_pos hc]
    · have e0 : (resetIndex f).freePagesCount = 0 := rfl
      rw [count_addSpan, r2, e0, List.length_cons]
      have e1 : 0 + 1 + rest.length = rest.length + 1 := by omega
      rw [e1]
      apply Nat.mod_eq_of_lt
      unfold W
      omega

/-- C20: `init` does not reject repeated ids.  For every non-decreasing list `L`
of page ids `≥ 2` in which some id is repeated, `init(L)` returns and
`freePagesCount` is `len(L)`, which is more than the number of distinct ids
of `L`. -/
theorem init_repeated (f : freelist) (L : List Nat) (hs : L.Sorted (fun a b => a ≤ b))
    (hW : ∀ x ∈ L, 2 ≤ x ∧ x < W) (hlen : L.length < 9223372036854775808)
    (hrep : ¬ L.Nodup) :
    ∃ g, init f L = some g ∧ initStop f L = (g, false) ∧ g.freePagesCount = L.length ∧
      L.dedup.length < L.length ∧ L.toFinset.card < g.freePagesCount := by
  have hne : L ≠ [] := by
    intro e
    rw [e] at hrep
    exact hrep List.nodup_nil
  obtain ⟨g, hg, hcnt⟩ := init_count f L hs (fun x hx => by have := (hW x hx).1; omega) hlen hne
  have hdd : L.dedup.length < L.length := by
    have hsub := List.dedup_sublist L
    rcases Nat.lt_or_ge L.dedup.length L.length with h | h
    · exact h
    · exfalso
      apply hrep
      have e := hsub.eq_of_length_le h
      rw [← e]
      exact List.nodup_dedup L
  have hstop : initStop f L = (g, false) := by
    have h1 := init_eq_initStop f L
    rw [hg] at h1
    cases hb : (initStop f L).2 with
    | true => simp [hb] at h1
    | false =>
      simp only [hb, Bool.false_eq_true, if_false, Option.some.injEq] at h1
      rw [h1, ← hb]
  refine ⟨g, hg, hstop, hcnt, hdd, ?_⟩
  rw [hcnt, List.card_toFinset]
  exact hdd

theorem init_repeated_witness :
    ([5, 5].Sorted (fun a b => a ≤ b) ∧ (∀ x ∈ [5, 5], 2 ≤ x ∧ x < W) ∧
      [5, 5].length < 9223372036854775808 ∧ ¬ [5, 5].Nodup) ∧
    init freelist.fresh [5, 5] = some (addSpan (addSpan freelist.fresh 5 1) 5 1) ∧
    (addSpan (addSpan freelist.fresh 5 1) 5 1).forwardMap = [(5, 1)] ∧
    (addSpan (addSpan freelist.fresh 5 1) 5 1).freePagesCount = 2 ∧
    ∃ g, init freelist.fresh [5, 5] = some g ∧ initStop freelist.fresh [5, 5] = (g, false) ∧
      g.freePagesCount = [5, 5].length ∧
      [5, 5].dedup.length < [5, 5].length ∧ [5, 5].toFinset.card < g.freePagesCount :=
  ⟨by decide, by decide, by decide, by decide,
    init_repeated freelist.fresh [5, 5] (by decide) (by decide) (by decide) (by decide)⟩


/-! ## Concrete scenarios -/

/-- C9, as stated, fails: after `init` with `{5,6,7,10,11,12,13,20}` and the merge of
the single id 8, with verification off or on, the index is not the two spans
`(5,9)`, `(20,1)` and the counter is not 10. -/
theorem scenario4_counterexample :
    ¬ ∃ verify f f1, init freelist.fresh scenarioIds = some f ∧
        hashmapMergeSpans verify f [8] = some f1 ∧
        (f1.forwardMap.Perm [(5, 9), (20, 1)] ∨ f1.freePagesCount = 10) := by
  rintro ⟨verify, f, f1, h0, h1, h2⟩
  rw [init_scenario] at h0
  cases h0
  have e1 : ∀ v, hashmapMergeSpans v scenarioState [8] = some
      { forwardMap := [(10, 4), (20, 1), (5, 4)], backwardMap := [(13, 4), (20, 1), (8, 4)],
        freemaps := [(4, [10, 5]), (1, [20])], freePagesCount := 9, allocs := [], cache := [] } := by
    decide
  rw [e1] at h1
  cases h1
  revert h2
  decide

/-- C9, amended: after `init` with `{5,6,7,10,11,12,13,20}` and the merge of the
single id 8, page 9 is still not free: the index holds exactly the three spans
`(5,4)`, `(10,4)`, `(20,1)`, in all three maps, and the free count is 9. -/
theorem scenario4 (verify : Bool) :
    ∃ f f1, init freelist.fresh scenarioIds = some f ∧
      hashmapMergeSpans verify f [8] = some f1 ∧
      f1.forwardMap.Perm [(5, 4), (10, 4), (20, 1)] ∧
      f1.backwardMap.Perm [(8, 4), (13, 4), (20, 1)] ∧
      f1.freemaps.Perm [(4, [10, 5]), (1, [20])] ∧
      f1.freePagesCount = 9 ∧ hashmapFreeCount verify f1 = some 9 ∧ ¬ isFree f1 9 := by
  refine ⟨scenarioState,
    { forwardMap := [(10, 4), (20, 1), (5, 4)], backwardMap := [(13, 4), (20, 1), (8, 4)],
      freemaps := [(4, [10, 5]), (1, [20])], freePagesCount := 9, allocs := [], cache := [] },
    init_scenario, ?_, ?_⟩
  · cases verify <;> decide
  · cases verify <;> decide


end Bbolt
